import Mathlib

/-!
Shallow embedding of the incremental hash table of `src/src/dict.c`
(the Redis `dict`), together with proofs about its operations.

Modelling conventions:
* Keys and values are natural numbers; an entry is a pair of a key and an
  optional value (`none` models the not-yet-set value of `dictAddRaw`).
* A bucket (`dictEntry *` chain) is a `List Entry`, head = chain head;
  a `NULL` bucket is `[]`.
* A hash table `dictht` stores its bucket array and its `used` counter;
  `size` and `sizemask` are always kept equal to the array length and
  length-1 by the C code, so they are derived functions here.
* The caller-supplied hash function is a parameter `hash : Nat → Nat`;
  `dictHashKey` truncates it to 32 bits, modelling the `unsigned int`
  return type of `dictType.hashFunction`.  Key comparison is `Nat`
  equality, modelling `key==he->key || dictCompareKeys(d, key, he->key)`.
* `unsigned long` arithmetic is on `Nat` with explicit `% 2 ^ 64`
  (or `&&&` against sub-`2 ^ 64` masks) where C wraps.
* `random()` is modelled as an explicit stream `rnd : Nat → Nat` consumed
  at an explicit position; unbounded `do ... while` retry loops get an
  explicit fuel argument recording that C loops until the condition holds.
-/

/-- An entry of the table: key plus optional value (the value is unset
between `dictAddRaw` and `dictSetVal`).  Models `dictEntry` without the
intrusive `next` pointer, which is represented by list structure. -/
abbrev Entry := Nat × Option Nat

/-- Modelled from the spec: `DICT_OK` result code of `dict.h` (absent from
the sources); operations "report error" with `DICT_ERR`. -/
def DICT_OK : Nat := 0

/-- Modelled from the spec: `DICT_ERR` result code of `dict.h`. -/
def DICT_ERR : Nat := 1

/-- Modelled from the spec: the minimum floor for table sizes
(`DICT_HT_INITIAL_SIZE` of `dict.h`, absent from the sources).  The spec's
concrete scenario speaks of a "4-slot initial table". -/
def DICT_HT_INITIAL_SIZE : Nat := 4

/-- `LONG_MAX` on the 64-bit platform the code assumes. -/
def LONG_MAX : Nat := 2 ^ 63 - 1

/-- One hash table (`dictht`): the bucket array and the live-entry count. -/
structure Dictht where
  table : List (List Entry)
  used : Nat
deriving Repr, DecidableEq

/-- `dictht.size`: the C code keeps it equal to the array length. -/
def Dictht.size (t : Dictht) : Nat := t.table.length

/-- `dictht.sizemask = size - 1` (0 for the empty table, as in `_dictReset`). -/
def Dictht.sizemask (t : Dictht) : Nat := t.size - 1

/-- The empty hash table produced by `_dictReset`. -/
def emptyHt : Dictht := { table := [], used := 0 }

/-- The dictionary (`dict`): two tables, the rehash index (-1 when idle,
as in C), and the count of open safe iterators. -/
structure Dict where
  ht0 : Dictht
  ht1 : Dictht
  rehashidx : Int
  iterators : Nat
deriving Repr, DecidableEq

/-- Modelled from the spec: `dictIsRehashing` of `dict.h`
("`rehashidx`: -1 when idle"). -/
def dictIsRehashing (d : Dict) : Prop := d.rehashidx ≠ -1

instance (d : Dict) : Decidable (dictIsRehashing d) := by
  unfold dictIsRehashing; infer_instance

/-- Modelled from the spec: `dictSize` of `dict.h` — the total number of
live entries `ht0.used + ht1.used`. -/
def dictSize (d : Dict) : Nat := d.ht0.used + d.ht1.used

/-- Modelled from the spec: `dictHashKey` applies the type's hash function,
whose C return type `unsigned int` truncates to 32 bits. -/
def dictHashKey (hash : Nat → Nat) (k : Nat) : Nat := hash k % 2 ^ 32

/-- The fresh dictionary made by `dictCreate`/`_dictInit`. -/
def dictCreate : Dict :=
  { ht0 := emptyHt, ht1 := emptyHt, rehashidx := -1, iterators := 0 }

/-- Bucket access `ht->table[i]`; a `NULL`/out-of-range bucket reads as `[]`. -/
def Dictht.bucket (t : Dictht) (i : Nat) : List Entry := t.table.getD i []

/-- The doubling loop of `_dictNextPower`, with fuel (the C loop runs
until `i >= size`, which the fuel `size` always reaches, see
`nextPowerAux_ge`). -/
def nextPowerAux (size : Nat) : Nat → Nat → Nat
  | 0, i => i
  | fuel + 1, i => if size ≤ i then i else nextPowerAux size fuel (i * 2)

/-- `_dictNextPower`: next power of two ≥ `size`, starting from
`DICT_HT_INITIAL_SIZE`, capped at `LONG_MAX`. -/
def dictNextPower (size : Nat) : Nat :=
  if LONG_MAX ≤ size then LONG_MAX
  else nextPowerAux size size DICT_HT_INITIAL_SIZE

/-- `dictExpand`: returns the updated dictionary and `DICT_OK`/`DICT_ERR`. -/
def dictExpand (d : Dict) (size : Nat) : Dict × Nat :=
  let realsize := dictNextPower size
  if dictIsRehashing d ∨ d.ht0.used > size then (d, DICT_ERR)
  else if realsize = d.ht0.size then (d, DICT_ERR)
  else
    let n : Dictht := { table := List.replicate realsize [], used := 0 }
    if d.ht0.table = [] then ({ d with ht0 := n }, DICT_OK)
    else ({ d with ht1 := n, rehashidx := 0 }, DICT_OK)

/-- The empty-bucket skip loop of `dictRehash`: starting at bucket `idx`
with `ev` remaining empty-bucket visits, advance `rehashidx` over `NULL`
buckets.  Returns `(idx', ev', hit)` where `hit` means `--empty_visits`
reached 0 and the C code returned 1 on the spot.  (The C loop decrements
`empty_visits` exactly when it steps over an empty bucket; it is always
entered with `empty_visits ≥ 1`.) -/
def skipEmptyBuckets (table : List (List Entry)) : Nat → Nat → Nat × Nat × Bool
  | idx, 0 => if (table.getD idx []).isEmpty then (idx + 1, 0, true)
    else (idx, 0, false)
  | idx, 1 => if (table.getD idx []).isEmpty then (idx + 1, 0, true)
    else (idx, 1, false)
  | idx, e + 2 =>
    if (table.getD idx []).isEmpty then skipEmptyBuckets table (idx + 1) (e + 1)
    else (idx, e + 2, false)

/-- Migrating one chain in `dictRehash`: every entry is prepended to
bucket `hash(key) & ht1.sizemask` of `t1`, decrementing `t0.used` and
incrementing `t1.used` per entry.  Returns the updated `(t0, t1)`. -/
def moveChain (hash : Nat → Nat) : List Entry → Dictht → Dictht → Dictht × Dictht
  | [], t0, t1 => (t0, t1)
  | e :: rest, t0, t1 =>
    let h := dictHashKey hash e.1 &&& t1.sizemask
    let t1' : Dictht :=
      { table := t1.table.set h (e :: t1.bucket h), used := t1.used + 1 }
    moveChain hash rest { t0 with used := t0.used - 1 } t1'

/-- The main `while(n-- && d->ht[0].used != 0)` loop of `dictRehash`.
Returns the dictionary, the remaining empty-visit budget, and whether the
loop returned 1 early because the budget was exhausted. -/
def rehashLoop (hash : Nat → Nat) : Nat → Nat → Dict → Dict × Nat × Bool
  | 0, ev, d => (d, ev, false)
  | n + 1, ev, d =>
    if d.ht0.used = 0 then (d, ev, false)
    else
      match skipEmptyBuckets d.ht0.table d.rehashidx.toNat ev with
      | (idx, _, true) => ({ d with rehashidx := (idx : Int) }, 0, true)
      | (idx, ev', false) =>
        let chain := d.ht0.bucket idx
        let (t0, t1) := moveChain hash chain d.ht0 d.ht1
        let d' : Dict :=
          { d with
            ht0 := { t0 with table := t0.table.set idx [] }
            ht1 := t1
            rehashidx := (idx : Int) + 1 }
        rehashLoop hash n ev' d'

/-- `dictRehash(d, n)`: performs up to `n` bucket migrations; returns the
updated dictionary and 0 ("done") or 1 ("more work remains"). -/
def dictRehash (hash : Nat → Nat) (d : Dict) (n : Nat) : Dict × Nat :=
  if ¬ dictIsRehashing d then (d, 0)
  else
    match rehashLoop hash n (n * 10) d with
    | (d', _, true) => (d', 1)
    | (d', _, false) =>
      if d'.ht0.used = 0 then
        ({ d' with ht0 := d'.ht1, ht1 := emptyHt, rehashidx := -1 }, 0)
      else (d', 1)

/-- `_dictRehashStep`: one step of rehashing, suppressed while any safe
iterator is open. -/
def dictRehashStep (hash : Nat → Nat) (d : Dict) : Dict :=
  if d.iterators = 0 then (dictRehash hash d 1).1 else d

/-- The global `dict_can_resize` flag; no claim toggles it, so it stays at
its initial value 1. -/
def dict_can_resize : Bool := true

/-- The `dict_force_resize_ratio` threshold (5). -/
def dictForceResizeBound : Nat := 5

/-- `_dictExpandIfNeeded`: run before every insertion. -/
def dictExpandIfNeeded (d : Dict) : Dict × Nat :=
  if dictIsRehashing d then (d, DICT_OK)
  else if d.ht0.size = 0 then dictExpand d DICT_HT_INITIAL_SIZE
  else if d.ht0.used ≥ d.ht0.size ∧
      (dict_can_resize ∨ d.ht0.used / d.ht0.size > dictForceResizeBound) then
    dictExpand d (d.ht0.used * 2)
  else (d, DICT_OK)

/-- Chain search used by `_dictKeyIndex` (`key==he->key || dictCompareKeys`). -/
def chainHasKey (key : Nat) (chain : List Entry) : Bool :=
  chain.any (fun e => e.1 = key)

/-- `_dictKeyIndex`: index for inserting `key`, or `none` when the key
already exists (or the implicit expand failed, the C `-1` in both cases).
When rehashing, the returned index is for `ht1`. -/
def dictKeyIndex (hash : Nat → Nat) (d : Dict) (key : Nat) : Dict × Option Nat :=
  let (d1, r) := dictExpandIfNeeded d
  if r = DICT_ERR then (d1, none)
  else
    let h := dictHashKey hash key
    let idx0 := h &&& d1.ht0.sizemask
    if chainHasKey key (d1.ht0.bucket idx0) then (d1, none)
    else if ¬ dictIsRehashing d1 then (d1, some idx0)
    else
      let idx1 := h &&& d1.ht1.sizemask
      if chainHasKey key (d1.ht1.bucket idx1) then (d1, none)
      else (d1, some idx1)

/-- `dictAddRaw`: adds `key` with a not-yet-set value.  On success returns
the location of the new entry as `(table#, bucket index)`; the entry is
prepended at the head of that bucket of the target table (`ht1` when
rehashing, else `ht0`). -/
def dictAddRaw (hash : Nat → Nat) (d : Dict) (key : Nat) :
    Dict × Option (Nat × Nat) :=
  let d0 := if dictIsRehashing d then dictRehashStep hash d else d
  match dictKeyIndex hash d0 key with
  | (d1, none) => (d1, none)
  | (d1, some idx) =>
    if dictIsRehashing d1 then
      let t := d1.ht1
      ({ d1 with ht1 :=
          { table := t.table.set idx ((key, none) :: t.bucket idx),
            used := t.used + 1 } }, some (1, idx))
    else
      let t := d1.ht0
      ({ d1 with ht0 :=
          { table := t.table.set idx ((key, none) :: t.bucket idx),
            used := t.used + 1 } }, some (0, idx))

/-- `dictSetVal` on the entry at the head of the bucket `dictAddRaw`
returned (the new entry is always the chain head). -/
def setHeadVal (v : Nat) : List Entry → List Entry
  | [] => []
  | e :: r => (e.1, some v) :: r

/-- Write value `v` into the entry at location `loc` (as returned by
`dictAddRaw`, so the entry is the head of its chain). -/
def setValAt (d : Dict) (loc : Nat × Nat) (v : Nat) : Dict :=
  if loc.1 = 1 then
    { d with ht1 := { d.ht1 with
        table := d.ht1.table.set loc.2 (setHeadVal v (d.ht1.bucket loc.2)) } }
  else
    { d with ht0 := { d.ht0 with
        table := d.ht0.table.set loc.2 (setHeadVal v (d.ht0.bucket loc.2)) } }

/-- `dictAdd`: `dictAddRaw` plus `dictSetVal`. -/
def dictAdd (hash : Nat → Nat) (d : Dict) (key val : Nat) : Dict × Nat :=
  match dictAddRaw hash d key with
  | (d1, none) => (d1, DICT_ERR)
  | (d1, some loc) => (setValAt d1 loc val, DICT_OK)

/-- Chain lookup of `dictFind` (`key==he->key || dictCompareKeys`). -/
def findInChain (key : Nat) (chain : List Entry) : Option Entry :=
  chain.find? (fun e => e.1 = key)

/-- `dictFind`: returns the (possibly rehash-stepped) dictionary and the
entry found, if any. -/
def dictFind (hash : Nat → Nat) (d : Dict) (key : Nat) : Dict × Option Entry :=
  if dictSize d = 0 then (d, none)
  else
    let d1 := if dictIsRehashing d then dictRehashStep hash d else d
    let h := dictHashKey hash key
    match findInChain key (d1.ht0.bucket (h &&& d1.ht0.sizemask)) with
    | some e => (d1, some e)
    | none =>
      if ¬ dictIsRehashing d1 then (d1, none)
      else (d1, findInChain key (d1.ht1.bucket (h &&& d1.ht1.sizemask)))

/-- Unlink the first entry with key `key` from a chain; `none` when the
key is not in the chain. -/
def removeFirst (key : Nat) : List Entry → Option (List Entry)
  | [] => none
  | e :: r =>
    if e.1 = key then some r else (removeFirst key r).map (e :: ·)

/-- `dictGenericDelete` (the `nofree` flag only affects destructor calls,
which have no observable effect in the model). -/
def dictGenericDelete (hash : Nat → Nat) (d : Dict) (key : Nat) : Dict × Nat :=
  if d.ht0.size = 0 then (d, DICT_ERR)
  else
    let d1 := if dictIsRehashing d then dictRehashStep hash d else d
    let h := dictHashKey hash key
    let i0 := h &&& d1.ht0.sizemask
    match removeFirst key (d1.ht0.bucket i0) with
    | some c =>
      ({ d1 with ht0 := { table := d1.ht0.table.set i0 c,
                          used := d1.ht0.used - 1 } }, DICT_OK)
    | none =>
      if ¬ dictIsRehashing d1 then (d1, DICT_ERR)
      else
        let i1 := h &&& d1.ht1.sizemask
        match removeFirst key (d1.ht1.bucket i1) with
        | some c =>
          ({ d1 with ht1 := { table := d1.ht1.table.set i1 c,
                              used := d1.ht1.used - 1 } }, DICT_OK)
        | none => (d1, DICT_ERR)

/-- `dictDelete`. -/
def dictDelete (hash : Nat → Nat) (d : Dict) (key : Nat) : Dict × Nat :=
  dictGenericDelete hash d key

/-- The `do { ... } while(he == NULL)` retry loop of `dictGetRandomKey`:
draw random values from `rnd` starting at position `p` until `pick` yields
a non-empty bucket (C retries unboundedly; `fuel` bounds the model). -/
def randomPickLoop (rnd : Nat → Nat) (pick : Nat → List Entry) :
    Nat → Nat → Option (List Entry × Nat)
  | _, 0 => none
  | p, fuel + 1 =>
    let he := pick (rnd p)
    if he.isEmpty then randomPickLoop rnd pick (p + 1) fuel
    else some (he, p + 1)

/-- `dictGetRandomKey`. -/
def dictGetRandomKey (hash : Nat → Nat) (rnd : Nat → Nat) (fuel : Nat)
    (d : Dict) : Dict × Option Entry :=
  if dictSize d = 0 then (d, none)
  else
    let d1 := if dictIsRehashing d then dictRehashStep hash d else d
    let pick : Nat → List Entry :=
      if dictIsRehashing d1 then
        fun r =>
          let h := d1.rehashidx.toNat +
            r % (d1.ht0.size + d1.ht1.size - d1.rehashidx.toNat)
          if h ≥ d1.ht0.size then d1.ht1.bucket (h - d1.ht0.size)
          else d1.ht0.bucket h
      else fun r => d1.ht0.bucket (r &&& d1.ht0.sizemask)
    match randomPickLoop rnd pick 0 fuel with
    | none => (d1, none)
    | some (he, p) =>
      let listele := rnd p % he.length
      (d1, some (he.getD listele (0, none)))

/-- Table selection `d->ht[j]`. -/
def Dict.ht (d : Dict) (j : Nat) : Dictht := if j = 0 then d.ht0 else d.ht1

/-- Iteration state of the `while(stored < count && maxsteps--)` loop of
`dictGetSomeKeys`: probe index `i`, consecutive-empty counter `emptylen`,
next `random()` position `p`, and collected entries `acc`. -/
structure SomeKeysState where
  i : Nat
  emptylen : Nat
  p : Nat
  acc : List Entry
deriving Repr, DecidableEq

/-- One iteration of the inner `for (j = 0; j < tables; j++)` body of
`dictGetSomeKeys` at table `j`.  The returned flag is true when the chain
collection reached `count` stored entries and the C code returned. -/
def someKeysVisit (rnd : Nat → Nat) (d : Dict) (count maxsizemask tables j : Nat)
    (st : SomeKeysState) : SomeKeysState × Bool :=
  if tables = 2 ∧ j = 0 ∧ st.i < d.rehashidx.toNat then
    if st.i ≥ d.ht1.size then ({ st with i := d.rehashidx.toNat }, false)
    else (st, false)
  else if st.i ≥ (d.ht j).size then (st, false)
  else
    let he := (d.ht j).bucket st.i
    if he.isEmpty then
      let el := st.emptylen + 1
      if 5 ≤ el ∧ count < el then
        ({ st with i := rnd st.p &&& maxsizemask, emptylen := 0, p := st.p + 1 },
         false)
      else ({ st with emptylen := el }, false)
    else
      let taken := he.take (count - st.acc.length)
      let acc' := st.acc ++ taken
      ({ st with emptylen := 0, acc := acc' }, decide (count ≤ acc'.length))

/-- The outer sampling loop of `dictGetSomeKeys`, with `fuel = maxsteps`. -/
def someKeysLoop (rnd : Nat → Nat) (d : Dict) (count maxsizemask tables : Nat) :
    Nat → SomeKeysState → List Entry
  | 0, st => st.acc
  | fuel + 1, st =>
    if count ≤ st.acc.length then st.acc
    else
      let r1 := someKeysVisit rnd d count maxsizemask tables 0 st
      if r1.2 then r1.1.acc
      else
        let r2 := if tables = 2 then
            someKeysVisit rnd d count maxsizemask tables 1 r1.1
          else (r1.1, false)
        if r2.2 then r2.1.acc
        else someKeysLoop rnd d count maxsizemask tables fuel
          { r2.1 with i := (r2.1.i + 1) &&& maxsizemask }

/-- The up-to-`count` opportunistic rehash steps at the top of
`dictGetSomeKeys` (the C `for` breaks at the first non-rehashing check). -/
def someKeysRehashSteps (hash : Nat → Nat) : Nat → Dict → Dict
  | 0, d => d
  | n + 1, d =>
    if dictIsRehashing d then someKeysRehashSteps hash n (dictRehashStep hash d)
    else d

/-- `dictGetSomeKeys(d, des, count)`: returns the stepped dictionary and
the collected entries (the C `des` array; its length is the return value). -/
def dictGetSomeKeys (hash : Nat → Nat) (rnd : Nat → Nat) (d : Dict)
    (count0 : Nat) : Dict × List Entry :=
  let count := if dictSize d < count0 then dictSize d else count0
  let maxsteps := count * 10
  let d1 := someKeysRehashSteps hash count d
  let tables := if dictIsRehashing d1 then 2 else 1
  let maxsizemask :=
    if tables > 1 ∧ d1.ht0.sizemask < d1.ht1.sizemask then d1.ht1.sizemask
    else d1.ht0.sizemask
  let st0 : SomeKeysState :=
    { i := rnd 0 &&& maxsizemask, emptylen := 0, p := 1, acc := [] }
  (d1, someKeysLoop rnd d1 count maxsizemask tables maxsteps st0)

/-- The 64-bit complement `~m` of C, for `m < 2 ^ 64`. -/
def compl64 (m : Nat) : Nat := (2 ^ 64 - 1) ^^^ m

/-- The bit-reversal loop of `rev` (the Stanford bit hack): `s` halves each
round; `mask ^= mask << s` and the block swap are truncated to 64 bits as
the C `unsigned long` arithmetic is.  The `fuel` argument only bounds the
loop (which halves `s = 64` down to 0, so 64 is ample); it exists to make
the recursion structural. -/
def rev64Go : Nat → Nat → Nat → Nat → Nat
  | 0, _, _, v => v
  | fuel + 1, s, mask, v =>
    if s >>> 1 = 0 then v
    else
      let s2 := s >>> 1
      let mask2 := (mask ^^^ (mask <<< s2)) % 2 ^ 64
      let v2 := ((v >>> s2) &&& mask2) |||
        (((v <<< s2) % 2 ^ 64) &&& compl64 mask2)
      rev64Go fuel s2 mask2 v2

/-- `rev(v)`: reverse the 64 bits of `v` (`s = 8 * sizeof(v) = 64`,
`mask = ~0`). -/
def rev64 (v : Nat) : Nat := rev64Go 64 64 (2 ^ 64 - 1) v

/-- The cursor update at the end of `dictScan`:
`v |= ~m0; v = rev(v); v++; v = rev(v);` (the increment wraps at 2^64). -/
def scanNextCursor (v m0 : Nat) : Nat :=
  rev64 ((rev64 (v ||| compl64 m0) + 1) % 2 ^ 64)

/-- The `do { ... } while (v & (m0 ^ m1))` loop of `dictScan` over the
indices of the larger table that expand the smaller-table bucket.  Returns
the entries emitted and the final value of the local cursor `v`.  The C
loop is bounded by the number of expansions; `fuel = m1 + 1` suffices for
power-of-two tables.  `(v | m0) + 1` can reach `2 ^ 64` exactly; `&&&`
against the sub-`2 ^ 64` mask `~m0` then yields 0, as the C wraparound
does. -/
def scanExpLoop (t1 : Dictht) (m0 m1 : Nat) :
    Nat → Nat → List Entry → List Entry × Nat
  | 0, v, acc => (acc, v)
  | fuel + 1, v, acc =>
    let acc' := acc ++ t1.bucket (v &&& m1)
    let v' := (((v ||| m0) + 1) &&& compl64 m0) ||| (v &&& m0)
    if v' &&& (m0 ^^^ m1) = 0 then (acc', v')
    else scanExpLoop t1 m0 m1 fuel v' acc'

/-- `dictScan(d, v, fn, privdata)`: returns the list of entries passed to
`fn`, in emission order, together with the next cursor. -/
def dictScan (d : Dict) (v : Nat) : List Entry × Nat :=
  if dictSize d = 0 then ([], 0)
  else if ¬ dictIsRehashing d then
    let t0 := d.ht0
    let m0 := t0.sizemask
    (t0.bucket (v &&& m0), scanNextCursor v m0)
  else
    let tt := if d.ht0.size > d.ht1.size then (d.ht1, d.ht0) else (d.ht0, d.ht1)
    let t0 := tt.1
    let t1 := tt.2
    let m0 := t0.sizemask
    let m1 := t1.sizemask
    let em0 := t0.bucket (v &&& m0)
    let r := scanExpLoop t1 m0 m1 (m1 + 1) v []
    (em0 ++ r.1, scanNextCursor r.2 m0)

/-- A scan session: repeated `dictScan` calls, each on the then-current
dictionary state, each fed the previous returned cursor.  Returns all
emitted entries and the final returned cursor. -/
def scanSession : List Dict → Nat → List Entry × Nat
  | [], v => ([], v)
  | d :: ds, v =>
    let r1 := dictScan d v
    let r2 := scanSession ds r1.2
    (r1.1 ++ r2.1, r2.2)

/-- Iterator state (`dictIterator` without the back-pointer to the dict
and the fingerprint, which only feeds the release-time assert).  `entry`
and `nextEntry` hold the chain suffix whose head is the C pointer. -/
structure DictIterator where
  table : Nat
  index : Int
  safe : Bool
  entry : List Entry
  nextEntry : List Entry
deriving Repr, DecidableEq

/-- `dictGetIterator`: a fresh unsafe iterator. -/
def dictGetIterator : DictIterator :=
  { table := 0, index := -1, safe := false, entry := [], nextEntry := [] }

/-- `dictGetSafeIterator`: a fresh safe iterator.  Note it does not touch
the dictionary; the safe-iterator counter is incremented on first advance. -/
def dictGetSafeIterator : DictIterator :=
  { dictGetIterator with safe := true }

/-- The `while(1)` loop of `dictNext`, with fuel (each iteration either
follows a chain or advances the bucket index, so the bucket counts bound
it). -/
def dictNextLoop :
    Nat → DictIterator → Dict → DictIterator × Dict × Option Entry
  | 0, it, d => (it, d, none)
  | fuel + 1, it, d =>
    if it.entry.isEmpty then
      let tbl := it.table
      let d' :=
        if it.index = -1 ∧ tbl = 0 ∧ it.safe then
          { d with iterators := d.iterators + 1 }
        else d
      let idx := it.index + 1
      if idx ≥ (d'.ht tbl).size then
        if dictIsRehashing d' ∧ tbl = 0 then
          let it' := { it with table := 1, index := 0, entry := (d'.ht 1).bucket 0 }
          if it'.entry.isEmpty then dictNextLoop fuel it' d'
          else ((({ it' with nextEntry := it'.entry.tail }) : DictIterator), d',
                it'.entry.head?)
        else ({ it with index := idx }, d', none)
      else
        let it' := { it with index := idx, entry := (d'.ht tbl).bucket idx.toNat }
        if it'.entry.isEmpty then dictNextLoop fuel it' d'
        else ({ it' with nextEntry := it'.entry.tail }, d', it'.entry.head?)
    else
      let it' := { it with entry := it.nextEntry }
      if it'.entry.isEmpty then dictNextLoop fuel it' d
      else ({ it' with nextEntry := it'.entry.tail }, d, it'.entry.head?)

/-- `dictNext`: fuel covers both tables' buckets. -/
def dictNext (it : DictIterator) (d : Dict) :
    DictIterator × Dict × Option Entry :=
  dictNextLoop (d.ht0.size + d.ht1.size + 2) it d

/-- `dictReleaseIterator` (the fingerprint assert of the unsafe branch has
no observable effect in the model). -/
def dictReleaseIterator (it : DictIterator) (d : Dict) : Dict :=
  if ¬ (it.index = -1 ∧ it.table = 0) ∧ it.safe then
    { d with iterators := d.iterators - 1 }
  else d

/-! ### Derived views of table contents, and well-formedness -/

/-- All entries of a table, bucket by bucket. -/
def Dictht.entries (t : Dictht) : List Entry := t.table.flatten

/-- All keys of a table. -/
def Dictht.keys (t : Dictht) : List Nat := t.entries.map Prod.fst

/-- All entries of the dictionary (both tables). -/
def Dict.entries (d : Dict) : List Entry := d.ht0.entries ++ d.ht1.entries

/-- All keys of the dictionary. -/
def Dict.keys (d : Dict) : List Nat := d.ht0.keys ++ d.ht1.keys

/-- Key membership in the dictionary. -/
def dictContainsKey (d : Dict) (k : Nat) : Prop := k ∈ d.keys

instance (d : Dict) (k : Nat) : Decidable (dictContainsKey d k) := by
  unfold dictContainsKey; infer_instance

theorem flatten_parts {α : Type} (l : List (List α)) (i : Nat)
    (hi : i < l.length) :
    l.flatten = (l.take i).flatten ++ l[i] ++ (l.drop (i + 1)).flatten := by
  conv_lhs => rw [← List.take_append_drop i l]
  rw [← List.getElem_cons_drop l i hi, List.flatten_append, List.flatten_cons,
    List.append_assoc]

theorem flatten_set_parts {α : Type} (l : List (List α)) (i : Nat)
    (hi : i < l.length) (v : List α) :
    (l.set i v).flatten = (l.take i).flatten ++ v ++ (l.drop (i + 1)).flatten := by
  rw [List.set_eq_take_append_cons_drop, if_pos hi, List.flatten_append,
    List.flatten_cons, List.append_assoc]

/-- Prepending an entry to bucket `i` prepends it to the flattened pool. -/
theorem flatten_set_cons_perm {α : Type} (l : List (List α)) (i : Nat)
    (hi : i < l.length) (a : α) :
    (l.set i (a :: l.getD i [])).flatten.Perm (a :: l.flatten) := by
  rw [flatten_set_parts l i hi, List.getD_eq_getElem l [] hi,
    flatten_parts l i hi]
  simpa [List.append_assoc] using
    (@List.perm_middle α a ((l.take i).flatten)
      (l[i] ++ (l.drop (i + 1)).flatten))

/-- Replacing bucket `i` by `v`: the old bucket plus the new pool is a
permutation of `v` plus the old pool. -/
theorem flatten_set_perm {α : Type} (l : List (List α)) (i : Nat)
    (hi : i < l.length) (v : List α) :
    (l.getD i [] ++ (l.set i v).flatten).Perm (v ++ l.flatten) := by
  rw [flatten_set_parts l i hi, List.getD_eq_getElem l [] hi,
    flatten_parts l i hi, ← Multiset.coe_eq_coe]
  simp only [← Multiset.coe_add]
  abel

/-- Well-formedness of one hash table: power-of-two size (or the empty
unallocated table), accurate `used` counter, and every entry sitting in
the bucket its hash selects. -/
structure HtWF (hash : Nat → Nat) (t : Dictht) : Prop where
  size_pow : t.table = [] ∨ ∃ b, b ≤ 63 ∧ t.table.length = 2 ^ b
  used_eq : t.used = t.entries.length
  placed : ∀ i, (hi : i < t.table.length) → ∀ e ∈ t.table[i],
    dictHashKey hash e.1 &&& t.sizemask = i

/-- Well-formedness of a dictionary state, as maintained by the C code
between API calls. -/
structure DictWF (hash : Nat → Nat) (d : Dict) : Prop where
  wf0 : HtWF hash d.ht0
  wf1 : HtWF hash d.ht1
  idle_ht1 : ¬ dictIsRehashing d → d.ht1.table = []
  reh_nonneg : dictIsRehashing d → 0 ≤ d.rehashidx
  reh_lt : dictIsRehashing d → d.ht0.used = 0 ∨ d.rehashidx.toNat < d.ht0.table.length
  reh_ht1 : dictIsRehashing d → d.ht1.table ≠ []
  reh_ht0 : dictIsRehashing d → d.ht0.table ≠ []
  below_empty : dictIsRehashing d → ∀ i < d.rehashidx.toNat, d.ht0.bucket i = []
  nodup : d.keys.Nodup

theorem Dictht.entries_length_eq (t : Dictht) :
    t.entries.length = (t.table.map List.length).sum := by
  simp [Dictht.entries]

/-- A power-of-two-sized table is non-empty, and masking lands in range. -/
theorem mask_lt_of_pow (t : Dictht) (b : Nat) (hb : t.table.length = 2 ^ b)
    (h : Nat) : h &&& t.sizemask < t.table.length := by
  have hpos : 0 < t.table.length := by rw [hb]; exact Nat.pos_pow_of_pos b (by omega)
  have : t.sizemask = 2 ^ b - 1 := by
    simp [Dictht.sizemask, Dictht.size, hb]
  rw [this, Nat.and_pow_two_sub_one_eq_mod, hb]
  exact Nat.mod_lt _ (Nat.pos_pow_of_pos b (by omega))

theorem Dictht.bucket_eq_getElem (t : Dictht) (i : Nat)
    (hi : i < t.table.length) : t.bucket i = t.table[i] :=
  List.getD_eq_getElem t.table [] hi

/-- Membership in the entry pool, bucket-indexed. -/
theorem mem_entries_iff (t : Dictht) (e : Entry) :
    e ∈ t.entries ↔ ∃ i, ∃ hi : i < t.table.length, e ∈ t.table[i] := by
  unfold Dictht.entries
  rw [List.mem_flatten]
  constructor
  · rintro ⟨c, hc, he⟩
    obtain ⟨i, hi, rfl⟩ := List.mem_iff_getElem.mp hc
    exact ⟨i, hi, he⟩
  · rintro ⟨i, hi, he⟩
    exact ⟨t.table[i], List.getElem_mem hi, he⟩

/-- Under `HtWF`, every entry is in the bucket selected by its hash. -/
theorem mem_bucket_of_mem_entries {hash : Nat → Nat} {t : Dictht}
    (hwf : HtWF hash t) {e : Entry} (he : e ∈ t.entries) :
    e ∈ t.bucket (dictHashKey hash e.1 &&& t.sizemask) := by
  obtain ⟨i, hi, hmem⟩ := (mem_entries_iff t e).mp he
  have hp := hwf.placed i hi e hmem
  subst hp
  rw [Dictht.bucket_eq_getElem t _ hi]
  exact hmem

/-- A table with `used = 0` has no entries (under `HtWF`). -/
theorem entries_eq_nil_of_used_zero {hash : Nat → Nat} {t : Dictht}
    (hwf : HtWF hash t) (h : t.used = 0) : t.entries = [] := by
  have := hwf.used_eq
  rw [h] at this
  exact List.eq_nil_of_length_eq_zero this.symm

theorem emptyHt_entries : emptyHt.entries = [] := rfl

/-- `chainHasKey` is searching for a key among the chain's keys. -/
theorem chainHasKey_iff (key : Nat) (c : List Entry) :
    chainHasKey key c = true ↔ ∃ e ∈ c, e.1 = key := by
  simp [chainHasKey, List.any_eq_true]

theorem findInChain_eq_none_iff (key : Nat) (c : List Entry) :
    findInChain key c = none ↔ ∀ e ∈ c, e.1 ≠ key := by
  simp [findInChain, List.find?_eq_none]

theorem findInChain_some_mem {key : Nat} {c : List Entry} {e : Entry}
    (h : findInChain key c = some e) : e ∈ c ∧ e.1 = key := by
  refine ⟨List.mem_of_find?_eq_some h, ?_⟩
  have := List.find?_some h
  simpa using this

/-- Specification of `removeFirst`: `none` iff the key is absent; on
success the chain was (up to order) the removed entry plus the result. -/
theorem removeFirst_eq_none_iff (key : Nat) (c : List Entry) :
    removeFirst key c = none ↔ ∀ e ∈ c, e.1 ≠ key := by
  induction c with
  | nil => simp [removeFirst]
  | cons e r ih =>
    by_cases h : e.1 = key
    · simp [removeFirst, h]
    · simp only [removeFirst, if_neg h, Option.map_eq_none', List.mem_cons]
      rw [ih]
      constructor
      · rintro hall e' (rfl | he') <;> [exact h; exact hall e' he']
      · intro hall e' he'
        exact hall e' (Or.inr he')

theorem removeFirst_some_perm {key : Nat} {c c' : List Entry}
    (h : removeFirst key c = some c') :
    ∃ e, e ∈ c ∧ e.1 = key ∧ c.Perm (e :: c') := by
  induction c generalizing c' with
  | nil => simp [removeFirst] at h
  | cons a r ih =>
    by_cases ha : a.1 = key
    · rw [removeFirst, if_pos ha] at h
      cases h
      exact ⟨a, List.mem_cons_self a r, ha, List.Perm.refl _⟩
    · rw [removeFirst, if_neg ha] at h
      obtain ⟨r', hr', rfl⟩ := Option.map_eq_some'.mp h
      obtain ⟨e, hmem, hkey, hperm⟩ := ih hr'
      refine ⟨e, List.mem_cons_of_mem a hmem, hkey, ?_⟩
      exact (hperm.cons a).trans (List.Perm.swap e a r')

/-- Specification of the empty-bucket skip loop: the index never moves
backwards, every skipped bucket was empty, on normal exit the final bucket
is non-empty and the budget did not grow, and on early exit the index
moved by at least one step. -/
theorem skipEmptyBuckets_spec (table : List (List Entry)) :
    ∀ ev idx, idx ≤ (skipEmptyBuckets table idx ev).1 ∧
    (∀ j, idx ≤ j → j < (skipEmptyBuckets table idx ev).1 →
      table.getD j [] = []) ∧
    ((skipEmptyBuckets table idx ev).2.2 = false →
      table.getD (skipEmptyBuckets table idx ev).1 [] ≠ [] ∧
      (skipEmptyBuckets table idx ev).2.1 ≤ ev) ∧
    ((skipEmptyBuckets table idx ev).2.2 = true →
      idx < (skipEmptyBuckets table idx ev).1) := by
  intro ev
  induction ev using Nat.strong_induction_on with
  | _ ev ih =>
    intro idx
    match ev with
    | 0 =>
      rw [skipEmptyBuckets]
      by_cases hemp : (table.getD idx []).isEmpty
      · rw [if_pos hemp]
        refine ⟨by omega, ?_, by simp, fun _ => by omega⟩
        intro j h1 h2
        have : j = idx := by omega
        subst this
        exact List.isEmpty_iff.mp hemp
      · rw [if_neg hemp]
        refine ⟨Nat.le_refl _, by omega, ?_, by simp⟩
        intro _
        refine ⟨?_, Nat.le_refl _⟩
        intro h
        rw [List.isEmpty_iff] at hemp
        exact hemp h
    | 1 =>
      rw [skipEmptyBuckets]
      by_cases hemp : (table.getD idx []).isEmpty
      · rw [if_pos hemp]
        refine ⟨by omega, ?_, by simp, fun _ => by omega⟩
        intro j h1 h2
        have : j = idx := by omega
        subst this
        exact List.isEmpty_iff.mp hemp
      · rw [if_neg hemp]
        refine ⟨Nat.le_refl _, by omega, ?_, by simp⟩
        intro _
        refine ⟨?_, Nat.le_refl _⟩
        intro h
        rw [List.isEmpty_iff] at hemp
        exact hemp h
    | e + 2 =>
      rw [skipEmptyBuckets]
      by_cases hemp : (table.getD idx []).isEmpty
      · rw [if_pos hemp]
        obtain ⟨ha, hb, hc, hd⟩ := ih (e + 1) (by omega) (idx + 1)
        refine ⟨by omega, ?_, ?_, ?_⟩
        · intro j h1 h2
          rcases Nat.eq_or_lt_of_le h1 with rfl | h1'
          · exact List.isEmpty_iff.mp hemp
          · exact hb j h1' h2
        · intro hf
          obtain ⟨x, y⟩ := hc hf
          exact ⟨x, by omega⟩
        · intro hf
          have := hd hf
          omega
      · rw [if_neg hemp]
        refine ⟨Nat.le_refl _, by omega, ?_, by simp⟩
        intro _
        refine ⟨?_, Nat.le_refl _⟩
        intro h
        rw [List.isEmpty_iff] at hemp
        exact hemp h

/-- The skip loop never moves past a non-empty bucket. -/
theorem skipEmptyBuckets_le (table : List (List Entry)) (ev idx j : Nat)
    (hj : idx ≤ j) (hne : table.getD j [] ≠ []) :
    (skipEmptyBuckets table idx ev).1 ≤ j := by
  by_contra h
  exact hne ((skipEmptyBuckets_spec table ev idx).2.1 j hj (by omega))

/-- `moveChain` leaves the source table's buckets alone and only debits
its `used` counter. -/
theorem moveChain_fst (hash : Nat → Nat) (chain : List Entry) (t0 t1 : Dictht) :
    (moveChain hash chain t0 t1).1.table = t0.table ∧
    (moveChain hash chain t0 t1).1.used = t0.used - chain.length := by
  induction chain generalizing t0 t1 with
  | nil => simp [moveChain]
  | cons e rest ih =>
    rw [moveChain]
    obtain ⟨h1, h2⟩ := ih { t0 with used := t0.used - 1 } _
    refine ⟨h1, ?_⟩
    rw [h2]
    simp only [List.length_cons]
    omega

/-- `moveChain` on the target table: bucket count preserved, `used`
credited per entry, the entry pool extended by the chain, and correct
placement preserved. -/
theorem moveChain_snd (hash : Nat → Nat) (chain : List Entry) (t0 t1 : Dictht)
    (b : Nat) (hb : t1.table.length = 2 ^ b)
    (hplaced : ∀ i, (hi : i < t1.table.length) → ∀ e ∈ t1.table[i],
      dictHashKey hash e.1 &&& t1.sizemask = i) :
    (moveChain hash chain t0 t1).2.table.length = t1.table.length ∧
    (moveChain hash chain t0 t1).2.used = t1.used + chain.length ∧
    (moveChain hash chain t0 t1).2.entries.Perm (chain ++ t1.entries) ∧
    (∀ i, (hi : i < (moveChain hash chain t0 t1).2.table.length) →
      ∀ e ∈ (moveChain hash chain t0 t1).2.table[i],
        dictHashKey hash e.1 &&& (moveChain hash chain t0 t1).2.sizemask = i) := by
  induction chain generalizing t0 t1 with
  | nil => exact ⟨rfl, by simp [moveChain], by simp [moveChain], hplaced⟩
  | cons e rest ih =>
    rw [moveChain]
    set h := dictHashKey hash e.1 &&& t1.sizemask with hh
    have hlt : h < t1.table.length := mask_lt_of_pow t1 b hb _
    set t1' : Dictht :=
      { table := t1.table.set h (e :: t1.bucket h), used := t1.used + 1 } with ht1'
    have hlen' : t1'.table.length = t1.table.length := by
      simp [ht1', List.length_set]
    have hmask' : t1'.sizemask = t1.sizemask := by
      simp [Dictht.sizemask, Dictht.size, hlen']
    have hplaced' : ∀ i, (hi : i < t1'.table.length) → ∀ e' ∈ t1'.table[i],
        dictHashKey hash e'.1 &&& t1'.sizemask = i := by
      intro i hi e' he'
      rw [hmask']
      have hi2 : i < t1.table.length := hlen' ▸ hi
      by_cases hih : i = h
      · have hset : t1'.table[i] = e :: t1.bucket h := by
          simp only [ht1', hih]
          apply List.getElem_set_self
        rw [hset] at he'
        rcases List.mem_cons.mp he' with rfl | hmem
        · rw [hih]
        · rw [Dictht.bucket_eq_getElem t1 h hlt] at hmem
          rw [hih]
          exact hplaced h hlt e' hmem
      · have hset : t1'.table[i] = t1.table[i] := by
          simp only [ht1']
          exact List.getElem_set_ne (fun hc => hih hc.symm) _
        rw [hset] at he'
        exact hplaced i hi2 e' he'
    have hperm' : t1'.entries.Perm (e :: t1.entries) := by
      simp only [ht1', Dictht.entries]
      exact flatten_set_cons_perm t1.table h hlt e
    obtain ⟨l1, l2, l3, l4⟩ := ih { t0 with used := t0.used - 1 } t1'
      (by rw [hlen']; exact hb) hplaced'
    refine ⟨by rw [l1, hlen'], ?_, ?_, l4⟩
    · rw [l2]
      simp only [ht1', List.length_cons]
      omega
    · refine l3.trans ((hperm'.append_left rest).trans ?_)
      exact List.perm_middle

/-- Number of `ht0` buckets that went from non-empty to empty. -/
def clearedCard (dOld dNew : Dict) : Nat :=
  ((Finset.range dOld.ht0.table.length).filter
    (fun i => dOld.ht0.bucket i ≠ [] ∧ dNew.ht0.bucket i = [])).card

theorem clearedCard_refl_zero (dOld dNew : Dict)
    (h : ∀ i, dNew.ht0.bucket i = dOld.ht0.bucket i) :
    clearedCard dOld dNew = 0 := by
  unfold clearedCard
  rw [Finset.card_eq_zero, Finset.filter_eq_empty_iff]
  intro i _
  rw [h i]
  tauto

/-- Multiset-style shuffle used when a chain moves from `ht0` to `ht1`. -/
theorem perm_shuffle {α : Type} (E0 E1 E0' E1' chain : List α)
    (h0 : E0.Perm (chain ++ E0')) (h1 : E1'.Perm (chain ++ E1)) :
    (E0' ++ E1').Perm (E0 ++ E1) := by
  rw [← Multiset.coe_eq_coe] at h0 h1 ⊢
  rw [← Multiset.coe_add, ← Multiset.coe_add, h0, h1, ← Multiset.coe_add,
    ← Multiset.coe_add]
  abel

/-- Under well-formedness, a rehashing dictionary with live `ht0` entries
has a non-empty bucket at or after `rehashidx`. -/
theorem exists_nonempty_bucket_ge {hash : Nat → Nat} {d : Dict}
    (hwf : DictWF hash d) (hreh : dictIsRehashing d)
    (hused : d.ht0.used ≠ 0) :
    ∃ j, d.rehashidx.toNat ≤ j ∧ j < d.ht0.table.length ∧
      d.ht0.bucket j ≠ [] := by
  have hne : d.ht0.entries ≠ [] := by
    intro h
    apply hused
    rw [hwf.wf0.used_eq, h]
    rfl
  obtain ⟨e, he⟩ := List.exists_mem_of_ne_nil _ hne
  obtain ⟨i, hi, hmem⟩ := (mem_entries_iff _ e).mp he
  refine ⟨i, ?_, hi, ?_⟩
  · by_contra hlt
    have := hwf.below_empty hreh i (by omega)
    rw [Dictht.bucket_eq_getElem _ i hi] at this
    rw [this] at hmem
    exact List.not_mem_nil e hmem
  · rw [Dictht.bucket_eq_getElem _ i hi]
    intro h
    rw [h] at hmem
    exact List.not_mem_nil e hmem

theorem getD_set_of_ne {α : Type} (l : List (List α)) (i j : Nat)
    (v : List α) (h : i ≠ j) : (l.set i v).getD j [] = l.getD j [] := by
  rcases Nat.lt_or_ge j l.length with hj | hj
  · rw [List.getD_eq_getElem _ _ (by simpa using hj),
      List.getD_eq_getElem _ _ hj]
    exact List.getElem_set_ne h _
  · simp [List.getD_eq_getElem?_getD, List.getElem?_eq_none, hj,
      List.length_set]

theorem getD_set_self {α : Type} (l : List (List α)) (i : Nat)
    (v : List α) (hi : i < l.length) : (l.set i v).getD i [] = v := by
  rw [List.getD_eq_getElem _ _ (by simpa using hi)]
  exact List.getElem_set_self _

theorem Dict.keys_eq (d : Dict) : d.keys = d.entries.map Prod.fst := by
  simp [Dict.keys, Dict.entries, Dictht.keys, List.map_append]

/-- Nodup of keys transfers along an entry permutation. -/
theorem nodup_of_entries_perm {d d' : Dict}
    (hperm : d'.entries.Perm d.entries) (h : d.keys.Nodup) :
    d'.keys.Nodup := by
  rw [Dict.keys_eq] at h ⊢
  exact ((hperm.map Prod.fst).nodup_iff).mpr h


/-- Effect of migrating the single non-empty bucket `idx` inside the
`dictRehash` loop: well-formedness is preserved, the entry pool is
permuted, geometry is unchanged, and bucket `idx` of `ht0` is cleared. -/
theorem migrate_step (hash : Nat → Nat) (d : Dict) (idx : Nat)
    (hwf : DictWF hash d) (hreh : dictIsRehashing d)
    (hidxlt : idx < d.ht0.table.length)
    (_hge : d.rehashidx.toNat ≤ idx)
    (hempties : ∀ i, d.rehashidx.toNat ≤ i → i < idx → d.ht0.bucket i = []) :
    ∀ t0 t1, moveChain hash (d.ht0.bucket idx) d.ht0 d.ht1 = (t0, t1) →
    DictWF hash { d with
      ht0 := { table := t0.table.set idx [], used := t0.used },
      ht1 := t1, rehashidx := (idx : Int) + 1 } ∧
    dictIsRehashing { d with
      ht0 := { table := t0.table.set idx [], used := t0.used },
      ht1 := t1, rehashidx := (idx : Int) + 1 } ∧
    (t0.table.set idx []).length = d.ht0.table.length ∧
    t1.table.length = d.ht1.table.length ∧
    (Dict.entries { d with
      ht0 := { table := t0.table.set idx [], used := t0.used },
      ht1 := t1, rehashidx := (idx : Int) + 1 }).Perm d.entries ∧
    (∀ i, i ≠ idx →
      ({ table := t0.table.set idx [], used := t0.used } : Dictht).bucket i =
        d.ht0.bucket i) ∧
    ({ table := t0.table.set idx [], used := t0.used } : Dictht).bucket idx
      = [] := by
  intro t0 t1 hmc
  obtain ⟨b1, hb1le, hb1⟩ : ∃ b, b ≤ 63 ∧ d.ht1.table.length = 2 ^ b := by
    rcases hwf.wf1.size_pow with h | h
    · exact absurd h (hwf.reh_ht1 hreh)
    · exact h
  have hfst := moveChain_fst hash (d.ht0.bucket idx) d.ht0 d.ht1
  rw [hmc] at hfst
  dsimp only at hfst
  obtain ⟨ht0tbl, ht0used⟩ := hfst
  have hsnd := moveChain_snd hash (d.ht0.bucket idx) d.ht0 d.ht1 b1 hb1
    hwf.wf1.placed
  rw [hmc] at hsnd
  dsimp only at hsnd
  obtain ⟨ht1len, ht1used, ht1perm, ht1placed⟩ := hsnd
  have hlen0 : (t0.table.set idx []).length = d.ht0.table.length := by
    rw [List.length_set, ht0tbl]
  have hbuck_ne : ∀ i, i ≠ idx →
      ({ table := t0.table.set idx [], used := t0.used } : Dictht).bucket i =
        d.ht0.bucket i := by
    intro i hne
    show (t0.table.set idx []).getD i [] = d.ht0.table.getD i []
    rw [ht0tbl]
    exact getD_set_of_ne _ _ _ _ (fun h => hne h.symm)
  have hbuck_idx :
      ({ table := t0.table.set idx [], used := t0.used } : Dictht).bucket idx
        = [] := by
    show (t0.table.set idx []).getD idx [] = []
    rw [ht0tbl]
    exact getD_set_self _ _ _ hidxlt
  have hperm0 : d.ht0.entries.Perm
      (d.ht0.bucket idx ++ (t0.table.set idx []).flatten) := by
    rw [ht0tbl]
    have h2 := flatten_set_perm d.ht0.table idx hidxlt []
    simp only [List.nil_append] at h2
    exact h2.symm
  have hE0len : (t0.table.set idx []).flatten.length +
      (d.ht0.bucket idx).length = d.ht0.entries.length := by
    have h3 := hperm0.length_eq
    simp only [List.length_append] at h3
    omega
  have hpermD : (Dict.entries { d with
      ht0 := { table := t0.table.set idx [], used := t0.used },
      ht1 := t1, rehashidx := (idx : Int) + 1 }).Perm d.entries := by
    show ((t0.table.set idx []).flatten ++ t1.entries).Perm
      (d.ht0.entries ++ d.ht1.entries)
    exact perm_shuffle _ _ _ _ (d.ht0.bucket idx) hperm0 ht1perm
  have hreh' : dictIsRehashing { d with
      ht0 := { table := t0.table.set idx [], used := t0.used },
      ht1 := t1, rehashidx := (idx : Int) + 1 } := by
    show ((idx : Int) + 1) ≠ -1
    omega
  have husedmid : t0.used = (t0.table.set idx []).flatten.length := by
    rw [ht0used]
    have h4 := hwf.wf0.used_eq
    simp only [Dictht.entries] at h4 hE0len
    omega
  refine ⟨?_, hreh', hlen0, ht1len, hpermD, hbuck_ne, hbuck_idx⟩
  refine
    { wf0 := ?_
      wf1 := ?_
      idle_ht1 := fun h => absurd hreh' h
      reh_nonneg := fun _ => by show (0 : Int) ≤ (idx : Int) + 1; omega
      reh_lt := ?_
      reh_ht1 := fun _ => by
        show t1.table ≠ []
        have : 0 < t1.table.length := by
          rw [ht1len, hb1]
          exact Nat.pos_pow_of_pos b1 (by omega)
        exact List.ne_nil_of_length_pos this
      reh_ht0 := fun _ => by
        show t0.table.set idx [] ≠ []
        apply List.ne_nil_of_length_pos
        rw [hlen0]
        omega
      below_empty := fun _ i hi => ?_
      nodup := nodup_of_entries_perm hpermD hwf.nodup }
  · -- wf0
    refine ⟨?_, husedmid, ?_⟩
    · rcases hwf.wf0.size_pow with h | ⟨b, hb63, hb⟩
      · left
        show t0.table.set idx [] = []
        rw [← List.length_eq_zero, hlen0, h]
        rfl
      · right
        exact ⟨b, hb63, by rw [hlen0, hb]⟩
    · intro i hi e he
      dsimp only at hi he ⊢
      have hmask : (t0.table.set idx []).length - 1 =
          d.ht0.table.length - 1 := by rw [hlen0]
      show dictHashKey hash e.1 &&& ((t0.table.set idx []).length - 1) = i
      rw [hmask]
      have hi' : i < d.ht0.table.length := by rw [← hlen0]; exact hi
      by_cases hieq : i = idx
      · have hmem : e ∈ (t0.table.set idx []).getD i [] := by
          rw [List.getD_eq_getElem _ _ hi]
          exact he
        rw [hieq] at hmem
        have hb : (t0.table.set idx []).getD idx [] = [] := hbuck_idx
        rw [hb] at hmem
        exact absurd hmem (List.not_mem_nil e)
      · have heq : (t0.table.set idx [])[i] = d.ht0.table[i] := by
          have hb := hbuck_ne i hieq
          rw [Dictht.bucket_eq_getElem _ i hi'] at hb
          calc (t0.table.set idx [])[i] =
              (t0.table.set idx []).getD i [] :=
                (List.getD_eq_getElem _ _ hi).symm
            _ = d.ht0.table[i] := hb
        rw [heq] at he
        exact hwf.wf0.placed i hi' e he
  · -- wf1
    refine ⟨?_, ?_, ?_⟩
    · right
      exact ⟨b1, hb1le, by rw [ht1len, hb1]⟩
    · show t1.used = t1.entries.length
      rw [ht1used, ht1perm.length_eq]
      simp only [List.length_append]
      rw [hwf.wf1.used_eq]
      omega
    · intro i hi e he
      exact ht1placed i hi e he
  · -- reh_lt
    intro _
    dsimp only
    by_cases huz : t0.used = 0
    · exact Or.inl huz
    · right
      have htn : ((idx : Int) + 1).toNat = idx + 1 := by omega
      rw [htn, hlen0]
      have hne : (t0.table.set idx []).flatten ≠ [] := by
        intro h
        rw [h] at husedmid
        exact huz (by simpa using husedmid)
      obtain ⟨e, he⟩ := List.exists_mem_of_ne_nil _ hne
      rw [List.mem_flatten] at he
      obtain ⟨c, hc, hec⟩ := he
      obtain ⟨i, hi, rfl⟩ := List.mem_iff_getElem.mp hc
      have hi' : i < d.ht0.table.length := by rw [← hlen0]; exact hi
      have hcne : ({ table := t0.table.set idx [], used := t0.used } :
          Dictht).bucket i ≠ [] := by
        show (t0.table.set idx []).getD i [] ≠ []
        rw [List.getD_eq_getElem _ _ hi]
        intro h
        rw [h] at hec
        exact List.not_mem_nil e hec
      have hii : i ≠ idx := by
        intro h
        rw [h] at hcne
        exact hcne hbuck_idx
      have hgt : i > idx := by
        rcases Nat.lt_or_ge i (d.rehashidx.toNat) with h | h
        · exact absurd ((hbuck_ne i hii).trans (hwf.below_empty hreh i h))
            hcne
        · rcases Nat.lt_or_ge i idx with h2 | h2
          · exact absurd ((hbuck_ne i hii).trans (hempties i h h2)) hcne
          · omega
      omega
  · -- below_empty
    have htn : ((idx : Int) + 1).toNat = idx + 1 := by omega
    have hi2 : i < idx + 1 := by
      have : ({ d with
        ht0 := ({ table := t0.table.set idx [], used := t0.used } : Dictht),
        ht1 := t1, rehashidx := (idx : Int) + 1 } : Dict).rehashidx =
          (idx : Int) + 1 := rfl
      omega
    rcases Nat.lt_or_ge i idx with h | h
    · have hii : i ≠ idx := by omega
      show ({ table := t0.table.set idx [], used := t0.used } :
        Dictht).bucket i = []
      rw [hbuck_ne i hii]
      rcases Nat.lt_or_ge i (d.rehashidx.toNat) with h2 | h2
      · exact hwf.below_empty hreh i h2
      · exact hempties i h2 h
    · have hieq : i = idx := by omega
      show ({ table := t0.table.set idx [], used := t0.used } :
        Dictht).bucket i = []
      rw [hieq]
      exact hbuck_idx

/-- Master invariant of the `dictRehash` main loop: well-formedness is
preserved, the loop never finalizes by itself, table geometry is
unchanged, the entry pool is only permuted between the tables, the rehash
index only advances (strictly when work was possible), `ht0` buckets are
only ever cleared, and at most `n` buckets are cleared. -/
theorem rehashLoop_master (hash : Nat → Nat) :
    ∀ n ev d, DictWF hash d → dictIsRehashing d →
    DictWF hash (rehashLoop hash n ev d).1 ∧
    dictIsRehashing (rehashLoop hash n ev d).1 ∧
    (rehashLoop hash n ev d).1.ht0.table.length = d.ht0.table.length ∧
    (rehashLoop hash n ev d).1.ht1.table.length = d.ht1.table.length ∧
    (rehashLoop hash n ev d).1.entries.Perm d.entries ∧
    (rehashLoop hash n ev d).1.iterators = d.iterators ∧
    d.rehashidx.toNat ≤ (rehashLoop hash n ev d).1.rehashidx.toNat ∧
    (1 ≤ n → d.ht0.used ≠ 0 →
      d.rehashidx.toNat < (rehashLoop hash n ev d).1.rehashidx.toNat) ∧
    (∀ i, (rehashLoop hash n ev d).1.ht0.bucket i = d.ht0.bucket i ∨
      (rehashLoop hash n ev d).1.ht0.bucket i = []) ∧
    clearedCard d (rehashLoop hash n ev d).1 ≤ n := by
  intro n
  induction n with
  | zero =>
    intro ev d hwf hreh
    rw [rehashLoop]
    exact ⟨hwf, hreh, rfl, rfl, .refl _, rfl, le_refl _, by omega,
      fun i => .inl rfl,
      Nat.le_of_eq (clearedCard_refl_zero _ _ (fun _ => rfl))⟩
  | succ n ih =>
    intro ev d hwf hreh
    rw [rehashLoop]
    by_cases hused : d.ht0.used = 0
    · rw [if_pos hused]
      exact ⟨hwf, hreh, rfl, rfl, .refl _, rfl, le_refl _,
        fun _ h => absurd hused h, fun i => .inl rfl,
        Nat.le_of_eq (clearedCard_refl_zero _ _ (fun _ => rfl)) |>.trans
          (by omega)⟩
    · rw [if_neg hused]
      obtain ⟨j, hj1, hj2, hj3⟩ := exists_nonempty_bucket_ge hwf hreh hused
      rcases hsk : skipEmptyBuckets d.ht0.table d.rehashidx.toNat ev with
        ⟨idx, ev', early⟩
      have hspec := skipEmptyBuckets_spec d.ht0.table ev d.rehashidx.toNat
      rw [hsk] at hspec
      obtain ⟨hmono, hempties, hfalse, htrue⟩ := hspec
      have hidxle : idx ≤ j := by
        have h5 := skipEmptyBuckets_le d.ht0.table ev d.rehashidx.toNat j hj1
          hj3
        rw [hsk] at h5
        exact h5
      have hidxlt : idx < d.ht0.table.length := by omega
      cases early with
      | true =>
        dsimp only
        dsimp only at hmono hempties hfalse htrue
        have hlt := htrue rfl
        have hreh2 : dictIsRehashing { d with rehashidx := (idx : Int) } := by
          show (idx : Int) ≠ -1
          omega
        refine ⟨?_, hreh2, rfl, rfl, .refl _, rfl,
          by show d.rehashidx.toNat ≤ ((idx : Int)).toNat; omega, ?_,
          fun i => .inl rfl,
          Nat.le_of_eq (clearedCard_refl_zero _ _ (fun _ => rfl)) |>.trans
            (by omega)⟩
        · exact
            { wf0 := hwf.wf0
              wf1 := hwf.wf1
              idle_ht1 := fun h => absurd hreh2 h
              reh_nonneg := fun _ => by show (0 : Int) ≤ (idx : Int); omega
              reh_lt := fun _ => Or.inr (by
                show (idx : Int).toNat < d.ht0.table.length
                omega)
              reh_ht1 := fun _ => hwf.reh_ht1 hreh
              reh_ht0 := fun _ => hwf.reh_ht0 hreh
              below_empty := fun _ i hi => by
                dsimp only at hi
                show d.ht0.bucket i = []
                have hi' : i < idx := by omega
                rcases Nat.lt_or_ge i d.rehashidx.toNat with h | h
                · exact hwf.below_empty hreh i h
                · exact hempties i h hi'
              nodup := hwf.nodup }
        · intro _ _
          show d.rehashidx.toNat < ((idx : Int)).toNat
          omega
      | false =>
        dsimp only
        dsimp only at hmono hempties hfalse htrue
        have hbne : d.ht0.bucket idx ≠ [] := (hfalse rfl).1
        rcases hmc : moveChain hash (d.ht0.bucket idx) d.ht0 d.ht1 with
          ⟨t0, t1⟩
        dsimp only
        obtain ⟨mwf, mreh, mlen0, mlen1, mperm, mbne, mbidx⟩ :=
          migrate_step hash d idx hwf hreh hidxlt (by omega)
            (fun i h1 h2 => hempties i h1 (by omega)) t0 t1 hmc
        obtain ⟨iwf, ireh, ilen0, ilen1, iperm, iit, imono, istrict, ibuck,
          icard⟩ := ih ev' _ mwf mreh
        dsimp only at imono istrict ibuck icard
        have hmidlen : ({ table := t0.table.set idx [], used := t0.used } :
            Dictht).table.length = d.ht0.table.length := mlen0
        refine ⟨iwf, ireh, by rw [ilen0]; exact mlen0,
          by rw [ilen1]; exact mlen1, iperm.trans mperm, iit, ?_, ?_, ?_, ?_⟩
        · -- monotone
          have : ((idx : Int) + 1).toNat = idx + 1 := by omega
          omega
        · -- strict
          intro _ _
          have : ((idx : Int) + 1).toNat = idx + 1 := by omega
          omega
        · -- buckets only cleared
          intro i
          rcases ibuck i with h | h
          · by_cases hieq : i = idx
            · right
              rw [h, hieq]
              exact mbidx
            · left
              rw [h]
              exact mbne i hieq
          · right
            exact h
        · -- cleared card
          set dmid : Dict := { d with
            ht0 := ({ table := t0.table.set idx [], used := t0.used } : Dictht),
            ht1 := t1, rehashidx := (idx : Int) + 1 } with hdmid
          have hsub : (Finset.range d.ht0.table.length).filter
              (fun i => d.ht0.bucket i ≠ [] ∧
                (rehashLoop hash n ev' dmid).1.ht0.bucket i = []) ⊆
              insert idx ((Finset.range dmid.ht0.table.length).filter
                (fun i => dmid.ht0.bucket i ≠ [] ∧
                  (rehashLoop hash n ev' dmid).1.ht0.bucket i = [])) := by
            intro i hmem
            rw [Finset.mem_filter, Finset.mem_range] at hmem
            obtain ⟨hir, hine, hiemp⟩ := hmem
            by_cases hieq : i = idx
            · rw [hieq]
              exact Finset.mem_insert_self _ _
            · refine Finset.mem_insert_of_mem ?_
              rw [Finset.mem_filter, Finset.mem_range]
              refine ⟨by rw [hmidlen]; exact hir, ?_, hiemp⟩
              show dmid.ht0.bucket i ≠ []
              rw [show dmid.ht0.bucket i = d.ht0.bucket i from mbne i hieq]
              exact hine
          calc clearedCard d (rehashLoop hash n ev' dmid).1 ≤
              (insert idx ((Finset.range dmid.ht0.table.length).filter
                (fun i => dmid.ht0.bucket i ≠ [] ∧
                  (rehashLoop hash n ev' dmid).1.ht0.bucket i = []))).card :=
              Finset.card_le_card hsub
            _ ≤ 1 + clearedCard dmid (rehashLoop hash n ev' dmid).1 := by
              rw [Nat.add_comm]
              exact Finset.card_insert_le _ _
            _ ≤ 1 + n := by omega
            _ = n + 1 := by omega

theorem HtWF_emptyHt (hash : Nat → Nat) : HtWF hash emptyHt :=
  ⟨Or.inl rfl, rfl, by intro i hi; simp [emptyHt] at hi⟩

theorem DictWF.size_eq {hash : Nat → Nat} {d : Dict} (hwf : DictWF hash d) :
    dictSize d = d.entries.length := by
  simp [dictSize, Dict.entries, hwf.wf0.used_eq, hwf.wf1.used_eq]

theorem dictRehash_idle (hash : Nat → Nat) (d : Dict) (n : Nat)
    (h : ¬ dictIsRehashing d) : dictRehash hash d n = (d, 0) := by
  rw [dictRehash, if_pos h]

theorem rehashLoop_true_used (hash : Nat → Nat) (n ev : Nat) (d d'' : Dict)
    (ev'' : Nat) (h : rehashLoop hash n ev d = (d'', ev'', true)) :
    d.ht0.used ≠ 0 := by
  intro h0
  cases n with
  | zero =>
    rw [rehashLoop] at h
    simp at h
  | succ n =>
    rw [rehashLoop, if_pos h0] at h
    simp at h

theorem rehashLoop_used_zero (hash : Nat → Nat) (n ev : Nat) (d : Dict)
    (h0 : d.ht0.used = 0) : rehashLoop hash n ev d = (d, ev, false) := by
  cases n with
  | zero => rw [rehashLoop]
  | succ n => rw [rehashLoop, if_pos h0]

/-- Top-level specification of `dictRehash` on a rehashing, well-formed
dictionary: well-formedness and the entry pool are preserved, the return
value is 0 exactly when the rehash finished (and then `ht1` is reset and
`rehashidx` is -1), the rehash index advances when work was available,
and an exhausted `ht0` is finalized immediately. -/
theorem dictRehash_spec (hash : Nat → Nat) (d : Dict) (n : Nat)
    (hwf : DictWF hash d) (hreh : dictIsRehashing d) :
    DictWF hash (dictRehash hash d n).1 ∧
    (dictRehash hash d n).1.entries.Perm d.entries ∧
    (dictRehash hash d n).1.iterators = d.iterators ∧
    ((dictRehash hash d n).2 = 0 ↔ ¬ dictIsRehashing (dictRehash hash d n).1) ∧
    ((dictRehash hash d n).2 = 0 → (dictRehash hash d n).1.ht1 = emptyHt ∧
      (dictRehash hash d n).1.rehashidx = -1) ∧
    (1 ≤ n → d.ht0.used ≠ 0 → ¬ dictIsRehashing (dictRehash hash d n).1 ∨
      d.rehashidx.toNat < (dictRehash hash d n).1.rehashidx.toNat) ∧
    (d.ht0.used = 0 → (dictRehash hash d n).2 = 0) ∧
    (dictIsRehashing (dictRehash hash d n).1 →
      (dictRehash hash d n).1.ht0.table.length = d.ht0.table.length) := by
  rw [dictRehash, if_neg (not_not_intro hreh)]
  rcases hrl : rehashLoop hash n (n * 10) d with ⟨d'', ev'', early⟩
  obtain ⟨iwf, ireh, ilen0, ilen1, iperm, iit, imono, istrict, ibuck, icard⟩ :=
    rehashLoop_master hash n (n * 10) d hwf hreh
  rw [hrl] at iwf ireh ilen0 ilen1 iperm iit imono istrict ibuck icard
  dsimp only at iwf ireh ilen0 ilen1 iperm iit imono istrict ibuck icard
  cases early with
  | true =>
    dsimp only
    have hu := rehashLoop_true_used hash n (n * 10) d d'' ev'' hrl
    refine ⟨iwf, iperm, iit, ?_, ?_, ?_, ?_, fun _ => ilen0⟩
    · constructor
      · intro h; exact absurd h (by omega)
      · intro h; exact absurd ireh h
    · intro h; exact absurd h (by omega)
    · intro hn hu2
      exact Or.inr (istrict hn hu2)
    · intro h0; exact absurd h0 hu
  | false =>
    dsimp only
    by_cases hz : d''.ht0.used = 0
    · rw [if_pos hz]
      dsimp only
      have hE0nil : d''.ht0.entries = [] := entries_eq_nil_of_used_zero iwf.wf0 hz
      have hkeys0 : d''.ht0.keys = [] := by
        simp [Dictht.keys, hE0nil]
      have hperm' : (Dict.entries { d'' with
          ht0 := d''.ht1, ht1 := emptyHt, rehashidx := -1 }).Perm
          d''.entries := by
        show (d''.ht1.entries ++ emptyHt.entries).Perm
          (d''.ht0.entries ++ d''.ht1.entries)
        rw [emptyHt_entries, hE0nil]
        simp
      have hnreh : ¬ dictIsRehashing { d'' with
          ht0 := d''.ht1, ht1 := emptyHt, rehashidx := -1 } := by
        show ¬ ((-1 : Int) ≠ -1)
        simp
      refine ⟨?_, hperm'.trans iperm, iit, by simp [hnreh], fun _ => ⟨rfl, rfl⟩,
        fun _ _ => Or.inl hnreh, fun _ => rfl, fun h => absurd h hnreh⟩
      exact
        { wf0 := iwf.wf1
          wf1 := HtWF_emptyHt hash
          idle_ht1 := fun _ => rfl
          reh_nonneg := fun h => absurd h hnreh
          reh_lt := fun h => absurd h hnreh
          reh_ht1 := fun h => absurd h hnreh
          reh_ht0 := fun h => absurd h hnreh
          below_empty := fun h => absurd h hnreh
          nodup := by
            have h7 := iwf.nodup
            show (Dict.keys { d'' with
              ht0 := d''.ht1, ht1 := emptyHt, rehashidx := -1 }).Nodup
            have : Dict.keys { d'' with
                ht0 := d''.ht1, ht1 := emptyHt, rehashidx := -1 } =
                d''.ht1.keys ++ [] := rfl
            rw [this]
            simp only [List.append_nil]
            rw [Dict.keys, hkeys0] at h7
            simpa using h7 }
    · rw [if_neg hz]
      dsimp only
      refine ⟨iwf, iperm, iit, ?_, ?_, ?_, ?_, fun _ => ilen0⟩
      · constructor
        · intro h; exact absurd h (by omega)
        · intro h; exact absurd ireh h
      · intro h; exact absurd h (by omega)
      · intro hn hu2
        exact Or.inr (istrict hn hu2)
      · intro h0
        rw [rehashLoop_used_zero hash n (n * 10) d h0] at hrl
        have : d'' = d := by
          have := congrArg Prod.fst hrl
          simpa using this.symm
        rw [this] at hz
        exact absurd h0 hz

/-- "p is the smallest power of two that is at least the floor
`DICT_HT_INITIAL_SIZE` and at least `s`" (the spec's description of the
rounding performed by expand-or-create). -/
def IsLeastGePow (s p : Nat) : Prop :=
  (∃ b, p = 2 ^ b) ∧ DICT_HT_INITIAL_SIZE ≤ p ∧ s ≤ p ∧
    ∀ q, (∃ c, q = 2 ^ c) → DICT_HT_INITIAL_SIZE ≤ q → s ≤ q → p ≤ q

theorem nextPowerAux_spec (size : Nat) : ∀ fuel i b, i = 2 ^ b →
    (size ≤ i + fuel → size ≤ nextPowerAux size fuel i) ∧
    (∃ b', b ≤ b' ∧ nextPowerAux size fuel i = 2 ^ b') ∧
    (∀ q c, q = 2 ^ c → i ≤ q → size ≤ q → nextPowerAux size fuel i ≤ q) := by
  intro fuel
  induction fuel with
  | zero =>
    intro i b hb
    rw [nextPowerAux]
    exact ⟨by omega, ⟨b, le_refl _, hb⟩, fun q c _ hq _ => hq⟩
  | succ fuel ih =>
    intro i b hb
    rw [nextPowerAux]
    by_cases hle : size ≤ i
    · rw [if_pos hle]
      exact ⟨fun _ => hle, ⟨b, le_refl _, hb⟩, fun q c _ hq _ => hq⟩
    · rw [if_neg hle]
      have hipos : 1 ≤ i := by rw [hb]; exact Nat.one_le_two_pow
      obtain ⟨g1, g2, g3⟩ := ih (i * 2) (b + 1) (by rw [hb]; ring)
      refine ⟨fun h => g1 (by omega), ?_, ?_⟩
      · obtain ⟨b', hb', he⟩ := g2
        exact ⟨b', by omega, he⟩
      · intro q c hq hiq hsq
        refine g3 q c hq ?_ hsq
        have hlt : i < q := by omega
        rw [hb, hq] at hlt ⊢
        have : b < c := by
          by_contra hbc
          push_neg at hbc
          have h8 : 2 ^ c ≤ 2 ^ b := Nat.pow_le_pow_right (by omega) hbc
          omega
        calc 2 ^ b * 2 = 2 ^ (b + 1) := by ring
          _ ≤ 2 ^ c := Nat.pow_le_pow_right (by omega) (by omega)

/-- For requested sizes below the `LONG_MAX` cap, `_dictNextPower` computes
exactly the smallest power of two ≥ max(`DICT_HT_INITIAL_SIZE`, `size`),
and that power is at most `2 ^ 63`. -/
theorem dictNextPower_least (s : Nat) (hs : s < LONG_MAX) :
    IsLeastGePow s (dictNextPower s) ∧ dictNextPower s ≤ 2 ^ 63 := by
  rw [dictNextPower, if_neg (by omega)]
  obtain ⟨g1, g2, g3⟩ := nextPowerAux_spec s s DICT_HT_INITIAL_SIZE 2 rfl
  have hge4 : DICT_HT_INITIAL_SIZE ≤ nextPowerAux s s DICT_HT_INITIAL_SIZE := by
    obtain ⟨b', hb', he⟩ := g2
    rw [he]
    calc DICT_HT_INITIAL_SIZE = 2 ^ 2 := rfl
      _ ≤ 2 ^ b' := Nat.pow_le_pow_right (by omega) hb'
  have hcap : nextPowerAux s s DICT_HT_INITIAL_SIZE ≤ 2 ^ 63 := by
    refine g3 (2 ^ 63) 63 rfl (by norm_num [DICT_HT_INITIAL_SIZE]) ?_
    have : LONG_MAX ≤ 2 ^ 63 := by norm_num [LONG_MAX]
    omega
  refine ⟨⟨?_, hge4, g1 (by omega), ?_⟩, hcap⟩
  · obtain ⟨b', _, he⟩ := g2
    exact ⟨b', he⟩
  · intro q hc h4 hsq
    obtain ⟨c, hq⟩ := hc
    exact g3 q c hq h4 hsq

/-- Least such powers are unique, so `IsLeastGePow` pins down
`dictNextPower`. -/
theorem IsLeastGePow_unique {s p : Nat} (hp : IsLeastGePow s p)
    (hs : s < LONG_MAX) : p = dictNextPower s := by
  obtain ⟨⟨hb, h4, hsp, hmin⟩, -⟩ := dictNextPower_least s hs
  obtain ⟨hb', h4', hsp', hmin'⟩ := hp
  exact Nat.le_antisymm (hmin' (dictNextPower s) hb h4 hsp)
    (hmin p hb' h4' hsp')

/-- Well-formedness of a freshly allocated table of `zcalloc`ed buckets. -/
theorem HtWF_fresh (hash : Nat → Nat) (n b : Nat) (hb : n = 2 ^ b)
    (hb63 : b ≤ 63) :
    HtWF hash { table := List.replicate n ([] : List Entry), used := 0 } := by
  refine ⟨Or.inr ⟨b, hb63, by simp [hb]⟩, ?_, ?_⟩
  · show 0 = (List.replicate n ([] : List Entry)).flatten.length
    simp [List.length_flatten, List.map_replicate]
  · intro i hi e he
    simp only [List.getElem_replicate] at he
    exact absurd he (List.not_mem_nil e)

/-- The freshly allocated table `n` of `dictExpand` (size `realsize`,
`zcalloc`ed buckets, `used = 0`). -/
def emptyTableOf (realsize : Nat) : Dictht :=
  { table := List.replicate realsize [], used := 0 }

/-- Case analysis of `dictExpand`, following the source branch by branch. -/
theorem dictExpand_spec (d : Dict) (s : Nat) :
    (dictIsRehashing d ∨ d.ht0.used > s → dictExpand d s = (d, DICT_ERR)) ∧
    (¬ dictIsRehashing d → d.ht0.used ≤ s → dictNextPower s = d.ht0.size →
      dictExpand d s = (d, DICT_ERR)) ∧
    (¬ dictIsRehashing d → d.ht0.used ≤ s → dictNextPower s ≠ d.ht0.size →
      d.ht0.table = [] →
      dictExpand d s = ({ d with
        ht0 := { table := List.replicate (dictNextPower s) [], used := 0 } },
        DICT_OK)) ∧
    (¬ dictIsRehashing d → d.ht0.used ≤ s → dictNextPower s ≠ d.ht0.size →
      d.ht0.table ≠ [] →
      dictExpand d s = ({ d with
        ht1 := { table := List.replicate (dictNextPower s) [], used := 0 },
        rehashidx := 0 }, DICT_OK)) := by
  refine ⟨?_, ?_, ?_, ?_⟩
  · intro h
    rw [dictExpand, if_pos h]
  · intro h1 h2 h3
    rw [dictExpand, if_neg ?_, if_pos h3]
    rintro (h | h)
    · exact h1 h
    · omega
  · intro h1 h2 h3 h4
    rw [dictExpand, if_neg ?_, if_neg h3, if_pos h4]
    rintro (h | h)
    · exact h1 h
    · omega
  · intro h1 h2 h3 h4
    rw [dictExpand, if_neg ?_, if_neg h3, if_neg h4]
    rintro (h | h)
    · exact h1 h
    · omega

/-- `dictExpand` preserves well-formedness (for requested sizes below the
`LONG_MAX` cap, where the new array length is a power of two). -/
theorem dictExpand_WF (hash : Nat → Nat) (d : Dict) (s : Nat)
    (hwf : DictWF hash d) (hs : s < LONG_MAX) :
    DictWF hash (dictExpand d s).1 := by
  obtain ⟨c1, c2, c3, c4⟩ := dictExpand_spec d s
  obtain ⟨⟨⟨b, hbp⟩, hge4, hges, hmin⟩, hcap⟩ := dictNextPower_least s hs
  have hb63 : b ≤ 63 := by
    have : (2 : Nat) ^ b ≤ 2 ^ 63 := by omega
    exact (Nat.pow_le_pow_iff_right (by omega)).mp this
  by_cases hreh : dictIsRehashing d
  · rw [c1 (Or.inl hreh)]
    exact hwf
  · by_cases hus : d.ht0.used ≤ s
    · by_cases heq : dictNextPower s = d.ht0.size
      · rw [c2 hreh hus heq]
        exact hwf
      · by_cases hnil : d.ht0.table = []
        · rw [c3 hreh hus heq hnil]
          have hk0 : d.ht0.keys = [] := by
            simp [Dictht.keys, Dictht.entries, hnil]
          exact
            { wf0 := HtWF_fresh hash _ b hbp hb63
              wf1 := hwf.wf1
              idle_ht1 := fun _ => hwf.idle_ht1 hreh
              reh_nonneg := fun h => absurd h hreh
              reh_lt := fun h => absurd h hreh
              reh_ht1 := fun h => absurd h hreh
              reh_ht0 := fun h => absurd h hreh
              below_empty := fun h => absurd h hreh
              nodup := by
                show ((emptyTableOf (dictNextPower s)).keys ++
                  d.ht1.keys).Nodup
                have : (emptyTableOf (dictNextPower s)).keys = [] := by
                  simp only [emptyTableOf, Dictht.keys, Dictht.entries]
                  rw [List.map_eq_nil, List.flatten_eq_nil_iff]
                  intro a ha
                  exact List.eq_of_mem_replicate ha
                rw [this]
                have h9 := hwf.nodup
                rw [Dict.keys, hk0] at h9
                simpa using h9 }
        · rw [c4 hreh hus heq hnil]
          have hk1 : d.ht1.keys = [] := by
            simp [Dictht.keys, Dictht.entries, hwf.idle_ht1 hreh]
          exact
            { wf0 := hwf.wf0
              wf1 := HtWF_fresh hash _ b hbp hb63
              idle_ht1 := fun h => absurd (by
                show (0 : Int) ≠ -1
                omega) h
              reh_nonneg := fun _ => by show (0 : Int) ≤ 0; omega
              reh_lt := fun _ => Or.inr (by
                show (0 : Int).toNat < d.ht0.table.length
                have := List.length_pos.mpr hnil
                omega)
              reh_ht1 := fun _ => by
                show List.replicate (dictNextPower s) [] ≠ []
                apply List.ne_nil_of_length_pos
                simp only [List.length_replicate]
                have h10 : (4 : Nat) ≤ dictNextPower s := hge4
                omega
              reh_ht0 := fun _ => hnil
              below_empty := fun _ i hi => by
                show d.ht0.bucket i = []
                simp at hi
              nodup := by
                show (d.ht0.keys ++
                  (emptyTableOf (dictNextPower s)).keys).Nodup
                have : (emptyTableOf (dictNextPower s)).keys = [] := by
                  simp only [emptyTableOf, Dictht.keys, Dictht.entries]
                  rw [List.map_eq_nil, List.flatten_eq_nil_iff]
                  intro a ha
                  exact List.eq_of_mem_replicate ha
                rw [this]
                have h9 := hwf.nodup
                rw [Dict.keys, hk1] at h9
                simpa using h9 }
    · rw [c1 (Or.inr (by omega))]
      exact hwf

/-- A well-formed idle dictionary with one table of 4 empty buckets. -/
def sampleDict4 : Dict :=
  { ht0 := emptyTableOf 4, ht1 := emptyHt, rehashidx := -1, iterators := 0 }

theorem LONG_MAX_not_pow : ¬ ∃ b : Nat, LONG_MAX = 2 ^ b := by
  rintro ⟨b, hb⟩
  cases b with
  | zero => norm_num [LONG_MAX] at hb
  | succ b =>
    have h1 : LONG_MAX % 2 = 1 := by norm_num [LONG_MAX]
    have h2 : 2 ^ (b + 1) % 2 = 0 := by
      rw [Nat.pow_succ]
      exact Nat.mul_mod_left _ _
    rw [hb] at h1
    omega

/-- C10: when the dictionary is not rehashing and the rounded-up
power-of-two size coincides with `ht0`'s current size, `dictExpand`
reports `DICT_ERR` and returns the dictionary unchanged — a third
rejection condition beyond the two the spec lists.  (`s < LONG_MAX` keeps
the rounding below the `LONG_MAX` saturation of `_dictNextPower`.) -/
theorem dictExpand_rejects_same_size (d : Dict) (s p : Nat)
    (hreh : ¬ dictIsRehashing d) (hs : s < LONG_MAX)
    (hleast : IsLeastGePow s p) (hsize : p = d.ht0.size) :
    dictExpand d s = (d, DICT_ERR) := by
  obtain ⟨c1, c2, _, _⟩ := dictExpand_spec d s
  by_cases hus : d.ht0.used ≤ s
  · refine c2 hreh hus ?_
    rw [← IsLeastGePow_unique hleast hs]
    exact hsize
  · exact c1 (Or.inr (by omega))

/-- Witness for C10 at a concrete dictionary: a 4-slot idle table rejects
`dictExpand` with requested size 3 (which rounds to 4 = current size). -/
theorem dictExpand_rejects_same_size_witness :
    dictExpand sampleDict4 3 = (sampleDict4, DICT_ERR) :=
  dictExpand_rejects_same_size sampleDict4 3 4 (by decide)
    (by norm_num [LONG_MAX])
    ⟨⟨2, rfl⟩, by norm_num [DICT_HT_INITIAL_SIZE], by norm_num,
      fun _ _ h4 _ => h4⟩
    (by rfl)

/-- Counterexample for C4 as stated: at the concrete requested size
`LONG_MAX` on a fresh dictionary, `dictExpand` succeeds but installs a
table whose size (`LONG_MAX` itself) is not the smallest power of two ≥
max(floor, requested) — `_dictNextPower` saturates at `LONG_MAX`, which
is not a power of two. -/
theorem dictExpand_longmax_breaks_least :
    (dictExpand dictCreate LONG_MAX).2 = DICT_OK ∧
    ¬ IsLeastGePow LONG_MAX ((dictExpand dictCreate LONG_MAX).1.ht0.size) := by
  obtain ⟨-, -, c3, -⟩ := dictExpand_spec dictCreate LONG_MAX
  have hnp : dictNextPower LONG_MAX = LONG_MAX := by
    rw [dictNextPower, if_pos (le_refl _)]
  have hexp := c3 (by decide) (Nat.zero_le _) (by
    rw [hnp]
    norm_num [LONG_MAX, dictCreate, emptyHt, Dictht.size]) rfl
  rw [hexp]
  constructor
  · rfl
  · rintro ⟨⟨b, hb⟩, -, -, -⟩
    refine LONG_MAX_not_pow ⟨b, ?_⟩
    rw [← hb]
    show LONG_MAX =
      (List.replicate (dictNextPower LONG_MAX) ([] : List Entry)).length
    rw [List.length_replicate, hnp]

/-- C4 amended: `dictExpand` rejects (without modification) when already
rehashing or when `s < ht0.used`; the new size is the smallest power of
two ≥ max(`DICT_HT_INITIAL_SIZE`, `s`) whenever `s < LONG_MAX` (for
`s ≥ LONG_MAX` it saturates at `LONG_MAX`); rounding to the current size
is also rejected; an empty active table is replaced directly with no
rehash started; otherwise the new table becomes `ht1` and `rehashidx` is
set to 0. -/
theorem dictExpand_characterization (d : Dict) (s : Nat) :
    (dictIsRehashing d ∨ s < d.ht0.used → dictExpand d s = (d, DICT_ERR)) ∧
    (s < LONG_MAX → IsLeastGePow s (dictNextPower s)) ∧
    (LONG_MAX ≤ s → dictNextPower s = LONG_MAX) ∧
    (¬ dictIsRehashing d → d.ht0.used ≤ s → dictNextPower s = d.ht0.size →
      dictExpand d s = (d, DICT_ERR)) ∧
    (¬ dictIsRehashing d → d.ht0.used ≤ s → dictNextPower s ≠ d.ht0.size →
      d.ht0.table = [] →
      dictExpand d s =
        ({ d with ht0 := emptyTableOf (dictNextPower s) }, DICT_OK)) ∧
    (¬ dictIsRehashing d → d.ht0.used ≤ s → dictNextPower s ≠ d.ht0.size →
      d.ht0.table ≠ [] →
      dictExpand d s =
        ({ d with ht1 := emptyTableOf (dictNextPower s), rehashidx := 0 },
          DICT_OK)) := by
  obtain ⟨c1, c2, c3, c4⟩ := dictExpand_spec d s
  exact ⟨c1, fun hs => (dictNextPower_least s hs).1,
    fun hs => by rw [dictNextPower, if_pos hs], c2, c3, c4⟩

/-- Witness for the amended C4 at concrete inputs: requested size 3 on a
fresh dictionary rounds to 4 and installs a 4-slot `ht0` directly. -/
theorem dictExpand_characterization_witness :
    dictExpand dictCreate 3 =
      ({ dictCreate with ht0 := emptyTableOf 4 }, DICT_OK) := by
  have h := (dictExpand_characterization dictCreate 3).2.2.2.2.1
    (by decide) (by decide) (by decide) (by decide)
  rw [h]
  rfl

/-- The empty-visit budget threaded through `rehashLoop` never grows. -/
theorem rehashLoop_ev_le (hash : Nat → Nat) :
    ∀ n ev d, (rehashLoop hash n ev d).2.1 ≤ ev := by
  intro n
  induction n with
  | zero => intro ev d; rw [rehashLoop]
  | succ n ih =>
    intro ev d
    rw [rehashLoop]
    by_cases hused : d.ht0.used = 0
    · rw [if_pos hused]
    · rw [if_neg hused]
      rcases hsk : skipEmptyBuckets d.ht0.table d.rehashidx.toNat ev with
        ⟨idx, ev', early⟩
      have hspec := skipEmptyBuckets_spec d.ht0.table ev d.rehashidx.toNat
      rw [hsk] at hspec
      cases early with
      | true => simp
      | false =>
        dsimp only
        rcases hmc : moveChain hash (d.ht0.bucket idx) d.ht0 d.ht1 with ⟨t0, t1⟩
        dsimp only
        have h1 := (hspec.2.2.1 rfl).2
        exact (ih ev' _).trans h1

/-- The identity hash used by concrete witnesses. -/
def hashId : Nat → Nat := fun k => k

/-- A concrete well-formed mid-rehash dictionary: `ht0` is a 4-slot table
holding keys 1 and 5 (both in bucket 1), `ht1` is the fresh 8-slot rehash
target. -/
def sampleRehDict : Dict :=
  { ht0 := { table := [[], [(1, some 10), (5, some 50)], [], []], used := 2 },
    ht1 := emptyTableOf 8, rehashidx := 0, iterators := 0 }

theorem sampleRehDict_WF : DictWF hashId sampleRehDict := by
  refine
    { wf0 := ⟨Or.inr ⟨2, by omega, by decide⟩, by decide, ?_⟩
      wf1 := HtWF_fresh hashId 8 3 (by norm_num) (by omega)
      idle_ht1 := fun h => absurd (by decide) h
      reh_nonneg := fun _ => by decide
      reh_lt := fun _ => Or.inr (by decide)
      reh_ht1 := fun _ => by decide
      reh_ht0 := fun _ => by decide
      below_empty := fun _ i hi => by
        simp [sampleRehDict] at hi
      nodup := by decide }
  intro i hi e he
  have hi4 : i < 4 := by simpa [sampleRehDict] using hi
  interval_cases i <;> simp [sampleRehDict] at he
  rcases he with rfl | rfl <;> decide

/-- The mid-state of one rehash step on `sampleRehDict`: bucket 1 of
`ht0` was migrated into the 8-slot `ht1`. -/
def sampleRehTarget : Dictht :=
  { table := [[], [(1, some 10)], [], [], [], [(5, some 50)], [], []],
    used := 2 }

/-- Loop state after one migration step on `sampleRehDict`. -/
def sampleRehMid : Dict :=
  { ht0 := { table := [[], [], [], []], used := 0 },
    ht1 := sampleRehTarget, rehashidx := 2, iterators := 0 }

/-- The finalized dictionary: `ht1` became the sole table. -/
def sampleRehFinal : Dict :=
  { ht0 := sampleRehTarget, ht1 := emptyHt, rehashidx := -1, iterators := 0 }

/-- C2: `dictRehash(d, n)` for `n > 0`: a no-op returning "done" (0) when
not rehashing.  Otherwise the call runs the migration loop with an
empty-visit budget of exactly `10 * n` (never exceeded, by construction of
the threaded budget), returns 1 immediately with the loop state if the
budget ran out, migrates (clears) at most `n` non-empty `ht0` buckets
whose entries all land in the `ht1` bucket selected by
`hash(key) & ht1.sizemask`, loses no entries, and — exactly when
`ht0.used` reached 0 — frees `ht0`'s array, installs `ht1` as the sole
table, resets `ht1` to empty, sets `rehashidx = -1` and returns 0,
returning 1 otherwise. -/
theorem dictRehash_claim (hash : Nat → Nat) (d : Dict) (n : Nat)
    (hn : 0 < n) :
    (¬ dictIsRehashing d → dictRehash hash d n = (d, 0)) ∧
    (dictIsRehashing d → DictWF hash d →
      (∀ dmid ev early, rehashLoop hash n (n * 10) d = (dmid, ev, early) →
        ev ≤ n * 10 ∧
        (early = true → dictRehash hash d n = (dmid, 1)) ∧
        clearedCard d dmid ≤ n ∧
        (∀ i, (hi : i < dmid.ht1.table.length) → ∀ e ∈ dmid.ht1.table[i],
          dictHashKey hash e.1 &&& dmid.ht1.sizemask = i) ∧
        (early = false → dmid.ht0.used = 0 →
          dictRehash hash d n =
            ({ dmid with
              ht0 := dmid.ht1, ht1 := emptyHt, rehashidx := -1 }, 0)) ∧
        (early = false → dmid.ht0.used ≠ 0 →
          dictRehash hash d n = (dmid, 1))) ∧
      ((dictRehash hash d n).2 = 0 ↔
        ¬ dictIsRehashing (dictRehash hash d n).1) ∧
      (dictRehash hash d n).1.entries.Perm d.entries) := by
  refine ⟨fun h => dictRehash_idle hash d n h, fun hreh hwf => ⟨?_, ?_, ?_⟩⟩
  · intro dmid ev early hrl
    obtain ⟨iwf, ireh, ilen0, ilen1, iperm, iit, imono, istrict, ibuck,
      icard⟩ := rehashLoop_master hash n (n * 10) d hwf hreh
    rw [hrl] at iwf ireh ilen0 ilen1 iperm iit imono istrict ibuck icard
    dsimp only at iwf ireh ilen0 ilen1 iperm iit imono istrict ibuck icard
    have hev := rehashLoop_ev_le hash n (n * 10) d
    rw [hrl] at hev
    refine ⟨hev, ?_, icard, iwf.wf1.placed, ?_, ?_⟩
    · intro he
      rw [dictRehash, if_neg (not_not_intro hreh), hrl, he]
    · intro he hz
      rw [dictRehash, if_neg (not_not_intro hreh), hrl, he]
      dsimp only
      rw [if_pos hz]
    · intro he hz
      rw [dictRehash, if_neg (not_not_intro hreh), hrl, he]
      dsimp only
      rw [if_neg hz]
  · exact (dictRehash_spec hash d n hwf hreh).2.2.2.1
  · exact (dictRehash_spec hash d n hwf hreh).2.1

/-- Witness for C2 at a concrete input: one step of rehashing on the
sample mid-rehash dictionary skips the empty bucket 0, migrates bucket 1,
and, as `ht0.used` reaches 0, finalizes: `ht1` becomes the sole table and
the call returns 0. -/
theorem dictRehash_claim_witness :
    dictRehash hashId sampleRehDict 1 = (sampleRehFinal, 0) := by
  have h := ((dictRehash_claim hashId sampleRehDict 1 (by omega)).2
    (by decide) sampleRehDict_WF).1
  rcases hrl : rehashLoop hashId 1 (1 * 10) sampleRehDict with ⟨dmid, ev, early⟩
  obtain ⟨-, -, -, -, hfin, -⟩ := h dmid ev early hrl
  have heq : (dmid, ev, early) = (sampleRehMid, 9, false) := by
    rw [← hrl]
    decide
  have hd : dmid = sampleRehMid := by
    have := congrArg Prod.fst heq
    simpa using this
  have hee : early = false := by
    have := congrArg (fun p => p.2.2) heq
    simpa using this
  rw [hfin hee (by rw [hd]; decide), hd]
  decide

/-- One bulk rehash call of `n` steps, viewed as a state transformer (the
incremental path applies it with `n = 1` via `_dictRehashStep`; the
time-boxed bulk path applies it with `n = 100` per batch). -/
def rehashIter (hash : Nat → Nat) (n : Nat) (d : Dict) : Dict :=
  (dictRehash hash d n).1

/-- Progress measure for termination of repeated rehash calls. -/
def rehashMeasure (d : Dict) : Nat :=
  if d.ht0.used = 0 then 1 else d.ht0.table.length + 1 - d.rehashidx.toNat

theorem rehashIter_step (hash : Nat → Nat) (n : Nat) (d : Dict)
    (hwf : DictWF hash d) :
    DictWF hash (rehashIter hash n d) ∧
    dictSize (rehashIter hash n d) = dictSize d := by
  by_cases hreh : dictIsRehashing d
  · obtain ⟨hwf', hperm, -⟩ := dictRehash_spec hash d n hwf hreh
    have hrw := show (dictRehash hash d n).1 = rehashIter hash n d from rfl
    rw [hrw] at hwf' hperm
    refine ⟨hwf', ?_⟩
    rw [hwf'.size_eq, hwf.size_eq]
    exact hperm.length_eq
  · rw [rehashIter, dictRehash_idle hash d n hreh]
    exact ⟨hwf, rfl⟩

theorem rehashIter_iterate (hash : Nat → Nat) (n : Nat) :
    ∀ m d, DictWF hash d →
    DictWF hash ((rehashIter hash n)^[m] d) ∧
    dictSize ((rehashIter hash n)^[m] d) = dictSize d := by
  intro m
  induction m with
  | zero => intro d hwf; exact ⟨hwf, rfl⟩
  | succ m ih =>
    intro d hwf
    rw [Function.iterate_succ_apply]
    obtain ⟨hwf1, hsz1⟩ := rehashIter_step hash n d hwf
    obtain ⟨hwf2, hsz2⟩ := ih _ hwf1
    exact ⟨hwf2, by omega⟩

theorem rehashIter_terminates (hash : Nat → Nat) (n : Nat) (hn : 1 ≤ n) :
    ∀ m d, DictWF hash d → (dictIsRehashing d → rehashMeasure d ≤ m) →
    ¬ dictIsRehashing ((rehashIter hash n)^[m] d) := by
  intro m
  induction m with
  | zero =>
    intro d hwf hm
    simp only [Function.iterate_zero, id]
    intro hreh
    have h1 := hm hreh
    rw [rehashMeasure] at h1
    by_cases hz : d.ht0.used = 0
    · rw [if_pos hz] at h1; omega
    · rw [if_neg hz] at h1
      rcases hwf.reh_lt hreh with h | h
      · exact hz h
      · omega
  | succ m ih =>
    intro d hwf hm
    rw [Function.iterate_succ_apply]
    by_cases hreh : dictIsRehashing d
    · obtain ⟨hwf', hperm, -, hiff, -, hprog, hz0, hlen⟩ :=
        dictRehash_spec hash d n hwf hreh
      have hrw := show (dictRehash hash d n).1 = rehashIter hash n d from rfl
      rw [hrw] at hwf' hperm hiff hprog hlen
      by_cases hreh' : dictIsRehashing (rehashIter hash n d)
      · refine ih _ hwf' ?_
        intro _
        have hmd := hm hreh
        by_cases hz : d.ht0.used = 0
        · exact absurd hreh' ((hiff).mp (hz0 hz))
        · rcases hprog hn hz with h | hlt
          · exact absurd h (not_not_intro hreh')
          · have hL := hlen hreh'
            rw [rehashMeasure] at hmd ⊢
            rw [if_neg hz] at hmd
            by_cases hz' : (rehashIter hash n d).ht0.used = 0
            · rw [if_pos hz']
              rcases hwf.reh_lt hreh with h | h
              · exact absurd h hz
              · omega
            · rw [if_neg hz']
              rcases hwf'.reh_lt hreh' with h | h
              · exact absurd h hz'
              · rcases hwf.reh_lt hreh with h2 | h2
                · exact absurd h2 hz
                · rw [show (rehashIter hash n d).ht0.table.length =
                    d.ht0.table.length from hL]
                  omega
      · refine ih _ hwf' ?_
        intro h
        exact absurd h hreh'
    · rw [show rehashIter hash n d = d from by
        rw [rehashIter, dictRehash_idle hash d n hreh]]
      refine ih _ hwf ?_
      intro h
      exact absurd h hreh

/-- C3: once rehashing has been started by a (successful) `dictExpand`,
repeatedly applying rehash calls of any batch size `n ≥ 1` (`n = 1` is
the opportunistic `_dictRehashStep`; `n = 100` is one batch of the
time-boxed bulk call, which repeats until done when its time budget does
not interrupt) eventually reaches the idle state `rehashidx = -1`; and at
every intermediate step the sum `ht0.used + ht1.used` is unchanged by the
rehash step and equals the total number of live entries in the dict. -/
theorem rehash_reaches_idle (hash : Nat → Nat) (d : Dict) (s n : Nat)
    (hwf : DictWF hash d) (hs : s < LONG_MAX) (hn : 1 ≤ n)
    (hreh : dictIsRehashing (dictExpand d s).1) :
    (∃ k, ¬ dictIsRehashing ((rehashIter hash n)^[k] (dictExpand d s).1)) ∧
    (∀ m, dictSize ((rehashIter hash n)^[m + 1] (dictExpand d s).1) =
        dictSize ((rehashIter hash n)^[m] (dictExpand d s).1) ∧
      dictSize ((rehashIter hash n)^[m] (dictExpand d s).1) =
        ((rehashIter hash n)^[m] (dictExpand d s).1).entries.length) := by
  have hwf1 : DictWF hash (dictExpand d s).1 := dictExpand_WF hash d s hwf hs
  constructor
  · refine ⟨rehashMeasure (dictExpand d s).1, ?_⟩
    exact rehashIter_terminates hash n hn _ _ hwf1 (fun _ => le_refl _)
  · intro m
    obtain ⟨hwfm, hszm⟩ := rehashIter_iterate hash n m _ hwf1
    obtain ⟨hwfm1, hszm1⟩ := rehashIter_iterate hash n (m + 1) _ hwf1
    exact ⟨by omega, hwfm.size_eq⟩

/-- A concrete well-formed idle dictionary with two keys, used to witness
claims that start from a non-rehashing state. -/
def sampleIdleDict : Dict :=
  { ht0 := { table := [[], [(1, some 10), (5, some 50)], [], []], used := 2 },
    ht1 := emptyHt, rehashidx := -1, iterators := 0 }

theorem sampleIdleDict_WF : DictWF hashId sampleIdleDict := by
  refine
    { wf0 := ⟨Or.inr ⟨2, by omega, by decide⟩, by decide, ?_⟩
      wf1 := HtWF_emptyHt hashId
      idle_ht1 := fun _ => rfl
      reh_nonneg := fun h => absurd (by decide) h
      reh_lt := fun h => absurd (by decide) h
      reh_ht1 := fun h => absurd (by decide) h
      reh_ht0 := fun h => absurd (by decide) h
      below_empty := fun h => absurd (by decide) h
      nodup := by decide }
  intro i hi e he
  have hi4 : i < 4 := by simpa [sampleIdleDict] using hi
  interval_cases i <;> simp [sampleIdleDict] at he
  rcases he with rfl | rfl <;> decide

/-- Witness for C3: expanding the concrete 2-key dictionary to 8 slots
starts a rehash that one incremental step finishes, and the live-entry
sum is preserved along the way. -/
theorem rehash_reaches_idle_witness :
    (∃ k, ¬ dictIsRehashing
      ((rehashIter hashId 1)^[k] (dictExpand sampleIdleDict 8).1)) ∧
    (∀ m, dictSize ((rehashIter hashId 1)^[m + 1]
        (dictExpand sampleIdleDict 8).1) =
      dictSize ((rehashIter hashId 1)^[m] (dictExpand sampleIdleDict 8).1) ∧
      dictSize ((rehashIter hashId 1)^[m] (dictExpand sampleIdleDict 8).1) =
        ((rehashIter hashId 1)^[m] (dictExpand sampleIdleDict 8).1).entries.length) :=
  rehash_reaches_idle hashId sampleIdleDict 8 1 sampleIdleDict_WF
    (by norm_num [LONG_MAX]) (by omega) (by decide)

theorem bucket_subset_entries (t : Dictht) (i : Nat) {e : Entry}
    (he : e ∈ t.bucket i) : e ∈ t.entries := by
  rcases Nat.lt_or_ge i t.table.length with hi | hi
  · rw [Dictht.bucket_eq_getElem t i hi] at he
    exact (mem_entries_iff t e).mpr ⟨i, hi, he⟩
  · rw [Dictht.bucket, List.getD_eq_getElem?_getD, List.getElem?_eq_none hi]
      at he
    exact absurd he (List.not_mem_nil e)

theorem dictContainsKey_iff_entry (d : Dict) (k : Nat) :
    dictContainsKey d k ↔ ∃ v, (k, v) ∈ d.entries := by
  rw [dictContainsKey, Dict.keys_eq]
  constructor
  · intro h
    obtain ⟨⟨k', v⟩, hmem, rfl⟩ := List.mem_map.mp h
    exact ⟨v, hmem⟩
  · rintro ⟨v, hv⟩
    exact List.mem_map.mpr ⟨(k, v), hv, rfl⟩

/-- Entry membership splits over the two tables. -/
theorem mem_dict_entries (d : Dict) (e : Entry) :
    e ∈ d.entries ↔ e ∈ d.ht0.entries ∨ e ∈ d.ht1.entries := by
  rw [Dict.entries, List.mem_append]

/-- Key presence, characterized by the two hash-selected buckets
(`_dictKeyIndex` and `dictFind` inspect exactly these). -/
theorem contains_iff_buckets {hash : Nat → Nat} {d : Dict}
    (hwf : DictWF hash d) (k : Nat) :
    dictContainsKey d k ↔
      (∃ e ∈ d.ht0.bucket (dictHashKey hash k &&& d.ht0.sizemask), e.1 = k) ∨
      (∃ e ∈ d.ht1.bucket (dictHashKey hash k &&& d.ht1.sizemask), e.1 = k) := by
  rw [dictContainsKey_iff_entry]
  constructor
  · rintro ⟨v, hv⟩
    rcases (mem_dict_entries d (k, v)).mp hv with h | h
    · exact Or.inl ⟨(k, v), mem_bucket_of_mem_entries hwf.wf0 h, rfl⟩
    · exact Or.inr ⟨(k, v), mem_bucket_of_mem_entries hwf.wf1 h, rfl⟩
  · rintro (⟨e, he, hk⟩ | ⟨e, he, hk⟩)
    · exact ⟨e.2, by
        have := bucket_subset_entries _ _ he
        rw [← hk]
        exact (mem_dict_entries d e).mpr (Or.inl (by simpa using this))⟩
    · exact ⟨e.2, by
        have := bucket_subset_entries _ _ he
        rw [← hk]
        exact (mem_dict_entries d e).mpr (Or.inr (by simpa using this))⟩

/-- With no duplicate keys, the value stored at a key is unique. -/
theorem key_value_unique {l : List Entry} (hnd : (l.map Prod.fst).Nodup) :
    ∀ {k : Nat} {v v' : Option Nat}, (k, v) ∈ l → (k, v') ∈ l → v = v' := by
  induction l with
  | nil => intro k v v' h; exact absurd h (List.not_mem_nil _)
  | cons a r ih =>
    intro k v v' h1 h2
    rw [List.map_cons, List.nodup_cons] at hnd
    rcases List.mem_cons.mp h1 with rfl | h1'
    · rcases List.mem_cons.mp h2 with h2' | h2'
      · exact (congrArg Prod.snd h2').symm
      · exact absurd (List.mem_map.mpr ⟨(k, v'), h2', rfl⟩) hnd.1
    · rcases List.mem_cons.mp h2 with rfl | h2'
      · exact absurd (List.mem_map.mpr ⟨(k, v), h1', rfl⟩) hnd.1
      · exact ih hnd.2 h1' h2'

/-- Entry permutations preserve key presence. -/
theorem contains_of_perm {d d' : Dict} (hperm : d'.entries.Perm d.entries)
    (k : Nat) : dictContainsKey d' k ↔ dictContainsKey d k := by
  rw [dictContainsKey_iff_entry, dictContainsKey_iff_entry]
  exact ⟨fun ⟨v, hv⟩ => ⟨v, hperm.mem_iff.mp hv⟩,
    fun ⟨v, hv⟩ => ⟨v, hperm.mem_iff.mpr hv⟩⟩

/-- The opportunistic rehash-step prologue shared by add/find/delete:
well-formedness, the entry pool (up to permutation) and the iterator
count are preserved. -/
theorem opStep_spec (hash : Nat → Nat) (d : Dict) (hwf : DictWF hash d) :
    DictWF hash (if dictIsRehashing d then dictRehashStep hash d else d) ∧
    (if dictIsRehashing d then dictRehashStep hash d else d).entries.Perm
      d.entries ∧
    (if dictIsRehashing d then dictRehashStep hash d else d).iterators =
      d.iterators := by
  by_cases hreh : dictIsRehashing d
  · rw [if_pos hreh, dictRehashStep]
    by_cases hit : d.iterators = 0
    · rw [if_pos hit]
      obtain ⟨hwf1, hperm, hiter, -⟩ := dictRehash_spec hash d 1 hwf hreh
      exact ⟨hwf1, hperm, hiter⟩
    · rw [if_neg hit]
      exact ⟨hwf, List.Perm.refl _, rfl⟩
  · rw [if_neg hreh]
    exact ⟨hwf, List.Perm.refl _, rfl⟩

theorem findInChain_some_of_mem {k : Nat} {v : Option Nat} {c : List Entry}
    (h : (k, v) ∈ c) : ∃ e, findInChain k c = some e ∧ e ∈ c ∧ e.1 = k := by
  cases hf : findInChain k c with
  | none =>
    rw [findInChain_eq_none_iff] at hf
    exact absurd rfl (hf _ h)
  | some e =>
    exact ⟨e, rfl, (findInChain_some_mem hf).1, (findInChain_some_mem hf).2⟩

theorem mem_keys_of_entry {t : Dictht} {e : Entry} (h : e ∈ t.entries) :
    e.1 ∈ t.keys := List.mem_map.mpr ⟨e, h, rfl⟩

theorem keys_disjoint {hash : Nat → Nat} {d : Dict} (hwf : DictWF hash d)
    {k : Nat} (h0 : k ∈ d.ht0.keys) (h1 : k ∈ d.ht1.keys) : False :=
  (List.disjoint_of_nodup_append hwf.nodup) h0 h1

/-- `dictFind` finds the (unique) entry stored under a present key. -/
theorem dictFind_found (hash : Nat → Nat) (d : Dict) (k : Nat)
    (v : Option Nat) (hwf : DictWF hash d) (hmem : (k, v) ∈ d.entries) :
    (dictFind hash d k).2 = some (k, v) ∧
    DictWF hash (dictFind hash d k).1 ∧
    (dictFind hash d k).1.entries.Perm d.entries := by
  have hsz : dictSize d ≠ 0 := by
    rw [hwf.size_eq]
    intro h
    rw [List.eq_nil_of_length_eq_zero h] at hmem
    exact absurd hmem (List.not_mem_nil _)
  obtain ⟨hwf1, hperm1, -⟩ := opStep_spec hash d hwf
  rw [dictFind, if_neg hsz]
  set d1 := if dictIsRehashing d then dictRehashStep hash d else d with hd1
  dsimp only
  have hmem1 : (k, v) ∈ d1.entries := hperm1.mem_iff.mpr hmem
  have hnd1 : (d1.entries.map Prod.fst).Nodup := by
    have := hwf1.nodup
    rw [Dict.keys_eq] at this
    exact this
  have huniq : ∀ {v' : Option Nat}, (k, v') ∈ d1.entries → v' = v :=
    fun hv' => key_value_unique hnd1 hv' hmem1
  rcases (mem_dict_entries d1 (k, v)).mp hmem1 with hin0 | hin1
  · obtain ⟨e, hfe, hec, hek⟩ := findInChain_some_of_mem
      (mem_bucket_of_mem_entries hwf1.wf0 hin0)
    dsimp only at hfe hec
    rw [hfe]
    have he' : e = (k, v) := by
      obtain ⟨k', v'⟩ := e
      cases hek
      have : v' = v := huniq ((mem_dict_entries d1 _).mpr
        (Or.inl (bucket_subset_entries _ _ hec)))
      rw [this]
    rw [he']
    exact ⟨rfl, hwf1, hperm1⟩
  · have hreh1 : dictIsRehashing d1 := by
      by_contra hnr
      have := hwf1.idle_ht1 hnr
      rw [Dictht.entries, this] at hin1
      exact absurd hin1 (List.not_mem_nil _)
    have hf0 : findInChain k
        (d1.ht0.bucket (dictHashKey hash k &&& d1.ht0.sizemask)) = none := by
      rw [findInChain_eq_none_iff]
      intro e he hk
      have hmem1 : k ∈ d1.ht1.keys := mem_keys_of_entry hin1
      refine keys_disjoint hwf1 ?_ hmem1
      rw [← hk]
      exact mem_keys_of_entry (bucket_subset_entries _ _ he)
    rw [hf0, if_neg (not_not_intro hreh1)]
    obtain ⟨e, hfe, hec, hek⟩ := findInChain_some_of_mem
      (mem_bucket_of_mem_entries hwf1.wf1 hin1)
    dsimp only at hfe hec
    rw [hfe]
    have he' : e = (k, v) := by
      obtain ⟨k', v'⟩ := e
      cases hek
      have : v' = v := huniq ((mem_dict_entries d1 _).mpr
        (Or.inr (bucket_subset_entries _ _ hec)))
      rw [this]
    rw [he']
    exact ⟨rfl, hwf1, hperm1⟩

/-- `dictFind` reports not-found for absent keys. -/
theorem dictFind_missing (hash : Nat → Nat) (d : Dict) (k : Nat)
    (hwf : DictWF hash d) (h : ¬ dictContainsKey d k) :
    (dictFind hash d k).2 = none ∧
    DictWF hash (dictFind hash d k).1 ∧
    (dictFind hash d k).1.entries.Perm d.entries := by
  rw [dictFind]
  by_cases hsz : dictSize d = 0
  · rw [if_pos hsz]
    exact ⟨rfl, hwf, List.Perm.refl _⟩
  · rw [if_neg hsz]
    obtain ⟨hwf1, hperm1, -⟩ := opStep_spec hash d hwf
    set d1 := if dictIsRehashing d then dictRehashStep hash d else d with hd1
    dsimp only
    have h1 : ¬ dictContainsKey d1 k := fun hc =>
      h ((contains_of_perm hperm1 k).mp hc)
    have hbuckets := (contains_iff_buckets hwf1 k).not.mp h1
    push_neg at hbuckets
    have hf0 : findInChain k
        (d1.ht0.bucket (dictHashKey hash k &&& d1.ht0.sizemask)) = none := by
      rw [findInChain_eq_none_iff]
      exact hbuckets.1
    rw [hf0]
    by_cases hreh1 : dictIsRehashing d1
    · rw [if_neg (not_not_intro hreh1)]
      have hf1 : findInChain k
          (d1.ht1.bucket (dictHashKey hash k &&& d1.ht1.sizemask)) = none := by
        rw [findInChain_eq_none_iff]
        exact hbuckets.2
      rw [hf1]
      exact ⟨rfl, hwf1, hperm1⟩
    · rw [if_pos hreh1]
      exact ⟨rfl, hwf1, hperm1⟩

theorem flatten_replicate_nil {α : Type} (n : Nat) :
    (List.replicate n ([] : List α)).flatten = [] := by
  induction n with
  | zero => rfl
  | succ n ih => rw [List.replicate_succ, List.flatten_cons, ih]; rfl

/-- `_dictExpandIfNeeded` before an insertion: never fails, does not touch
any entry, preserves well-formedness, and leaves `ht0` allocated.  The
bound keeps the doubled size below the `LONG_MAX` saturation. -/
theorem dictExpandIfNeeded_spec (hash : Nat → Nat) (d : Dict)
    (hwf : DictWF hash d) (hbound : 2 * d.ht0.used < LONG_MAX) :
    DictWF hash (dictExpandIfNeeded d).1 ∧
    (dictExpandIfNeeded d).1.entries = d.entries ∧
    (dictExpandIfNeeded d).1.iterators = d.iterators ∧
    (dictExpandIfNeeded d).2 ≠ DICT_ERR ∧
    (dictExpandIfNeeded d).1.ht0.table ≠ [] := by
  rw [dictExpandIfNeeded]
  by_cases hreh : dictIsRehashing d
  · rw [if_pos hreh]
    exact ⟨hwf, rfl, rfl, fun h => absurd h (by decide : ¬ (DICT_OK = DICT_ERR)), hwf.reh_ht0 hreh⟩
  · rw [if_neg hreh]
    by_cases hsz : d.ht0.size = 0
    · rw [if_pos hsz]
      have hnil : d.ht0.table = [] := by
        rw [← List.length_eq_zero]
        exact hsz
      have hu0 : d.ht0.used = 0 := by
        rw [hwf.wf0.used_eq]
        simp [Dictht.entries, hnil]
      have hne : dictNextPower DICT_HT_INITIAL_SIZE ≠ d.ht0.size := by
        rw [hsz]
        decide
      obtain ⟨-, -, c3, -⟩ := dictExpand_spec d DICT_HT_INITIAL_SIZE
      rw [c3 hreh (by omega) hne hnil]
      have hwf' := dictExpand_WF hash d DICT_HT_INITIAL_SIZE hwf
        (by decide)
      rw [c3 hreh (by omega) hne hnil] at hwf'
      refine ⟨hwf', ?_, rfl, fun h => absurd h (by decide : ¬ (DICT_OK = DICT_ERR)), ?_⟩
      · show (emptyTableOf (dictNextPower DICT_HT_INITIAL_SIZE)).entries ++
          d.ht1.entries = d.ht0.entries ++ d.ht1.entries
        rw [show (emptyTableOf (dictNextPower DICT_HT_INITIAL_SIZE)).entries
            = [] from flatten_replicate_nil _,
          show d.ht0.entries = [] from by rw [Dictht.entries, hnil]; rfl]
      · show (emptyTableOf (dictNextPower DICT_HT_INITIAL_SIZE)).table ≠ []
        show List.replicate (dictNextPower DICT_HT_INITIAL_SIZE) [] ≠ []
        apply List.ne_nil_of_length_pos
        rw [List.length_replicate]
        decide
    · rw [if_neg hsz]
      by_cases htrig : d.ht0.used ≥ d.ht0.size ∧
          (dict_can_resize ∨ d.ht0.used / d.ht0.size > dictForceResizeBound)
      · rw [if_pos htrig]
        have hnil : d.ht0.table ≠ [] := by
          intro h
          apply hsz
          rw [Dictht.size, h]
          rfl
        have hszpos : 0 < d.ht0.size := Nat.pos_of_ne_zero hsz
        have huspos : 0 < d.ht0.used := by omega
        obtain ⟨⟨-, -, hges, -⟩, -⟩ :=
          dictNextPower_least (d.ht0.used * 2) (by omega)
        have hne : dictNextPower (d.ht0.used * 2) ≠ d.ht0.size := by
          intro h
          omega
        obtain ⟨-, -, -, c4⟩ := dictExpand_spec d (d.ht0.used * 2)
        rw [c4 hreh (by omega) hne hnil]
        have hwf' := dictExpand_WF hash d (d.ht0.used * 2) hwf (by omega)
        rw [c4 hreh (by omega) hne hnil] at hwf'
        refine ⟨hwf', ?_, rfl, fun h => absurd h (by decide : ¬ (DICT_OK = DICT_ERR)), hnil⟩
        show d.ht0.entries ++
          (emptyTableOf (dictNextPower (d.ht0.used * 2))).entries =
          d.ht0.entries ++ d.ht1.entries
        rw [show (emptyTableOf (dictNextPower (d.ht0.used * 2))).entries
            = [] from flatten_replicate_nil _,
          show d.ht1.entries = [] from by
            rw [Dictht.entries, hwf.idle_ht1 hreh]; rfl]
      · rw [if_neg htrig]
        refine ⟨hwf, rfl, rfl, fun h => absurd h (by decide : ¬ (DICT_OK = DICT_ERR)), ?_⟩
        intro h
        apply hsz
        rw [Dictht.size, h]
        rfl

/-- An unallocated table has only empty buckets. -/
theorem bucket_of_nil {t : Dictht} (h : t.table = []) (i : Nat) :
    t.bucket i = [] := by
  rw [Dictht.bucket, h]
  cases i <;> rfl

/-- `_dictKeyIndex`: runs `_dictExpandIfNeeded` (whose state it returns),
answers `none` exactly when the key is already present, and otherwise
returns the hash-selected slot of the target table (`ht1` during a
rehash, else `ht0`). -/
theorem dictKeyIndex_spec (hash : Nat → Nat) (d : Dict) (k : Nat)
    (hwf : DictWF hash d) (hbound : 2 * d.ht0.used < LONG_MAX) :
    (dictKeyIndex hash d k).1 = (dictExpandIfNeeded d).1 ∧
    ((dictKeyIndex hash d k).2 = none ↔ dictContainsKey d k) ∧
    ∀ idx, (dictKeyIndex hash d k).2 = some idx →
      ¬ dictContainsKey d k ∧
      (if dictIsRehashing (dictExpandIfNeeded d).1 then
        idx = dictHashKey hash k &&& (dictExpandIfNeeded d).1.ht1.sizemask
      else
        idx = dictHashKey hash k &&& (dictExpandIfNeeded d).1.ht0.sizemask) := by
  obtain ⟨hwf2, hent, -, hok, -⟩ := dictExpandIfNeeded_spec hash d hwf hbound
  have hcont : dictContainsKey (dictExpandIfNeeded d).1 k ↔
      dictContainsKey d k :=
    contains_of_perm (by rw [hent]) k
  have hbuck := contains_iff_buckets hwf2 k
  rw [dictKeyIndex]
  rcases hE : dictExpandIfNeeded d with ⟨d2, r⟩
  rw [hE] at hwf2 hcont hbuck hok
  simp only at hwf2 hcont hbuck hok ⊢
  rw [if_neg hok]
  by_cases hc0 : chainHasKey k
      (d2.ht0.bucket (dictHashKey hash k &&& d2.ht0.sizemask)) = true
  · rw [if_pos hc0]
    have hin : dictContainsKey d k :=
      hcont.mp (hbuck.mpr (Or.inl ((chainHasKey_iff _ _).mp hc0)))
    exact ⟨rfl, ⟨fun _ => hin, fun _ => rfl⟩,
      fun idx h => absurd h (by simp)⟩
  · rw [if_neg hc0]
    by_cases hreh : dictIsRehashing d2
    · rw [if_neg (by simpa using hreh)]
      by_cases hc1 : chainHasKey k
          (d2.ht1.bucket (dictHashKey hash k &&& d2.ht1.sizemask)) = true
      · rw [if_pos hc1]
        have hin : dictContainsKey d k :=
          hcont.mp (hbuck.mpr (Or.inr ((chainHasKey_iff _ _).mp hc1)))
        exact ⟨rfl, ⟨fun _ => hin, fun _ => rfl⟩,
          fun idx h => absurd h (by simp)⟩
      · rw [if_neg hc1]
        have hno : ¬ dictContainsKey d k := by
          intro hin
          rcases hbuck.mp (hcont.mpr hin) with h | h
          · exact hc0 ((chainHasKey_iff _ _).mpr h)
          · exact hc1 ((chainHasKey_iff _ _).mpr h)
        refine ⟨rfl, ⟨fun h => absurd h (by simp), fun h => absurd h hno⟩,
          ?_⟩
        intro idx h
        rw [Option.some_inj] at h
        rw [if_pos hreh]
        exact ⟨hno, h.symm⟩
    · rw [if_pos (by simpa using hreh)]
      have hno : ¬ dictContainsKey d k := by
        intro hin
        rcases hbuck.mp (hcont.mpr hin) with h | h
        · exact hc0 ((chainHasKey_iff _ _).mpr h)
        · obtain ⟨e, he, -⟩ := h
          rw [bucket_of_nil (hwf2.idle_ht1 hreh)] at he
          exact absurd he (List.not_mem_nil e)
      refine ⟨rfl, ⟨fun h => absurd h (by simp), fun h => absurd h hno⟩, ?_⟩
      intro idx h
      rw [Option.some_inj] at h
      rw [if_neg hreh]
      exact ⟨hno, h.symm⟩

/-- Prepending a fresh entry at the head of the hash-selected bucket:
table well-formedness is preserved, the entry pool gains exactly that
entry, and the table geometry is untouched. -/
theorem insert_entry_ht (hash : Nat → Nat) (t : Dictht) (hwf : HtWF hash t)
    (k : Nat) (vv : Option Nat) (idx : Nat)
    (hidx : idx = dictHashKey hash k &&& t.sizemask)
    (hne : t.table ≠ []) :
    HtWF hash (Dictht.mk (t.table.set idx ((k, vv) :: t.bucket idx))
        (t.used + 1)) ∧
    (Dictht.mk (t.table.set idx ((k, vv) :: t.bucket idx))
        (t.used + 1)).entries.Perm ((k, vv) :: t.entries) ∧
    (t.table.set idx ((k, vv) :: t.bucket idx)).length = t.table.length := by
  obtain ⟨b, hb63, hb⟩ := hwf.size_pow.resolve_left hne
  have hlt : idx < t.table.length := by
    rw [hidx]
    exact mask_lt_of_pow t b hb _
  have hperm : (Dictht.mk (t.table.set idx ((k, vv) :: t.bucket idx))
      (t.used + 1)).entries.Perm ((k, vv) :: t.entries) := by
    show (t.table.set idx ((k, vv) :: t.bucket idx)).flatten.Perm
      ((k, vv) :: t.table.flatten)
    exact flatten_set_cons_perm t.table idx hlt (k, vv)
  refine ⟨⟨?_, ?_, ?_⟩, hperm, List.length_set t.table idx _⟩
  · right
    exact ⟨b, hb63, by rw [List.length_set]; exact hb⟩
  · show t.used + 1 = _
    rw [hperm.length_eq, List.length_cons, hwf.used_eq]
  · intro i hi e he
    rw [List.length_set] at hi
    have hmask : (Dictht.mk (t.table.set idx ((k, vv) :: t.bucket idx))
        (t.used + 1)).sizemask = t.sizemask := by
      show (t.table.set idx _).length - 1 = _
      rw [List.length_set]
      rfl
    rw [hmask]
    by_cases hiidx : i = idx
    · subst hiidx
      rw [show (t.table.set i ((k, vv) :: t.bucket i))[i] =
          (k, vv) :: t.bucket i from List.getElem_set_self _] at he
      rcases List.mem_cons.mp he with rfl | he'
      · exact hidx.symm
      · rw [Dictht.bucket_eq_getElem t i hlt] at he'
        exact hwf.placed i hlt e he'
    · rw [show (t.table.set idx ((k, vv) :: t.bucket idx))[i] =
          t.table[i] from List.getElem_set_ne (fun h => hiidx h.symm) _] at he
      exact hwf.placed i hi e he


/-- Inserting a fresh key into the `ht1` target bucket (the insertion arm
of `dictAddRaw` taken while rehashing): well-formedness is preserved and
the entry pool gains exactly the new `(k, NULL)` entry. -/
theorem insert_dict_ht1 (hash : Nat → Nat) (d2 : Dict)
    (hwf2 : DictWF hash d2) (hreh : dictIsRehashing d2) (k : Nat) (vv : Option Nat)
    (hnin : ¬ dictContainsKey d2 k) :
    DictWF hash (Dict.mk d2.ht0
      (Dictht.mk
        (d2.ht1.table.set (dictHashKey hash k &&& d2.ht1.sizemask)
          ((k, vv) ::
            d2.ht1.bucket (dictHashKey hash k &&& d2.ht1.sizemask)))
        (d2.ht1.used + 1)) d2.rehashidx d2.iterators) ∧
    (Dict.mk d2.ht0
      (Dictht.mk
        (d2.ht1.table.set (dictHashKey hash k &&& d2.ht1.sizemask)
          ((k, vv) ::
            d2.ht1.bucket (dictHashKey hash k &&& d2.ht1.sizemask)))
        (d2.ht1.used + 1)) d2.rehashidx d2.iterators).entries.Perm
      ((k, vv) :: d2.entries) := by
  obtain ⟨hwfI, hpermI, -⟩ := insert_entry_ht hash d2.ht1 hwf2.wf1 k vv _ rfl
    (hwf2.reh_ht1 hreh)
  have hpermR := (List.Perm.append_left d2.ht0.entries hpermI).trans
    List.perm_middle
  refine ⟨⟨hwf2.wf0, hwfI, fun h => absurd hreh h,
    fun _ => hwf2.reh_nonneg hreh, fun _ => hwf2.reh_lt hreh,
    fun _ => ?_, fun _ => hwf2.reh_ht0 hreh,
    fun _ => hwf2.below_empty hreh, ?_⟩, hpermR⟩
  · intro hnil
    apply hwf2.reh_ht1 hreh
    have hlen := congrArg List.length hnil
    rw [List.length_set] at hlen
    exact List.eq_nil_of_length_eq_zero hlen
  · rw [Dict.keys_eq]
    refine ((hpermR.map Prod.fst).nodup_iff).mpr ?_
    rw [List.map_cons]
    refine List.nodup_cons.mpr ⟨?_, ?_⟩
    · intro hmem
      apply hnin
      show k ∈ d2.keys
      rw [Dict.keys_eq]
      exact hmem
    · have h := hwf2.nodup
      rw [Dict.keys_eq] at h
      exact h

/-- Inserting a fresh key into the `ht0` target bucket (the insertion arm
of `dictAddRaw` taken while not rehashing). -/
theorem insert_dict_ht0 (hash : Nat → Nat) (d2 : Dict)
    (hwf2 : DictWF hash d2) (hreh : ¬ dictIsRehashing d2) (k : Nat) (vv : Option Nat)
    (hnin : ¬ dictContainsKey d2 k) (hne : d2.ht0.table ≠ []) :
    DictWF hash (Dict.mk
      (Dictht.mk
        (d2.ht0.table.set (dictHashKey hash k &&& d2.ht0.sizemask)
          ((k, vv) ::
            d2.ht0.bucket (dictHashKey hash k &&& d2.ht0.sizemask)))
        (d2.ht0.used + 1)) d2.ht1 d2.rehashidx d2.iterators) ∧
    (Dict.mk
      (Dictht.mk
        (d2.ht0.table.set (dictHashKey hash k &&& d2.ht0.sizemask)
          ((k, vv) ::
            d2.ht0.bucket (dictHashKey hash k &&& d2.ht0.sizemask)))
        (d2.ht0.used + 1)) d2.ht1 d2.rehashidx d2.iterators).entries.Perm
      ((k, vv) :: d2.entries) := by
  obtain ⟨hwfI, hpermI, -⟩ := insert_entry_ht hash d2.ht0 hwf2.wf0 k vv _ rfl hne
  have hpermR := hpermI.append_right d2.ht1.entries
  refine ⟨⟨hwfI, hwf2.wf1, fun h => hwf2.idle_ht1 h,
    fun h => absurd h hreh, fun h => absurd h hreh,
    fun h => absurd h hreh, fun h => absurd h hreh,
    fun h => absurd h hreh, ?_⟩, hpermR⟩
  rw [Dict.keys_eq]
  refine ((hpermR.map Prod.fst).nodup_iff).mpr ?_
  rw [List.cons_append, List.map_cons]
  refine List.nodup_cons.mpr ⟨?_, ?_⟩
  · intro hmem
    apply hnin
    show k ∈ d2.keys
    rw [Dict.keys_eq]
    exact hmem
  · have h := hwf2.nodup
    rw [Dict.keys_eq] at h
    exact h

/-- C5: `dictAddRaw` fails — returning the key-exists failure with the
entry pool unmodified (up to the relocation done by the opportunistic
rehash step and a possible resize) — exactly when the key is already
present (in `ht0`, or in either table while rehashing); on success it
creates the new entry `(k, NULL)`, prepends it at the head of the
hash-selected bucket of the target table (`ht1` whenever the dict is
rehashing at insertion time, `ht0` otherwise) and increments that
table's `used` count. -/
theorem dictAddRaw_claim (hash : Nat → Nat) (d : Dict) (k : Nat)
    (hwf : DictWF hash d)
    (hbound : 2 * (d.ht0.used + d.ht1.used) < LONG_MAX) :
    (dictContainsKey d k →
      (dictAddRaw hash d k).2 = none ∧
      (dictAddRaw hash d k).1.entries.Perm d.entries ∧
      DictWF hash (dictAddRaw hash d k).1) ∧
    (¬ dictContainsKey d k →
      ∃ d2 : Dict,
        d2 = (dictExpandIfNeeded
          (if dictIsRehashing d then dictRehashStep hash d else d)).1 ∧
        DictWF hash d2 ∧
        (if dictIsRehashing d2 then
          (dictAddRaw hash d k).2 =
            some (1, dictHashKey hash k &&& d2.ht1.sizemask) ∧
          (dictAddRaw hash d k).1 = Dict.mk d2.ht0
            (Dictht.mk
              (d2.ht1.table.set (dictHashKey hash k &&& d2.ht1.sizemask)
                ((k, none) ::
                  d2.ht1.bucket (dictHashKey hash k &&& d2.ht1.sizemask)))
              (d2.ht1.used + 1)) d2.rehashidx d2.iterators
        else
          (dictAddRaw hash d k).2 =
            some (0, dictHashKey hash k &&& d2.ht0.sizemask) ∧
          (dictAddRaw hash d k).1 = Dict.mk
            (Dictht.mk
              (d2.ht0.table.set (dictHashKey hash k &&& d2.ht0.sizemask)
                ((k, none) ::
                  d2.ht0.bucket (dictHashKey hash k &&& d2.ht0.sizemask)))
              (d2.ht0.used + 1)) d2.ht1 d2.rehashidx d2.iterators) ∧
        (dictAddRaw hash d k).1.entries.Perm ((k, none) :: d.entries) ∧
        DictWF hash (dictAddRaw hash d k).1) := by
  obtain ⟨hwf0, hperm0, -⟩ := opStep_spec hash d hwf
  have hbound0 : 2 * (if dictIsRehashing d then dictRehashStep hash d
      else d).ht0.used < LONG_MAX := by
    have h1 : (if dictIsRehashing d then dictRehashStep hash d
        else d).ht0.used ≤ d.ht0.used + d.ht1.used := by
      rw [hwf0.wf0.used_eq, hwf.wf0.used_eq, hwf.wf1.used_eq]
      calc (if dictIsRehashing d then dictRehashStep hash d
            else d).ht0.entries.length
          ≤ (if dictIsRehashing d then dictRehashStep hash d
            else d).entries.length := by
            rw [Dict.entries, List.length_append]; omega
        _ = d.entries.length := hperm0.length_eq
        _ = d.ht0.entries.length + d.ht1.entries.length := by
            rw [Dict.entries, List.length_append]
    omega
  obtain ⟨hfst, hnone, hsome⟩ := dictKeyIndex_spec hash
    (if dictIsRehashing d then dictRehashStep hash d else d) k hwf0 hbound0
  obtain ⟨hwf2, hent2, -, -, hne2⟩ := dictExpandIfNeeded_spec hash
    (if dictIsRehashing d then dictRehashStep hash d else d) hwf0 hbound0
  have hcont0 : dictContainsKey (if dictIsRehashing d then
      dictRehashStep hash d else d) k ↔ dictContainsKey d k :=
    contains_of_perm hperm0 k
  have hPd : (dictExpandIfNeeded (if dictIsRehashing d then
      dictRehashStep hash d else d)).1.entries.Perm d.entries := by
    rw [hent2]
    exact hperm0
  simp only [dictAddRaw]
  rcases hK : dictKeyIndex hash
      (if dictIsRehashing d then dictRehashStep hash d else d) k
    with ⟨d1, oi⟩
  rw [hK] at hfst hnone hsome
  simp only at hfst hnone hsome
  subst hfst
  constructor
  · intro hin
    have hoi : oi = none := hnone.mpr (hcont0.mpr hin)
    subst hoi
    exact ⟨rfl, hPd, hwf2⟩
  · intro hnin
    have hnin2 : ¬ dictContainsKey (dictExpandIfNeeded
        (if dictIsRehashing d then dictRehashStep hash d else d)).1 k := by
      intro h
      exact hnin (hcont0.mp ((contains_of_perm (by rw [hent2]) k).mp h))
    cases oi with
    | none => exact absurd (hcont0.mp (hnone.mp rfl)) hnin
    | some idx =>
      obtain ⟨-, hidx⟩ := hsome idx rfl
      by_cases hreh : dictIsRehashing (dictExpandIfNeeded
          (if dictIsRehashing d then dictRehashStep hash d else d)).1
      · rw [if_pos hreh] at hidx
        subst hidx
        obtain ⟨hwfR, hpermR⟩ := insert_dict_ht1 hash _ hwf2 hreh k none hnin2
        refine ⟨_, rfl, hwf2, ?_⟩
        simp only [if_pos hreh]
        refine ⟨⟨?_, ?_⟩, hpermR.trans (hPd.cons (k, none)), hwfR⟩ <;> trivial
      · rw [if_neg hreh] at hidx
        subst hidx
        obtain ⟨hwfR, hpermR⟩ := insert_dict_ht0 hash _ hwf2 hreh k none hnin2 hne2
        refine ⟨_, rfl, hwf2, ?_⟩
        simp only [if_neg hreh]
        refine ⟨⟨?_, ?_⟩, hpermR.trans (hPd.cons (k, none)), hwfR⟩ <;> trivial

/-- Witness for C5: adding the absent key 7 to the concrete 2-key
dictionary lands at the head of bucket 3 of `ht0`, growing the entry
pool by exactly `(7, NULL)`. -/
theorem dictAddRaw_claim_witness :
    DictWF hashId sampleIdleDict ∧
    ¬ dictContainsKey sampleIdleDict 7 ∧
    (dictAddRaw hashId sampleIdleDict 7).2 = some (0, 3) ∧
    (dictAddRaw hashId sampleIdleDict 7).1.entries.Perm
      ((7, none) :: sampleIdleDict.entries) := by
  have h := dictAddRaw_claim hashId sampleIdleDict 7 sampleIdleDict_WF
    (by decide)
  obtain ⟨d2, hd2, -, hif, hperm, -⟩ := h.2 (by decide)
  subst hd2
  rw [if_neg (by decide)] at hif
  exact ⟨sampleIdleDict_WF, by decide, hif.1.trans (by decide), hperm⟩

/-- `dictSetVal` right after `dictAddRaw` placed `(k, NULL)` at the head
of `ht1`'s bucket `idx`: the head entry's value becomes `v`. -/
theorem setValAt_ht1 (d2 : Dict) (k v : Nat) (idx : Nat)
    (hidx : idx < d2.ht1.table.length) :
    setValAt (Dict.mk d2.ht0
      (Dictht.mk (d2.ht1.table.set idx ((k, none) :: d2.ht1.bucket idx))
        (d2.ht1.used + 1)) d2.rehashidx d2.iterators) (1, idx) v =
    Dict.mk d2.ht0
      (Dictht.mk (d2.ht1.table.set idx ((k, some v) :: d2.ht1.bucket idx))
        (d2.ht1.used + 1)) d2.rehashidx d2.iterators := by
  rw [setValAt, if_pos rfl]
  simp only [Dictht.bucket, getD_set_self _ _ _ hidx, setHeadVal,
    List.set_set]

/-- `dictSetVal` right after `dictAddRaw` placed `(k, NULL)` at the head
of `ht0`'s bucket `idx`: the head entry's value becomes `v`. -/
theorem setValAt_ht0 (d2 : Dict) (k v : Nat) (idx : Nat)
    (hidx : idx < d2.ht0.table.length) :
    setValAt (Dict.mk
      (Dictht.mk (d2.ht0.table.set idx ((k, none) :: d2.ht0.bucket idx))
        (d2.ht0.used + 1)) d2.ht1 d2.rehashidx d2.iterators) (0, idx) v =
    Dict.mk
      (Dictht.mk (d2.ht0.table.set idx ((k, some v) :: d2.ht0.bucket idx))
        (d2.ht0.used + 1)) d2.ht1 d2.rehashidx d2.iterators := by
  rw [setValAt, if_neg (show ¬ ((0 : Nat), idx).1 = 1 from Nat.zero_ne_one)]
  simp only [Dictht.bucket, getD_set_self _ _ _ hidx, setHeadVal,
    List.set_set]

/-- A successful `dictAdd` (absent key): returns `DICT_OK`, preserves
well-formedness, and the entry pool gains exactly `(k, v)`. -/
theorem dictAdd_success (hash : Nat → Nat) (d : Dict) (k v : Nat)
    (hwf : DictWF hash d)
    (hbound : 2 * (d.ht0.used + d.ht1.used) < LONG_MAX)
    (hnin : ¬ dictContainsKey d k) :
    (dictAdd hash d k v).2 = DICT_OK ∧
    DictWF hash (dictAdd hash d k v).1 ∧
    (dictAdd hash d k v).1.entries.Perm ((k, some v) :: d.entries) := by
  obtain ⟨hwf0, hperm0, -⟩ := opStep_spec hash d hwf
  have hbound0 : 2 * (if dictIsRehashing d then dictRehashStep hash d
      else d).ht0.used < LONG_MAX := by
    have h1 : (if dictIsRehashing d then dictRehashStep hash d
        else d).ht0.used ≤ d.ht0.used + d.ht1.used := by
      rw [hwf0.wf0.used_eq, hwf.wf0.used_eq, hwf.wf1.used_eq]
      calc (if dictIsRehashing d then dictRehashStep hash d
            else d).ht0.entries.length
          ≤ (if dictIsRehashing d then dictRehashStep hash d
            else d).entries.length := by
            rw [Dict.entries, List.length_append]; omega
        _ = d.entries.length := hperm0.length_eq
        _ = d.ht0.entries.length + d.ht1.entries.length := by
            rw [Dict.entries, List.length_append]
    omega
  obtain ⟨hfst, hnone, hsome⟩ := dictKeyIndex_spec hash
    (if dictIsRehashing d then dictRehashStep hash d else d) k hwf0 hbound0
  obtain ⟨hwf2, hent2, -, -, hne2⟩ := dictExpandIfNeeded_spec hash
    (if dictIsRehashing d then dictRehashStep hash d else d) hwf0 hbound0
  have hcont0 : dictContainsKey (if dictIsRehashing d then
      dictRehashStep hash d else d) k ↔ dictContainsKey d k :=
    contains_of_perm hperm0 k
  have hPd : (dictExpandIfNeeded (if dictIsRehashing d then
      dictRehashStep hash d else d)).1.entries.Perm d.entries := by
    rw [hent2]
    exact hperm0
  have hnin2 : ¬ dictContainsKey (dictExpandIfNeeded
      (if dictIsRehashing d then dictRehashStep hash d else d)).1 k := by
    intro h
    exact hnin (hcont0.mp ((contains_of_perm (by rw [hent2]) k).mp h))
  simp only [dictAdd, dictAddRaw]
  rcases hK : dictKeyIndex hash
      (if dictIsRehashing d then dictRehashStep hash d else d) k
    with ⟨d1, oi⟩
  rw [hK] at hfst hnone hsome
  simp only at hfst hnone hsome
  subst hfst
  cases oi with
  | none => exact absurd (hcont0.mp (hnone.mp rfl)) hnin
  | some idx =>
    obtain ⟨-, hidx⟩ := hsome idx rfl
    by_cases hreh : dictIsRehashing (dictExpandIfNeeded
        (if dictIsRehashing d then dictRehashStep hash d else d)).1
    · rw [if_pos hreh] at hidx
      subst hidx
      have hlen : dictHashKey hash k &&& (dictExpandIfNeeded
          (if dictIsRehashing d then dictRehashStep hash d
            else d)).1.ht1.sizemask < (dictExpandIfNeeded
          (if dictIsRehashing d then dictRehashStep hash d
            else d)).1.ht1.table.length := by
        obtain ⟨b, -, hb⟩ := hwf2.wf1.size_pow.resolve_left
          (hwf2.reh_ht1 hreh)
        exact mask_lt_of_pow _ b hb _
      obtain ⟨hwfR, hpermR⟩ := insert_dict_ht1 hash _ hwf2 hreh k (some v)
        hnin2
      simp only [if_pos hreh]
      rw [setValAt_ht1 _ k v _ hlen]
      exact ⟨trivial, hwfR, hpermR.trans (hPd.cons (k, some v))⟩
    · rw [if_neg hreh] at hidx
      subst hidx
      have hlen : dictHashKey hash k &&& (dictExpandIfNeeded
          (if dictIsRehashing d then dictRehashStep hash d
            else d)).1.ht0.sizemask < (dictExpandIfNeeded
          (if dictIsRehashing d then dictRehashStep hash d
            else d)).1.ht0.table.length := by
        obtain ⟨b, -, hb⟩ := hwf2.wf0.size_pow.resolve_left hne2
        exact mask_lt_of_pow _ b hb _
      obtain ⟨hwfR, hpermR⟩ := insert_dict_ht0 hash _ hwf2 hreh k (some v)
        hnin2 hne2
      simp only [if_neg hreh]
      rw [setValAt_ht0 _ k v _ hlen]
      exact ⟨trivial, hwfR, hpermR.trans (hPd.cons (k, some v))⟩

/-- Multiset cancellation for bucket removal: if the old bucket is the
removed entry plus the new chain, removing it from the pool removes
exactly that entry. -/
theorem perm_cancel_remove {α : Type} {bucket c newfl oldfl : List α}
    {e : α} (h1 : (bucket ++ newfl).Perm (c ++ oldfl))
    (h2 : bucket.Perm (e :: c)) : (e :: newfl).Perm oldfl := by
  apply (List.perm_append_left_iff c).mp
  exact List.perm_middle.trans ((h2.symm.append_right newfl).trans h1)

/-- Unlinking the first `k`-entry of bucket `i` (the `dictGenericDelete`
success arm on one table): well-formedness is preserved and the entry
pool loses exactly one entry whose key is `k`. -/
theorem remove_entry_ht (hash : Nat → Nat) (t : Dictht) (hwf : HtWF hash t)
    (k : Nat) (i : Nat) (c : List Entry)
    (hrem : removeFirst k (t.bucket i) = some c) :
    ∃ e : Entry, e.1 = k ∧
      HtWF hash (Dictht.mk (t.table.set i c) (t.used - 1)) ∧
      (e :: (Dictht.mk (t.table.set i c) (t.used - 1)).entries).Perm
        t.entries ∧
      (t.table.set i c).length = t.table.length := by
  have hbne : t.bucket i ≠ [] := by
    intro h
    rw [h] at hrem
    simp [removeFirst] at hrem
  have hlt : i < t.table.length := by
    by_contra h
    apply hbne
    rw [Dictht.bucket, List.getD_eq_getElem?_getD,
      List.getElem?_eq_none (Nat.le_of_not_lt h)]
    rfl
  obtain ⟨e, hmem, hkey, hbperm⟩ := removeFirst_some_perm hrem
  have hfl := flatten_set_perm t.table i hlt c
  have hperm : (e :: (t.table.set i c).flatten).Perm t.table.flatten :=
    perm_cancel_remove hfl hbperm
  refine ⟨e, hkey, ⟨?_, ?_, ?_⟩, hperm, List.length_set t.table i c⟩
  · rcases hwf.size_pow with hnil | ⟨b, hb63, hb⟩
    · exact absurd (by rw [Dictht.bucket, hnil]; cases i <;> rfl) hbne
    · exact Or.inr ⟨b, hb63, by rw [List.length_set]; exact hb⟩
  · show t.used - 1 = (t.table.set i c).flatten.length
    have hl := hperm.length_eq
    rw [List.length_cons] at hl
    have := hwf.used_eq
    rw [Dictht.entries] at this
    omega
  · intro j hj x hx
    have hjlen : j < t.table.length := by
      have h2 := hj
      dsimp only at h2
      rw [List.length_set] at h2
      exact h2
    have hmask : (Dictht.mk (t.table.set i c) (t.used - 1)).sizemask =
        t.sizemask := by
      show (t.table.set i c).length - 1 = _
      rw [List.length_set]
      rfl
    rw [hmask]
    by_cases hji : j = i
    · subst hji
      rw [show (t.table.set j c)[j] = c from List.getElem_set_self _] at hx
      have hxb : x ∈ t.bucket j :=
        hbperm.mem_iff.mpr (List.mem_cons_of_mem e hx)
      rw [Dictht.bucket_eq_getElem t j hjlen] at hxb
      exact hwf.placed j hjlen x hxb
    · rw [show (t.table.set i c)[j] = t.table[j] from
        List.getElem_set_ne (fun h => hji h.symm) _] at hx
      exact hwf.placed j hjlen x hx

/-- `dictGenericDelete` success arm on `ht0`: the whole-dictionary
effect of unlinking the first `k`-entry of bucket `i`. -/
theorem remove_dict_ht0 (hash : Nat → Nat) (d1 : Dict)
    (hwf1 : DictWF hash d1) (k : Nat) (i : Nat) (c : List Entry)
    (hrem : removeFirst k (d1.ht0.bucket i) = some c) :
    ∃ e : Entry, e.1 = k ∧
      DictWF hash (Dict.mk (Dictht.mk (d1.ht0.table.set i c)
        (d1.ht0.used - 1)) d1.ht1 d1.rehashidx d1.iterators) ∧
      (e :: (Dict.mk (Dictht.mk (d1.ht0.table.set i c)
        (d1.ht0.used - 1)) d1.ht1 d1.rehashidx d1.iterators).entries).Perm
        d1.entries ∧
      ¬ dictContainsKey (Dict.mk (Dictht.mk (d1.ht0.table.set i c)
        (d1.ht0.used - 1)) d1.ht1 d1.rehashidx d1.iterators) k := by
  obtain ⟨e, hkey, hwfI, hpermI, hlenI⟩ :=
    remove_entry_ht hash d1.ht0 hwf1.wf0 k i c hrem
  have hbne : d1.ht0.bucket i ≠ [] := by
    intro h
    rw [h] at hrem
    simp [removeFirst] at hrem
  have hpermD : (e :: (Dict.mk (Dictht.mk (d1.ht0.table.set i c)
      (d1.ht0.used - 1)) d1.ht1 d1.rehashidx d1.iterators).entries).Perm
      d1.entries := by
    show (e :: ((d1.ht0.table.set i c).flatten ++ d1.ht1.entries)).Perm
      (d1.ht0.entries ++ d1.ht1.entries)
    exact hpermI.append_right d1.ht1.entries
  have hnodup : (Dict.mk (Dictht.mk (d1.ht0.table.set i c)
      (d1.ht0.used - 1)) d1.ht1 d1.rehashidx d1.iterators).keys.Nodup ∧
      k ∉ (Dict.mk (Dictht.mk (d1.ht0.table.set i c)
      (d1.ht0.used - 1)) d1.ht1 d1.rehashidx d1.iterators).keys := by
    have hmp := hpermD.map Prod.fst
    have hnd := hwf1.nodup
    rw [Dict.keys_eq] at hnd
    have hnd2 := (hmp.nodup_iff).mpr hnd
    rw [List.map_cons, hkey] at hnd2
    obtain ⟨hnotin, hnd3⟩ := List.nodup_cons.mp hnd2
    constructor
    · rw [Dict.keys_eq]
      exact hnd3
    · rw [Dict.keys_eq]
      exact hnotin
  refine ⟨e, hkey, ⟨hwfI, hwf1.wf1, fun h => hwf1.idle_ht1 h,
    fun h => hwf1.reh_nonneg h, ?_, fun h => hwf1.reh_ht1 h, ?_, ?_,
    hnodup.1⟩, hpermD, hnodup.2⟩
  · intro h
    rcases hwf1.reh_lt h with h0 | hlt
    · exfalso
      have hents := entries_eq_nil_of_used_zero hwf1.wf0 h0
      apply hbne
      rcases hb : d1.ht0.bucket i with _ | ⟨x, r⟩
      · rfl
      · exfalso
        have hx : x ∈ d1.ht0.entries :=
          bucket_subset_entries d1.ht0 i (by rw [hb]; exact List.mem_cons_self x r)
        rw [hents] at hx
        exact absurd hx (List.not_mem_nil x)
    · exact Or.inr (by
        show _ < (d1.ht0.table.set i c).length
        rw [List.length_set]
        exact hlt)
  · intro h hnil
    apply hwf1.reh_ht0 h
    have hlen := congrArg List.length hnil
    rw [List.length_set] at hlen
    exact List.eq_nil_of_length_eq_zero hlen
  · intro h j hj
    have hne_ij : i ≠ j := by
      intro hij
      subst hij
      exact hbne (hwf1.below_empty h i hj)
    show (d1.ht0.table.set i c).getD j [] = []
    rw [getD_set_of_ne _ _ _ _ hne_ij]
    exact hwf1.below_empty h j hj

/-- `dictGenericDelete` success arm on `ht1` (reached only while
rehashing): the whole-dictionary effect of unlinking the first
`k`-entry of bucket `i` of `ht1`. -/
theorem remove_dict_ht1 (hash : Nat → Nat) (d1 : Dict)
    (hwf1 : DictWF hash d1) (k : Nat) (i : Nat) (c : List Entry)
    (hrem : removeFirst k (d1.ht1.bucket i) = some c) :
    ∃ e : Entry, e.1 = k ∧
      DictWF hash (Dict.mk d1.ht0 (Dictht.mk (d1.ht1.table.set i c)
        (d1.ht1.used - 1)) d1.rehashidx d1.iterators) ∧
      (e :: (Dict.mk d1.ht0 (Dictht.mk (d1.ht1.table.set i c)
        (d1.ht1.used - 1)) d1.rehashidx d1.iterators).entries).Perm
        d1.entries ∧
      ¬ dictContainsKey (Dict.mk d1.ht0 (Dictht.mk (d1.ht1.table.set i c)
        (d1.ht1.used - 1)) d1.rehashidx d1.iterators) k := by
  obtain ⟨e, hkey, hwfI, hpermI, hlenI⟩ :=
    remove_entry_ht hash d1.ht1 hwf1.wf1 k i c hrem
  have hbne : d1.ht1.bucket i ≠ [] := by
    intro h
    rw [h] at hrem
    simp [removeFirst] at hrem
  have hpermD : (e :: (Dict.mk d1.ht0 (Dictht.mk (d1.ht1.table.set i c)
      (d1.ht1.used - 1)) d1.rehashidx d1.iterators).entries).Perm
      d1.entries := by
    show (e :: (d1.ht0.entries ++ (d1.ht1.table.set i c).flatten)).Perm
      (d1.ht0.entries ++ d1.ht1.entries)
    exact List.perm_middle.symm.trans
      (List.Perm.append_left d1.ht0.entries hpermI)
  have hnodup : (Dict.mk d1.ht0 (Dictht.mk (d1.ht1.table.set i c)
      (d1.ht1.used - 1)) d1.rehashidx d1.iterators).keys.Nodup ∧
      k ∉ (Dict.mk d1.ht0 (Dictht.mk (d1.ht1.table.set i c)
      (d1.ht1.used - 1)) d1.rehashidx d1.iterators).keys := by
    have hmp := hpermD.map Prod.fst
    have hnd := hwf1.nodup
    rw [Dict.keys_eq] at hnd
    have hnd2 := (hmp.nodup_iff).mpr hnd
    rw [List.map_cons, hkey] at hnd2
    obtain ⟨hnotin, hnd3⟩ := List.nodup_cons.mp hnd2
    constructor
    · rw [Dict.keys_eq]
      exact hnd3
    · rw [Dict.keys_eq]
      exact hnotin
  refine ⟨e, hkey, ⟨hwf1.wf0, hwfI, ?_, fun h => hwf1.reh_nonneg h,
    fun h => hwf1.reh_lt h, ?_, fun h => hwf1.reh_ht0 h,
    fun h => hwf1.below_empty h, hnodup.1⟩, hpermD, hnodup.2⟩
  · intro h
    exfalso
    apply hbne
    rw [bucket_of_nil (hwf1.idle_ht1 h)]
  · intro h hnil
    apply hwf1.reh_ht1 h
    have hlen := congrArg List.length hnil
    rw [List.length_set] at hlen
    exact List.eq_nil_of_length_eq_zero hlen

/-- A successful `dictDelete` (present key): returns `DICT_OK`, preserves
well-formedness, removes exactly one entry holding key `k`, and the key
is gone afterwards. -/
theorem dictDelete_found (hash : Nat → Nat) (d : Dict) (k : Nat)
    (hwf : DictWF hash d) (hin : dictContainsKey d k) :
    (dictDelete hash d k).2 = DICT_OK ∧
    DictWF hash (dictDelete hash d k).1 ∧
    (∃ e : Entry, e.1 = k ∧
      (e :: (dictDelete hash d k).1.entries).Perm d.entries) ∧
    ¬ dictContainsKey (dictDelete hash d k).1 k := by
  have hsz : ¬ d.ht0.size = 0 := by
    intro h0
    have hnil : d.ht0.table = [] := List.length_eq_zero.mp h0
    by_cases hreh : dictIsRehashing d
    · exact hwf.reh_ht0 hreh hnil
    · obtain ⟨v, hv⟩ := (dictContainsKey_iff_entry d k).mp hin
      rcases (mem_dict_entries d _).mp hv with h | h
      · rw [Dictht.entries, hnil] at h
        exact absurd h (List.not_mem_nil _)
      · rw [Dictht.entries, hwf.idle_ht1 hreh] at h
        exact absurd h (List.not_mem_nil _)
  obtain ⟨hwf1, hperm1, -⟩ := opStep_spec hash d hwf
  have hin1 : dictContainsKey (if dictIsRehashing d then
      dictRehashStep hash d else d) k :=
    (contains_of_perm hperm1 k).mpr hin
  simp only [dictDelete, dictGenericDelete]
  rw [if_neg hsz]
  rcases hrem0 : removeFirst k
      ((if dictIsRehashing d then dictRehashStep hash d else d).ht0.bucket
        (dictHashKey hash k &&&
          (if dictIsRehashing d then dictRehashStep hash d
            else d).ht0.sizemask)) with _ | c
  · by_cases hreh1 : dictIsRehashing (if dictIsRehashing d then
        dictRehashStep hash d else d)
    · rw [if_neg (not_not_intro hreh1)]
      rcases hrem1 : removeFirst k
          ((if dictIsRehashing d then dictRehashStep hash d
            else d).ht1.bucket
            (dictHashKey hash k &&&
              (if dictIsRehashing d then dictRehashStep hash d
                else d).ht1.sizemask)) with _ | c
      · exfalso
        rcases (contains_iff_buckets hwf1 k).mp hin1 with
          ⟨e, he, hek⟩ | ⟨e, he, hek⟩
        · rw [removeFirst_eq_none_iff] at hrem0
          exact hrem0 e he hek
        · rw [removeFirst_eq_none_iff] at hrem1
          exact hrem1 e he hek
      · obtain ⟨e, hkey, hwfR, hpermR, hnc⟩ :=
          remove_dict_ht1 hash _ hwf1 k _ c hrem1
        exact ⟨rfl, hwfR, ⟨e, hkey, hpermR.trans hperm1⟩, hnc⟩
    · rw [if_pos hreh1]
      exfalso
      rcases (contains_iff_buckets hwf1 k).mp hin1 with
        ⟨e, he, hek⟩ | ⟨e, he, hek⟩
      · rw [removeFirst_eq_none_iff] at hrem0
        exact hrem0 e he hek
      · rw [bucket_of_nil (hwf1.idle_ht1 hreh1)] at he
        exact absurd he (List.not_mem_nil e)
  · obtain ⟨e, hkey, hwfR, hpermR, hnc⟩ :=
      remove_dict_ht0 hash _ hwf1 k _ c hrem0
    exact ⟨rfl, hwfR, ⟨e, hkey, hpermR.trans hperm1⟩, hnc⟩

/-- C6: a successful `dictAdd(k, v)` followed immediately by
`dictFind(k)` returns the entry holding value `v`, and a successful
`dictDelete(k)` followed immediately by `dictFind(k)` reports
not-found.  Success of the add means the key was absent (with room to
grow below `LONG_MAX`); success of the delete means it was present. -/
theorem dictAdd_then_find_claim (hash : Nat → Nat) (d : Dict) (k v : Nat)
    (hwf : DictWF hash d)
    (hbound : 2 * (d.ht0.used + d.ht1.used) < LONG_MAX) :
    (¬ dictContainsKey d k →
      (dictAdd hash d k v).2 = DICT_OK ∧
      (dictFind hash (dictAdd hash d k v).1 k).2 = some (k, some v)) ∧
    (dictContainsKey d k →
      (dictDelete hash d k).2 = DICT_OK ∧
      (dictFind hash (dictDelete hash d k).1 k).2 = none) := by
  constructor
  · intro hnin
    obtain ⟨hok, hwfA, hpermA⟩ := dictAdd_success hash d k v hwf hbound hnin
    have hmem : (k, some v) ∈ (dictAdd hash d k v).1.entries :=
      hpermA.mem_iff.mpr (List.mem_cons_self _ _)
    obtain ⟨hfind, -, -⟩ := dictFind_found hash (dictAdd hash d k v).1 k
      (some v) hwfA hmem
    exact ⟨hok, hfind⟩
  · intro hin
    obtain ⟨hok, hwfD, -, hnc⟩ := dictDelete_found hash d k hwf hin
    obtain ⟨hfind, -, -⟩ := dictFind_missing hash (dictDelete hash d k).1 k
      hwfD hnc
    exact ⟨hok, hfind⟩

/-- Witness for C6: on the concrete 2-key dictionary, adding key 7 with
value 70 then finding it yields `(7, 70)`; deleting the present key 1
then finding it yields not-found. -/
theorem dictAdd_then_find_claim_witness :
    DictWF hashId sampleIdleDict ∧
    ¬ dictContainsKey sampleIdleDict 7 ∧
    dictContainsKey sampleIdleDict 1 ∧
    (dictAdd hashId sampleIdleDict 7 70).2 = DICT_OK ∧
    (dictFind hashId (dictAdd hashId sampleIdleDict 7 70).1 7).2 =
      some (7, some 70) ∧
    (dictDelete hashId sampleIdleDict 1).2 = DICT_OK ∧
    (dictFind hashId (dictDelete hashId sampleIdleDict 1).1 1).2 = none := by
  obtain ⟨hA1, hA2⟩ := (dictAdd_then_find_claim hashId sampleIdleDict 7 70
    sampleIdleDict_WF (by decide)).1 (by decide)
  obtain ⟨hB1, hB2⟩ := (dictAdd_then_find_claim hashId sampleIdleDict 1 0
    sampleIdleDict_WF (by decide)).2 (by decide)
  exact ⟨sampleIdleDict_WF, by decide, by decide, hA1, hA2, hB1, hB2⟩

/-- `_dictRehashStep` is a no-op while the safe-iterator counter is
non-zero. -/
theorem dictRehashStep_noop (hash : Nat → Nat) (d : Dict)
    (hit : d.iterators ≠ 0) : dictRehashStep hash d = d := by
  rw [dictRehashStep, if_neg hit]

/-- The shared `if (dictIsRehashing(d)) _dictRehashStep(d);` prologue is a
no-op while the safe-iterator counter is non-zero. -/
theorem opStep_noop (hash : Nat → Nat) (d : Dict) (hit : d.iterators ≠ 0) :
    (if dictIsRehashing d then dictRehashStep hash d else d) = d := by
  by_cases h : dictIsRehashing d
  · rw [if_pos h, dictRehashStep_noop hash d hit]
  · rw [if_neg h]

/-- `_dictExpandIfNeeded` returns immediately on a rehashing dictionary. -/
theorem dictExpandIfNeeded_rehashing (d : Dict) (hreh : dictIsRehashing d) :
    dictExpandIfNeeded d = (d, DICT_OK) := by
  rw [dictExpandIfNeeded, if_pos hreh]

/-- `dictSetVal` never touches `rehashidx`. -/
theorem setValAt_rehashidx (d : Dict) (loc : Nat × Nat) (v : Nat) :
    (setValAt d loc v).rehashidx = d.rehashidx := by
  rw [setValAt]
  split <;> rfl

/-- `_dictKeyIndex` always returns the post-`_dictExpandIfNeeded` state. -/
theorem dictKeyIndex_fst (hash : Nat → Nat) (d : Dict) (k : Nat) :
    (dictKeyIndex hash d k).1 = (dictExpandIfNeeded d).1 := by
  simp only [dictKeyIndex]
  rcases hE : dictExpandIfNeeded d with ⟨d2, r⟩
  dsimp only
  split
  · rfl
  · split
    · rfl
    · split
      · rfl
      · split <;> rfl

/-- `dictFind` leaves the dictionary untouched while the safe-iterator
counter is non-zero. -/
theorem dictFind_noop (hash : Nat → Nat) (d : Dict) (k : Nat)
    (hit : d.iterators ≠ 0) : (dictFind hash d k).1 = d := by
  simp only [dictFind, dictRehashStep_noop hash d hit, ite_self]
  split
  · rfl
  · split
    · rfl
    · split <;> rfl

/-- `dictGetRandomKey` leaves the dictionary untouched while the
safe-iterator counter is non-zero. -/
theorem dictGetRandomKey_noop (hash rnd : Nat → Nat) (fuel : Nat) (d : Dict)
    (hit : d.iterators ≠ 0) : (dictGetRandomKey hash rnd fuel d).1 = d := by
  simp only [dictGetRandomKey, dictRehashStep_noop hash d hit, ite_self]
  split
  · rfl
  · split <;> rfl

/-- The bounded rehash-step prologue of `dictGetSomeKeys` is a no-op
while the safe-iterator counter is non-zero. -/
theorem someKeysRehashSteps_noop (hash : Nat → Nat) :
    ∀ (n : Nat) (d : Dict), d.iterators ≠ 0 →
      someKeysRehashSteps hash n d = d := by
  intro n
  induction n with
  | zero => intro d _; rfl
  | succ m ih =>
    intro d hit
    simp only [someKeysRehashSteps]
    by_cases h : dictIsRehashing d
    · rw [if_pos h, dictRehashStep_noop hash d hit]
      exact ih d hit
    · rw [if_neg h]

/-- `dictGetSomeKeys` leaves the dictionary untouched while the
safe-iterator counter is non-zero. -/
theorem dictGetSomeKeys_noop (hash rnd : Nat → Nat) (d : Dict) (cnt : Nat)
    (hit : d.iterators ≠ 0) : (dictGetSomeKeys hash rnd d cnt).1 = d := by
  simp only [dictGetSomeKeys]
  exact someKeysRehashSteps_noop hash _ d hit

/-- `dictAdd` never changes `rehashidx` on a rehashing dictionary while
the safe-iterator counter is non-zero. -/
theorem dictAdd_rehashidx_noop (hash : Nat → Nat) (d : Dict) (k v : Nat)
    (hreh : dictIsRehashing d) (hit : d.iterators ≠ 0) :
    (dictAdd hash d k v).1.rehashidx = d.rehashidx := by
  simp only [dictAdd, dictAddRaw, opStep_noop hash d hit]
  rcases hK : dictKeyIndex hash d k with ⟨d1, oi⟩
  have hd1 : d1 = d := by
    have h := dictKeyIndex_fst hash d k
    rw [hK, dictExpandIfNeeded_rehashing d hreh] at h
    exact h
  subst hd1
  cases oi with
  | none => rfl
  | some idx =>
    simp only [if_pos hreh]
    rw [setValAt_rehashidx]

/-- `dictDelete` never changes `rehashidx` while the safe-iterator
counter is non-zero. -/
theorem dictDelete_rehashidx_noop (hash : Nat → Nat) (d : Dict) (k : Nat)
    (hit : d.iterators ≠ 0) :
    (dictDelete hash d k).1.rehashidx = d.rehashidx := by
  simp only [dictDelete, dictGenericDelete, opStep_noop hash d hit]
  split
  · rfl
  · split
    · rfl
    · split
      · rfl
      · split <;> rfl

/-- The `dictNext` loop never touches the safe-iterator counter when the
iterator is not in its pristine initial state (`index = -1`, table 0,
safe). -/
theorem dictNextLoop_iters :
    ∀ (fuel : Nat) (it : DictIterator) (d : Dict),
      (¬ (it.table = 0 ∧ it.safe = true) ∨ 0 ≤ it.index) →
      (dictNextLoop fuel it d).2.1.iterators = d.iterators := by
  intro fuel
  induction fuel with
  | zero => intro it d _; rfl
  | succ n ih =>
    intro it d h
    have hcond : ¬ (it.index = -1 ∧ it.table = 0 ∧ it.safe = true) := by
      rintro ⟨h1, h2, h3⟩
      rcases h with h | h
      · exact h ⟨h2, h3⟩
      · rw [h1] at h
        exact absurd h (by decide)
    simp only [dictNextLoop, if_neg hcond]
    split
    · split
      · split
        · split
          · exact ih _ _ (Or.inr (by norm_num))
          · rfl
        · rfl
      · split
        · rcases h with h | h
          · exact ih _ _ (Or.inl h)
          · refine ih _ _ (Or.inr ?_)
            show (0 : Int) ≤ it.index + 1
            omega
        · rfl
    · split
      · exact ih _ _ h
      · rfl

/-- The first advance of a fresh safe iterator increments the
safe-iterator counter (this — not `dictGetSafeIterator` itself — is
where the counter is bumped). -/
theorem dictNextLoop_fresh_bump (fuel : Nat) (d : Dict) :
    (dictNextLoop (fuel + 1) dictGetSafeIterator d).2.1.iterators =
      d.iterators + 1 := by
  simp only [dictNextLoop, dictGetSafeIterator, dictGetIterator]
  norm_num
  split
  · split
    · split
      · rw [dictNextLoop_iters fuel _ _ (Or.inr (by norm_num))]
      · rfl
    · rfl
  · split
    · rw [dictNextLoop_iters fuel _ _ (Or.inr (by norm_num))]
    · rfl

/-- A concrete mid-rehash dictionary carrying one registered safe
iterator (counter already bumped by a first `dictNext`). -/
def sampleRehIterDict : Dict :=
  { ht0 := { table := [[], [(1, some 10), (5, some 50)], [], []], used := 2 },
    ht1 := emptyTableOf 8, rehashidx := 0, iterators := 1 }

/-- C7 (amended): the safe-iterator protection is keyed on the
`iterators` counter, which is incremented by the first `dictNext` call on
a fresh safe iterator — not by `dictGetSafeIterator` itself.  While the
counter is non-zero, add/find/delete/sample all suppress their
opportunistic rehash step and leave `rehashidx` unchanged (find and the
samplers leave the whole dictionary untouched), and releasing the
advanced safe iterator decrements the counter. -/
theorem safe_iterator_claim (hash rnd : Nat → Nat) (d : Dict)
    (k v cnt fuel : Nat) (it : DictIterator)
    (hreh : dictIsRehashing d) (hit : d.iterators ≠ 0) :
    (dictAdd hash d k v).1.rehashidx = d.rehashidx ∧
    (dictFind hash d k).1 = d ∧
    (dictDelete hash d k).1.rehashidx = d.rehashidx ∧
    (dictGetRandomKey hash rnd fuel d).1 = d ∧
    (dictGetSomeKeys hash rnd d cnt).1 = d ∧
    (dictNext dictGetSafeIterator d).2.1.iterators = d.iterators + 1 ∧
    (it.safe = true → ¬ (it.index = -1 ∧ it.table = 0) →
      dictReleaseIterator it d = { d with iterators := d.iterators - 1 }) := by
  refine ⟨dictAdd_rehashidx_noop hash d k v hreh hit,
    dictFind_noop hash d k hit,
    dictDelete_rehashidx_noop hash d k hit,
    dictGetRandomKey_noop hash rnd fuel d hit,
    dictGetSomeKeys_noop hash rnd d cnt hit,
    dictNextLoop_fresh_bump (d.ht0.size + d.ht1.size + 1) d,
    ?_⟩
  intro hsafe hadv
  rw [dictReleaseIterator, if_pos ⟨hadv, hsafe⟩]

/-- Witness for C7: on a concrete mid-rehash dictionary with the counter
at 1, add leaves `rehashidx` at 0, find is the identity, and the first
advance of a fresh safe iterator bumps the counter to 2. -/
theorem safe_iterator_claim_witness :
    dictIsRehashing sampleRehIterDict ∧
    sampleRehIterDict.iterators ≠ 0 ∧
    (dictAdd hashId sampleRehIterDict 7 70).1.rehashidx =
      sampleRehIterDict.rehashidx ∧
    (dictFind hashId sampleRehIterDict 1).1 = sampleRehIterDict ∧
    (dictNext dictGetSafeIterator sampleRehIterDict).2.1.iterators =
      sampleRehIterDict.iterators + 1 := by
  have h := safe_iterator_claim hashId (fun _ => 0) sampleRehIterDict 7 70 1 3
    ⟨1, 0, true, [], []⟩ (by decide) (by decide)
  exact ⟨by decide, by decide, h.1, h.2.1, h.2.2.2.2.2.1⟩

/-- C7 counterexample: on a concrete mid-rehash dictionary, after
`dictGetSafeIterator` returns (which does not touch the dictionary — the
counter is still 0), a plain `dictFind` performs the opportunistic
rehash step and changes `rehashidx` (here the step finishes the rehash:
0 becomes -1), so the claimed protection does not yet hold between
opening the iterator and its first `dictNext`. -/
theorem safe_iterator_gap_counterexample :
    dictIsRehashing sampleRehDict ∧
    sampleRehDict.iterators = 0 ∧
    dictGetSafeIterator.safe = true ∧
    (dictFind hashId sampleRehDict 1).1.rehashidx ≠
      sampleRehDict.rehashidx := by
  decide

/-- A single bucket never holds more entries than the whole table. -/
theorem bucket_length_le (t : Dictht) (i : Nat) :
    (t.bucket i).length ≤ t.entries.length := by
  rcases Nat.lt_or_ge i t.table.length with hi | hi
  · rw [Dictht.bucket_eq_getElem t i hi, Dictht.entries,
      flatten_parts t.table i hi]
    simp only [List.length_append]
    omega
  · rw [Dictht.bucket, List.getD_eq_getElem?_getD, List.getElem?_eq_none hi]
    simp

/-- Whatever `dictGetRandomKey`'s retry loop returns came from `pick`
and is non-empty. -/
theorem randomPickLoop_some (rnd : Nat → Nat) (pick : Nat → List Entry) :
    ∀ (fuel p : Nat) {he : List Entry} {q : Nat},
      randomPickLoop rnd pick p fuel = some (he, q) →
      ∃ r, he = pick r ∧ he ≠ [] := by
  intro fuel
  induction fuel with
  | zero =>
    intro p he q h
    exact absurd h (by simp [randomPickLoop])
  | succ n ih =>
    intro p he q h
    simp only [randomPickLoop] at h
    by_cases hemp : (pick (rnd p)).isEmpty = true
    · rw [if_pos hemp] at h
      exact ih _ h
    · rw [if_neg hemp] at h
      have hpair := Option.some_inj.mp h
      have hfst : pick (rnd p) = he := congrArg Prod.fst hpair
      refine ⟨rnd p, hfst.symm, ?_⟩
      rw [← hfst]
      intro hnil
      exact hemp (by rw [hnil]; rfl)

/-- In a dictionary holding exactly one entry, every non-empty bucket is
exactly that singleton chain. -/
theorem pick_singleton (d1 : Dict) (e : Entry) (hent : d1.entries = [e])
    {he : List Entry}
    (hb : (∃ j, he = d1.ht0.bucket j) ∨ (∃ j, he = d1.ht1.bucket j))
    (hne : he ≠ []) : he = [e] := by
  have hlen01 : d1.ht0.entries.length + d1.ht1.entries.length = 1 := by
    have h := congrArg List.length hent
    rw [Dict.entries, List.length_append] at h
    simpa using h
  have hle : he.length ≤ 1 := by
    rcases hb with ⟨j, hj⟩ | ⟨j, hj⟩
    · have := bucket_length_le d1.ht0 j
      rw [hj]
      omega
    · have := bucket_length_le d1.ht1 j
      rw [hj]
      omega
  have hpos : 0 < he.length := List.length_pos.mpr hne
  obtain ⟨x, hxe⟩ := List.length_eq_one.mp (by omega : he.length = 1)
  have hxin : x ∈ he := by
    rw [hxe]
    exact List.mem_singleton_self x
  have hx : x ∈ d1.entries := by
    rcases hb with ⟨j, hj⟩ | ⟨j, hj⟩
    · rw [hj] at hxin
      exact (mem_dict_entries d1 x).mpr
        (Or.inl (bucket_subset_entries _ _ hxin))
    · rw [hj] at hxin
      exact (mem_dict_entries d1 x).mpr
        (Or.inr (bucket_subset_entries _ _ hxin))
  rw [hent] at hx
  rw [hxe, List.mem_singleton.mp hx]

/-- C9: `dictGetRandomKey` on an empty dictionary (no live entries in
either table) reports not-found; on a dictionary holding exactly one
entry, whenever the retry loop terminates it returns exactly that entry
(the model's `fuel` bounds C's unbounded `do..while` retry; `none` is
the still-retrying case). -/
theorem dictGetRandomKey_claim (hash rnd : Nat → Nat) (fuel : Nat)
    (d : Dict) (hwf : DictWF hash d) :
    (dictSize d = 0 → (dictGetRandomKey hash rnd fuel d).2 = none) ∧
    (∀ e : Entry, d.entries = [e] →
      (dictGetRandomKey hash rnd fuel d).2 = none ∨
      (dictGetRandomKey hash rnd fuel d).2 = some e) := by
  constructor
  · intro hsz
    rw [dictGetRandomKey, if_pos hsz]
  · intro e hent
    have hsz : ¬ dictSize d = 0 := by
      have h0 := hwf.wf0.used_eq
      have h1 := hwf.wf1.used_eq
      have h := congrArg List.length hent
      rw [Dict.entries, List.length_append] at h
      rw [dictSize]
      simp only [List.length_singleton] at h
      omega
    obtain ⟨hwf1, hperm1, -⟩ := opStep_spec hash d hwf
    simp only [dictGetRandomKey, if_neg hsz]
    set d1 := if dictIsRehashing d then dictRehashStep hash d else d
      with hd1
    have hent1 : d1.entries = [e] := by
      have h := hperm1
      rw [hent] at h
      exact List.perm_singleton.mp h
    split
    · exact Or.inl rfl
    · rename_i he p heq
      right
      obtain ⟨r, hr, hne⟩ := randomPickLoop_some rnd _ fuel 0 heq
      have hb : (∃ j, he = d1.ht0.bucket j) ∨
          (∃ j, he = d1.ht1.bucket j) := by
        by_cases hreh1 : dictIsRehashing d1
        · rw [if_pos hreh1] at hr
          split at hr
          · exact Or.inr ⟨_, hr⟩
          · exact Or.inl ⟨_, hr⟩
        · rw [if_neg hreh1] at hr
          exact Or.inl ⟨_, hr⟩
      have hsing := pick_singleton _ e hent1 hb hne
      rw [hsing]
      simp [Nat.mod_one]

/-- A concrete well-formed dictionary with exactly one entry. -/
def sampleOneDict : Dict :=
  { ht0 := { table := [[], [(1, some 10)], [], []], used := 1 },
    ht1 := emptyHt, rehashidx := -1, iterators := 0 }

theorem sampleOneDict_WF : DictWF hashId sampleOneDict := by
  refine
    { wf0 := ⟨Or.inr ⟨2, by omega, by decide⟩, by decide, ?_⟩
      wf1 := HtWF_emptyHt hashId
      idle_ht1 := fun _ => rfl
      reh_nonneg := fun h => absurd (by decide) h
      reh_lt := fun h => absurd (by decide) h
      reh_ht1 := fun h => absurd (by decide) h
      reh_ht0 := fun h => absurd (by decide) h
      below_empty := fun h => absurd (by decide) h
      nodup := by decide }
  intro i hi e he
  have hi4 : i < 4 := by simpa [sampleOneDict] using hi
  interval_cases i <;> simp [sampleOneDict] at he
  subst he
  decide

theorem dictCreate_WF : DictWF hashId dictCreate := by
  exact
    { wf0 := HtWF_emptyHt hashId
      wf1 := HtWF_emptyHt hashId
      idle_ht1 := fun _ => rfl
      reh_nonneg := fun h => absurd (by decide) h
      reh_lt := fun h => absurd (by decide) h
      reh_ht1 := fun h => absurd (by decide) h
      reh_ht0 := fun h => absurd (by decide) h
      below_empty := fun h => absurd (by decide) h
      nodup := by decide }

/-- Witness for C9: the empty `dictCreate` yields not-found; the
one-entry dictionary yields exactly its entry (and with the concrete
random stream `1,1,...` the retry loop does terminate on it). -/
theorem dictGetRandomKey_claim_witness :
    DictWF hashId dictCreate ∧ dictSize dictCreate = 0 ∧
    (dictGetRandomKey hashId (fun _ => 1) 5 dictCreate).2 = none ∧
    DictWF hashId sampleOneDict ∧
    sampleOneDict.entries = [(1, some 10)] ∧
    ((dictGetRandomKey hashId (fun _ => 1) 5 sampleOneDict).2 = none ∨
     (dictGetRandomKey hashId (fun _ => 1) 5 sampleOneDict).2 =
       some (1, some 10)) ∧
    (dictGetRandomKey hashId (fun _ => 1) 5 sampleOneDict).2 =
      some (1, some 10) := by
  refine ⟨dictCreate_WF, by decide, ?_, sampleOneDict_WF, by decide, ?_,
    by decide⟩
  · exact (dictGetRandomKey_claim hashId (fun _ => 1) 5 dictCreate
      dictCreate_WF).1 (by decide)
  · exact (dictGetRandomKey_claim hashId (fun _ => 1) 5 sampleOneDict
      sampleOneDict_WF).2 (1, some 10) (by decide)

/-- C8 (amended): on visiting an empty bucket, `dictGetSomeKeys`
increments the consecutive-empty counter and re-randomizes the probe
index (resetting the counter to 0) exactly when the incremented counter
is both at least 5 AND strictly greater than `count` — not simply after
5 consecutive misses; with `count >= 5` the fifth miss does not
re-randomize. -/
theorem someKeysVisit_empty_claim (rnd : Nat → Nat) (d : Dict)
    (count maxsizemask tables j : Nat) (st : SomeKeysState)
    (hskip : ¬ (tables = 2 ∧ j = 0 ∧ st.i < d.rehashidx.toNat))
    (hin : st.i < (d.ht j).size)
    (hemp : (d.ht j).bucket st.i = []) :
    ((5 ≤ st.emptylen + 1 ∧ count < st.emptylen + 1) →
      someKeysVisit rnd d count maxsizemask tables j st =
        (SomeKeysState.mk (rnd st.p &&& maxsizemask) 0 (st.p + 1) st.acc,
         false)) ∧
    (¬ (5 ≤ st.emptylen + 1 ∧ count < st.emptylen + 1) →
      someKeysVisit rnd d count maxsizemask tables j st =
        (SomeKeysState.mk st.i (st.emptylen + 1) st.p st.acc, false)) := by
  rw [someKeysVisit, if_neg hskip, if_neg (Nat.not_le.mpr hin)]
  rw [hemp]
  constructor
  · intro hc
    simp [hc]
  · intro hc
    simp [hc]
    omega

/-- Witness for C8's amended statement: with `count = 5`, the six-in-a-row
miss re-randomizes (counter 5 -> 6 > 5), while the exactly-five miss only
increments the counter. -/
theorem someKeysVisit_empty_claim_witness :
    (5 ≤ 5 + 1 ∧ 5 < 5 + 1) ∧
    someKeysVisit (fun _ => 2) sampleIdleDict 5 3 1 0 ⟨0, 5, 7, []⟩ =
      (SomeKeysState.mk 2 0 8 [], false) ∧
    ¬ (5 ≤ 4 + 1 ∧ 5 < 4 + 1) ∧
    someKeysVisit (fun _ => 2) sampleIdleDict 5 3 1 0 ⟨0, 4, 7, []⟩ =
      (SomeKeysState.mk 0 5 7 [], false) := by
  have h1 := someKeysVisit_empty_claim (fun _ => 2) sampleIdleDict 5 3 1 0
    ⟨0, 5, 7, []⟩ (by decide) (by decide) (by decide)
  have h2 := someKeysVisit_empty_claim (fun _ => 2) sampleIdleDict 5 3 1 0
    ⟨0, 4, 7, []⟩ (by decide) (by decide) (by decide)
  refine ⟨by decide, ?_, by decide, ?_⟩
  · exact (h1.1 (by decide)).trans (by decide)
  · exact (h2.2 (by decide)).trans (by decide)

/-- C8 counterexample: with `count = 5`, after five consecutive
empty-bucket visits (the counter reaching 5) the sampler does NOT
re-randomize its position: the state only records the fifth miss, the
probe index is unchanged, and the counter is not reset. -/
theorem someKeys_rerandomize_counterexample :
    sampleIdleDict.ht0.bucket 0 = [] ∧
    (someKeysVisit (fun _ => 2) sampleIdleDict 5 3 1 0 ⟨0, 4, 7, []⟩).1.i
      = 0 ∧
    (someKeysVisit (fun _ => 2) sampleIdleDict 5 3 1 0
      ⟨0, 4, 7, []⟩).1.emptylen = 5 ∧
    (someKeysVisit (fun _ => 2) sampleIdleDict 5 3 1 0 ⟨0, 4, 7, []⟩).1.p
      = 7 := by
  decide

/-- One round of the `rev` bit hack: swap `s`-blocks selected by mask
`M` (this is the loop body of `rev64Go`, with the round's concrete mask
fed in). -/
def swapStep (s M v : Nat) : Nat :=
  ((v >>> s) &&& M) ||| (((v <<< s) % 2 ^ 64) &&& compl64 M)

/-- `rev` is its six rounds with the concrete Stanford masks. -/
theorem rev64_eq_steps (v : Nat) :
    rev64 v = swapStep 1 0x5555555555555555 (swapStep 2 0x3333333333333333
      (swapStep 4 0x0F0F0F0F0F0F0F0F (swapStep 8 0x00FF00FF00FF00FF
        (swapStep 16 0x0000FFFF0000FFFF
          (swapStep 32 0x00000000FFFFFFFF v))))) := rfl

/-- A swap round moves bit `i ^^^ s` to bit `i`. -/
theorem swapStep_testBit (s M v : Nat) (hv : v < 2 ^ 64) (hMlt : M < 2 ^ 64)
    (hM : ∀ i, i < 64 → M.testBit i = decide (i &&& s = 0))
    (hx : ∀ i, i < 64 → (i &&& s = 0 → i ^^^ s = i + s ∧ i + s < 64) ∧
      (¬ i &&& s = 0 → s ≤ i ∧ i ^^^ s = i - s)) :
    (∀ i, i < 64 → (swapStep s M v).testBit i = v.testBit (i ^^^ s)) ∧
    swapStep s M v < 2 ^ 64 := by
  constructor
  · intro i hi
    rw [swapStep, Nat.testBit_or, Nat.testBit_and, Nat.testBit_and,
      Nat.testBit_shiftRight, Nat.testBit_mod_two_pow, Nat.testBit_shiftLeft,
      hM i hi, compl64, Nat.testBit_xor, Nat.testBit_two_pow_sub_one,
      hM i hi]
    by_cases hc : i &&& s = 0
    · obtain ⟨h1, h2⟩ := (hx i hi).1 hc
      simp [hc, hi, h1, Nat.add_comm]
    · obtain ⟨h1, h2⟩ := (hx i hi).2 hc
      simp [hc, hi, h1, h2]
  · apply Nat.or_lt_two_pow
    · exact lt_of_le_of_lt (le_trans Nat.and_le_left
        (by rw [Nat.shiftRight_eq_div_pow]; exact Nat.div_le_self v (2 ^ s)))
        hv
    · exact lt_of_le_of_lt Nat.and_le_right
        (Nat.xor_lt_two_pow (by norm_num) hMlt)

/-- `rev(v)` reverses the 64 bits of `v`, and stays below `2 ^ 64`. -/
theorem rev64_spec (v : Nat) (hv : v < 2 ^ 64) :
    (∀ i, i < 64 → (rev64 v).testBit i = v.testBit (63 - i)) ∧
    rev64 v < 2 ^ 64 := by
  obtain ⟨hb32, hl32⟩ := swapStep_testBit 32 0x00000000FFFFFFFF v hv
    (by norm_num) (by decide) (by decide)
  obtain ⟨hb16, hl16⟩ := swapStep_testBit 16 0x0000FFFF0000FFFF _ hl32
    (by norm_num) (by decide) (by decide)
  obtain ⟨hb8, hl8⟩ := swapStep_testBit 8 0x00FF00FF00FF00FF _ hl16
    (by norm_num) (by decide) (by decide)
  obtain ⟨hb4, hl4⟩ := swapStep_testBit 4 0x0F0F0F0F0F0F0F0F _ hl8
    (by norm_num) (by decide) (by decide)
  obtain ⟨hb2, hl2⟩ := swapStep_testBit 2 0x3333333333333333 _ hl4
    (by norm_num) (by decide) (by decide)
  obtain ⟨hb1, hl1⟩ := swapStep_testBit 1 0x5555555555555555 _ hl2
    (by norm_num) (by decide) (by decide)
  rw [rev64_eq_steps]
  refine ⟨?_, hl1⟩
  intro i hi
  have hbnd : ∀ j, j < 64 → j ^^^ 1 < 64 ∧ j ^^^ 1 ^^^ 2 < 64 ∧
      j ^^^ 1 ^^^ 2 ^^^ 4 < 64 ∧ j ^^^ 1 ^^^ 2 ^^^ 4 ^^^ 8 < 64 ∧
      j ^^^ 1 ^^^ 2 ^^^ 4 ^^^ 8 ^^^ 16 < 64 := by decide
  obtain ⟨hc1, hc2, hc3, hc4, hc5⟩ := hbnd i hi
  rw [hb1 i hi, hb2 _ hc1, hb4 _ hc2, hb8 _ hc3, hb16 _ hc4, hb32 _ hc5]
  rw [(by decide : ∀ j, j < 64 → j ^^^ 1 ^^^ 2 ^^^ 4 ^^^ 8 ^^^ 16 ^^^ 32 =
    63 - j) i hi]

/-- Reversal of the low `b` bits of a number (the specification-side
mirror of what `rev` does on the masked cursor): peel the low bit into
the top position. -/
def revNat : Nat → Nat → Nat
  | 0, _ => 0
  | b + 1, v => 2 ^ b * (v % 2) + revNat b (v / 2)

theorem revNat_lt : ∀ b v, revNat b v < 2 ^ b := by
  intro b
  induction b with
  | zero => intro v; rw [revNat]; norm_num
  | succ n ih =>
    intro v
    rw [revNat]
    have h1 := ih (v / 2)
    have h2 : v % 2 < 2 := Nat.mod_lt v (by norm_num)
    have h3 : 2 ^ (n + 1) = 2 ^ n * 2 := by ring
    nlinarith [h1, h2]

theorem revNat_testBit : ∀ b v i, i < b →
    (revNat b v).testBit i = v.testBit (b - 1 - i) := by
  intro b
  induction b with
  | zero => intro v i hi; omega
  | succ n ih =>
    intro v i hi
    rw [revNat, Nat.testBit_mul_pow_two_add _ (revNat_lt n (v / 2))]
    by_cases hin : i < n
    · rw [if_pos hin, ih (v / 2) i hin, Nat.testBit_div_two]
      congr 1
      omega
    · have hieq : i = n := by omega
      subst hieq
      rw [if_neg hin, Nat.sub_self]
      have h2 : v % 2 = v % 2 ^ 1 := by norm_num
      rw [h2, Nat.testBit_mod_two_pow]
      simp

theorem revNat_zero_right : ∀ b, revNat b 0 = 0 := by
  intro b
  induction b with
  | zero => rfl
  | succ n ih => rw [revNat]; simp [ih]

theorem revNat_testBit_high (b v i : Nat) (hi : b ≤ i) :
    (revNat b v).testBit i = false :=
  Nat.testBit_lt_two_pow (lt_of_lt_of_le (revNat_lt b v)
    (Nat.pow_le_pow_right (by norm_num) hi))

theorem revNat_involution (b v : Nat) (hv : v < 2 ^ b) :
    revNat b (revNat b v) = v := by
  apply Nat.eq_of_testBit_eq
  intro i
  by_cases hi : i < b
  · rw [revNat_testBit b _ i hi, revNat_testBit b v (b - 1 - i) (by omega)]
    congr 1
    omega
  · rw [revNat_testBit_high b _ i (by omega),
      Nat.testBit_lt_two_pow (lt_of_lt_of_le hv
        (Nat.pow_le_pow_right (by norm_num) (by omega)))]

/-- `rev` of an in-range cursor with the high cursor bits forced to 1
(`v | ~m0`): the low `64 - b` bits become all-ones below the reversed
cursor. -/
theorem rev64_or_compl (b v : Nat) (hb : b ≤ 63) (hv : v < 2 ^ b) :
    rev64 (v ||| compl64 (2 ^ b - 1)) =
      2 ^ (64 - b) * revNat b v + (2 ^ (64 - b) - 1) := by
  have hv64 : v < 2 ^ 64 :=
    lt_of_lt_of_le hv (Nat.pow_le_pow_right (by norm_num) (by omega))
  have hm64 : (2:Nat) ^ b - 1 < 2 ^ 64 := by
    have : (2:Nat) ^ b ≤ 2 ^ 64 := Nat.pow_le_pow_right (by norm_num) (by omega)
    omega
  have harg : (v ||| compl64 (2 ^ b - 1)) < 2 ^ 64 :=
    Nat.or_lt_two_pow hv64 (Nat.xor_lt_two_pow (by norm_num) hm64)
  obtain ⟨hbit, hlt⟩ := rev64_spec _ harg
  have hpow : (2:Nat) ^ (64 - b) * 2 ^ b = 2 ^ 64 := by
    rw [← pow_add]
    congr 1
    omega
  have hrl := revNat_lt b v
  apply Nat.eq_of_testBit_eq
  intro i
  by_cases hi : i < 64
  · rw [hbit i hi, Nat.testBit_or,
      Nat.testBit_mul_pow_two_add _
        (show (2:Nat) ^ (64 - b) - 1 < 2 ^ (64 - b) from
          Nat.sub_lt (Nat.pos_pow_of_pos _ (by norm_num)) one_pos),
      compl64, Nat.testBit_xor, Nat.testBit_two_pow_sub_one,
      Nat.testBit_two_pow_sub_one]
    by_cases hib : i < 64 - b
    · rw [if_pos hib, Nat.testBit_two_pow_sub_one]
      simp [show 63 - i < 64 from by omega, show ¬ (63 - i < b) from by omega,
        hib]
    · rw [if_neg hib, revNat_testBit b v _ (by omega)]
      simp [show 63 - i < 64 from by omega, show 63 - i < b from by omega]
      congr 1
      omega
  · have hrhs : 2 ^ (64 - b) * revNat b v + (2 ^ (64 - b) - 1) < 2 ^ 64 := by
      have hpos : 0 < (2:Nat) ^ (64 - b) := Nat.pos_pow_of_pos _ (by norm_num)
      calc 2 ^ (64 - b) * revNat b v + (2 ^ (64 - b) - 1)
          < 2 ^ (64 - b) * revNat b v + 2 ^ (64 - b) := by omega
        _ = 2 ^ (64 - b) * (revNat b v + 1) := by ring
        _ ≤ 2 ^ (64 - b) * 2 ^ b := Nat.mul_le_mul_left _ (by omega)
        _ = 2 ^ 64 := hpow
    rw [Nat.testBit_lt_two_pow (lt_of_lt_of_le hlt
      (Nat.pow_le_pow_right (by norm_num) (by omega))),
      Nat.testBit_lt_two_pow (lt_of_lt_of_le hrhs
        (Nat.pow_le_pow_right (by norm_num) (by omega)))]

/-- Adding 1 to the all-ones-below reversed cursor carries straight into
the reversed-cursor block (wrapping at `2 ^ 64`). -/
theorem revCursor_incr (b r : Nat) (hb : b ≤ 63) (hr : r < 2 ^ b) :
    (2 ^ (64 - b) * r + (2 ^ (64 - b) - 1) + 1) % 2 ^ 64 =
      2 ^ (64 - b) * ((r + 1) % 2 ^ b) := by
  have hpow : (2:Nat) ^ (64 - b) * 2 ^ b = 2 ^ 64 := by
    rw [← pow_add]
    congr 1
    omega
  have hpos : 0 < (2:Nat) ^ (64 - b) := Nat.pos_pow_of_pos _ (by norm_num)
  have h1 : 2 ^ (64 - b) * r + (2 ^ (64 - b) - 1) + 1 =
      2 ^ (64 - b) * (r + 1) := by
    have h2 : 2 ^ (64 - b) * (r + 1) = 2 ^ (64 - b) * r + 2 ^ (64 - b) := by
      ring
    omega
  rw [h1]
  rcases Nat.lt_or_ge (r + 1) (2 ^ b) with hlt | hge
  · rw [Nat.mod_eq_of_lt ((Nat.mul_lt_mul_left hpos).mpr hlt |>.trans_le
      (le_of_eq hpow)), Nat.mod_eq_of_lt hlt]
  · have heq : r + 1 = 2 ^ b := by omega
    rw [heq, hpow, Nat.mod_self, Nat.mod_self, mul_zero]

/-- `rev` of a pure high-block value recovers the `b`-bit reversal. -/
theorem rev64_high_block (b u : Nat) (hb : b ≤ 63) (hu : u < 2 ^ b) :
    rev64 (2 ^ (64 - b) * u) = revNat b u := by
  have hpow : (2:Nat) ^ (64 - b) * 2 ^ b = 2 ^ 64 := by
    rw [← pow_add]
    congr 1
    omega
  have harg : 2 ^ (64 - b) * u < 2 ^ 64 := by nlinarith
  obtain ⟨hbit, hlt⟩ := rev64_spec _ harg
  apply Nat.eq_of_testBit_eq
  intro i
  by_cases hi : i < 64
  · rw [hbit i hi, Nat.testBit_mul_pow_two]
    by_cases hib : i < b
    · rw [revNat_testBit b u i hib]
      simp [show 64 - b ≤ 63 - i from by omega]
      congr 1
      omega
    · rw [revNat_testBit_high b u i (by omega)]
      simp [show ¬ (64 - b ≤ 63 - i) from by omega]
  · rw [Nat.testBit_lt_two_pow (lt_of_lt_of_le hlt
      (Nat.pow_le_pow_right (by norm_num) (by omega))),
      revNat_testBit_high b u i (by omega)]

/-- The cursor update of `dictScan` on an in-range cursor of a `2 ^ b`
table is the reverse-binary increment: reverse, add one (mod the table
size), reverse back. -/
theorem scanNextCursor_masked (b v : Nat) (hb : b ≤ 63) (hv : v < 2 ^ b) :
    scanNextCursor v (2 ^ b - 1) = revNat b ((revNat b v + 1) % 2 ^ b) := by
  rw [scanNextCursor, rev64_or_compl b v hb hv,
    revCursor_incr b _ hb (revNat_lt b v),
    rev64_high_block b _ hb (Nat.mod_lt _ (Nat.pos_pow_of_pos _ (by norm_num)))]

/-- Starting from cursor 0 on a `2 ^ b`-slot table, the `k`-th cursor of
the scan is the `b`-bit reversal of `k`: the cursor walk is conjugate to
`+1 (mod size)`. -/
theorem scanIter_orbit (b : Nat) (hb : b ≤ 63) :
    ∀ k, k ≤ 2 ^ b →
      (fun v => scanNextCursor v (2 ^ b - 1))^[k] 0 =
        revNat b (k % 2 ^ b) := by
  intro k
  induction k with
  | zero =>
    intro _
    simp [revNat_zero_right]
  | succ n ih =>
    intro hk
    rw [Function.iterate_succ_apply', ih (by omega)]
    have hn : n < 2 ^ b := by omega
    rw [Nat.mod_eq_of_lt hn]
    show scanNextCursor (revNat b n) (2 ^ b - 1) = revNat b ((n + 1) % 2 ^ b)
    rw [scanNextCursor_masked b _ hb (revNat_lt b n), revNat_involution b n hn]

/-- A scan session over an unchanging, non-rehashing dictionary: the
final cursor is the iterated cursor walk, and every bucket at a visited
cursor is emitted. -/
theorem scanSession_replicate (d : Dict) (hsz : ¬ dictSize d = 0)
    (hidle : ¬ dictIsRehashing d) :
    ∀ (n : Nat) (v : Nat),
      (scanSession (List.replicate n d) v).2 =
        (fun w => scanNextCursor w d.ht0.sizemask)^[n] v ∧
      ∀ k, k < n → ∀ e ∈ d.ht0.bucket
        (((fun w => scanNextCursor w d.ht0.sizemask)^[k] v) &&&
          d.ht0.sizemask),
        e ∈ (scanSession (List.replicate n d) v).1 := by
  intro n
  induction n with
  | zero =>
    intro v
    exact ⟨rfl, fun k hk => absurd hk (by omega)⟩
  | succ m ih =>
    intro v
    rw [List.replicate_succ, scanSession, dictScan, if_neg hsz,
      if_pos hidle]
    obtain ⟨ihc, ihm⟩ := ih (scanNextCursor v d.ht0.sizemask)
    constructor
    · show (scanSession (List.replicate m d)
        (scanNextCursor v d.ht0.sizemask)).2 = _
      rw [ihc, ← Function.iterate_succ_apply]
    · intro k hk e he
      show e ∈ d.ht0.bucket (v &&& d.ht0.sizemask) ++
        (scanSession (List.replicate m d)
          (scanNextCursor v d.ht0.sizemask)).1
      rw [List.mem_append]
      cases k with
      | zero =>
        exact Or.inl (by simpa using he)
      | succ j =>
        refine Or.inr (ihm j (by omega) e ?_)
        rw [← Function.iterate_succ_apply]
        exact he

/-- C1 (amended): on a dictionary that is not rehashing and is not
modified between calls, each `dictScan` call emits exactly the bucket
selected by the masked cursor, and the session started at cursor 0
returns to cursor 0 for the first time after exactly `size` calls,
having emitted every entry of the dictionary at least once.  (The
original unrestricted-interleaving claim is false: a shrink started
mid-session loses keys, see the counterexample.) -/
theorem dictScan_claim (hash : Nat → Nat) (d : Dict) (b : Nat)
    (hwf : DictWF hash d) (hidle : ¬ dictIsRehashing d)
    (hb : d.ht0.table.length = 2 ^ b) (hble : b ≤ 63)
    (hsz : ¬ dictSize d = 0) :
    (∀ v, dictScan d v = (d.ht0.bucket (v &&& d.ht0.sizemask),
        scanNextCursor v d.ht0.sizemask)) ∧
    (scanSession (List.replicate (2 ^ b) d) 0).2 = 0 ∧
    (∀ k, 0 < k → k < 2 ^ b →
      (scanSession (List.replicate k d) 0).2 ≠ 0) ∧
    ∀ e ∈ d.entries, e ∈ (scanSession (List.replicate (2 ^ b) d) 0).1 := by
  have hmask : d.ht0.sizemask = 2 ^ b - 1 := by
    rw [Dictht.sizemask, Dictht.size, hb]
  have hses := scanSession_replicate d hsz hidle
  refine ⟨?_, ?_, ?_, ?_⟩
  · intro v
    rw [dictScan, if_neg hsz, if_pos hidle]
  · rw [(hses (2 ^ b) 0).1]
    simp only [hmask]
    rw [scanIter_orbit b hble (2 ^ b) (le_refl _), Nat.mod_self,
      revNat_zero_right]
  · intro k hk0 hkb
    rw [(hses k 0).1]
    simp only [hmask]
    rw [scanIter_orbit b hble k (by omega), Nat.mod_eq_of_lt hkb]
    intro h0
    have := revNat_involution b k hkb
    rw [h0, revNat_zero_right] at this
    omega
  · intro e he
    have he0 : e ∈ d.ht0.entries := by
      rcases (mem_dict_entries d e).mp he with h | h
      · exact h
      · rw [Dictht.entries, hwf.idle_ht1 hidle] at h
        exact absurd h (List.not_mem_nil e)
    obtain ⟨i, hi, hmem⟩ := (mem_entries_iff d.ht0 e).mp he0
    have hib : i < 2 ^ b := by omega
    refine (hses (2 ^ b) 0).2 (revNat b i)
      (lt_of_lt_of_le (revNat_lt b i) (le_refl _)) e ?_
    have horb : (fun w => scanNextCursor w d.ht0.sizemask)^[revNat b i] 0
        = i := by
      simp only [hmask]
      rw [scanIter_orbit b hble (revNat b i) (le_of_lt (revNat_lt b i)),
        Nat.mod_eq_of_lt (revNat_lt b i), revNat_involution b i hib]
    rw [horb, hmask, Nat.and_pow_two_sub_one_eq_mod, Nat.mod_eq_of_lt hib,
      Dictht.bucket_eq_getElem d.ht0 i hi]
    exact hmem

/-- Witness for C1: on the concrete 4-slot 2-key dictionary, the session
of 4 scans from cursor 0 ends back at 0 and emits both entries. -/
theorem dictScan_claim_witness :
    DictWF hashId sampleIdleDict ∧ ¬ dictIsRehashing sampleIdleDict ∧
    sampleIdleDict.ht0.table.length = 2 ^ 2 ∧ ¬ dictSize sampleIdleDict = 0 ∧
    (scanSession (List.replicate (2 ^ 2) sampleIdleDict) 0).2 = 0 ∧
    ∀ e ∈ sampleIdleDict.entries,
      e ∈ (scanSession (List.replicate (2 ^ 2) sampleIdleDict) 0).1 := by
  have h := dictScan_claim hashId sampleIdleDict 2 sampleIdleDict_WF
    (by decide) (by decide) (by omega) (by decide)
  exact ⟨sampleIdleDict_WF, by decide, by decide, by decide, h.2.1, h.2.2.2⟩

/-- A 16-slot dictionary holding only key 4 (bucket 4). -/
def scanBigDict : Dict :=
  Dict.mk
    (Dictht.mk ((List.replicate 16 ([] : List Entry)).set 4 [(4, some 0)]) 1)
    emptyHt (-1) 0

/-- The same dictionary right after `dictExpand(d, 4)` started a shrink
to 4 slots. -/
def scanShrinkDict : Dict :=
  { ht0 := scanBigDict.ht0,
    ht1 := { table := List.replicate 4 [], used := 0 },
    rehashidx := 0, iterators := 0 }

/-- The dictionary once the shrink completed: 4 slots, key 4 now in
bucket 0. -/
def scanSmallDict : Dict :=
  Dict.mk
    (Dictht.mk ((List.replicate 4 ([] : List Entry)).set 0 [(4, some 0)]) 1)
    emptyHt (-1) 0

/-- C1 counterexample: key 4 is present throughout a legitimate
shrinking session (16 slots, then the `dictExpand` to 4 slots, then the
completed rehash — both transitions are the code's own), the session
starts at cursor 0, feeds each returned cursor to the next call and
stops when the cursor returns to 0 — yet nothing is ever emitted: the
cursors run 0, 8, 2, 1, 3, 0 and every visited bucket is empty at visit
time, while key 4's bucket is never visited. -/
theorem dictScan_shrink_counterexample :
    dictContainsKey scanBigDict 4 ∧
    dictContainsKey scanShrinkDict 4 ∧
    dictContainsKey scanSmallDict 4 ∧
    dictExpand scanBigDict 4 = (scanShrinkDict, DICT_OK) ∧
    (dictRehash hashId scanShrinkDict 1).1 = scanSmallDict ∧
    scanSession [scanBigDict, scanShrinkDict, scanSmallDict, scanSmallDict,
      scanSmallDict] 0 = ([], 0) := by
  decide
